import Mathlib

/-!
Fan-out broadcast dispatcher (`hpx/collectives/broadcast_direct.hpp`).

A shallow embedding of `hpx::lcos::broadcast`, `broadcast_with_index`,
`broadcast_post` and the recursive dispatch routines `detail::broadcast_impl`
and `detail::broadcast_post_impl`.

Modelling decisions.

* A target (`hpx::id_type`) is a value of an arbitrary type `α`.
* The forwarded arguments `vs...` are fixed for one broadcast, so an action is
  a function of the target (and of the index for `broadcast_with_index`).
  Its outcome is the state of the returned future once it is ready: a value
  or an exception (`Except`).
* Every call into the invocation substrate (`hpx::async`, `hpx::post`,
  `async_colocated`, `post_colocated`) is recorded as an `Event`; a routine
  returns the list of events it and the routines it spawned have issued
  (spawned routines in spawn order, each right after its spawn event),
  together with its result.
* `std::size_t` is `Nat`: every index that is computed is bounded by the
  length of the top-level target list.
* `util::calculate_fanout` and the constant `HPX_BROADCAST_FANOUT` are
  parameters (`calculate_fanout`, `local_fanout`).
* Undefined behaviour (division by zero, reading the first element of an
  empty vector, an out-of-range subscript) and exhausted recursion fuel are
  `none`.
-/

namespace hpx.lcos

/-- Exceptions a result handle can carry: the `hpx::error::bad_parameter`
exception built by the entry points (with the function name and the message
given to `HPX_GET_EXCEPTION` / `HPX_THROW_EXCEPTION`), or an exception raised
while an action was executed. -/
inductive Exception (ε : Type) where
  | bad_parameter (func : String) (msg : String)
  | remote (e : ε)
  deriving DecidableEq, Repr

/-- One call into the action invocation substrate. -/
inductive Event (α : Type) where
  /-- The call `hpx::async(act, id, vs...)`, or with the index appended. -/
  | async (id : α) (index : Option Nat)
  /-- The call `hpx::post(act, id, vs...)`, or with the index appended. -/
  | post (id : α) (index : Option Nat)
  /-- The call `async_colocated<broadcast_impl_action>(id, act, ids, global_idx, IsVoid(), vs...)`. -/
  | async_colocated (id : α) (ids : List α) (global_idx : Nat) (is_void : Bool)
  /-- The call `post_colocated<broadcast_impl_action>(id, act, ids, global_idx, vs...)`. -/
  | post_colocated (id : α) (ids : List α) (global_idx : Nat)
  deriving DecidableEq, Repr

/-- The action type handed to the dispatch routines: a registered action, or
the tag type `detail::broadcast_with_index<Action>`, whose action takes the
index as its last argument. -/
inductive Action (α ε R : Type) where
  | plain (f : α → Except (Exception ε) R)
  | with_index (f : α → Nat → Except (Exception ε) R)

/-- The default of the macro `HPX_BROADCAST_FANOUT`, the local fan-out of the
dispatch routines; a build may define another value, so the routines below
take the constant as the parameter `local_fanout`. -/
def HPX_BROADCAST_FANOUT : Nat := 16

namespace detail

/-- The two overloads of `broadcast_invoke` without continuation: the future
pushed to `futures`, and the substrate call that produced it. -/
def broadcast_invoke {α ε R : Type} :
    Action α ε R → α → Nat → Event α × Except (Exception ε) R
  | .plain f, id, _ => (.async id none, f id)
  | .with_index f, id, global_idx => (.async id (some global_idx), f id global_idx)

/-- The two overloads of `broadcast_invoke` taking a continuation `cont`
that is attached with `.then`. -/
def broadcast_invoke_then {α ε R β : Type}
    (cont : Except (Exception ε) R → Except (Exception ε) β) :
    Action α ε R → α → Nat → Event α × Except (Exception ε) β
  | .plain f, id, _ => (.async id none, cont (f id))
  | .with_index f, id, global_idx =>
      (.async id (some global_idx), cont (f id global_idx))

/-- The two overloads of `broadcast_invoke_apply`. -/
def broadcast_invoke_apply {α ε R : Type} : Action α ε R → α → Nat → Event α
  | .plain _, id, _ => .post id none
  | .with_index _, id, global_idx => .post id (some global_idx)

/-- The continuation `return_void`: its body is empty. -/
def return_void {ε : Type} (_ : List (Except (Exception ε) Unit)) :
    Except (Exception ε) Unit :=
  .ok ()

/-- The continuation `wrap_into_vector`: `r.get()` rethrows the exception of a
failed future. -/
def wrap_into_vector {ε R : Type} :
    Except (Exception ε) R → Except (Exception ε) (List R)
  | .ok v => .ok [v]
  | .error e => .error e

/-- The loop of `return_result_type` over the ready futures `fres`, started
with the accumulator `res`; `f.get()` rethrows the exception of a failed
future. -/
def return_result_type_loop {ε R : Type} :
    List R → List (Except (Exception ε) (List R)) → Except (Exception ε) (List R)
  | res, [] => .ok res
  | _, .error e :: _ => .error e
  | res, .ok t :: fres => return_result_type_loop (res ++ t) fres

/-- The continuation `return_result_type`. -/
def return_result_type {ε R : Type}
    (fres : List (Except (Exception ε) (List R))) : Except (Exception ε) (List R) :=
  return_result_type_loop [] fres

/-- The loop `for (i = 0; i != local_size; ++i) invoke(ids[i], global_idx + i)`
of the three dispatch routines, with `todo` iterations left before `i` reaches
`local_size`. -/
def invoke_loop {α β : Type} (invoke : α → Nat → β) (ids : List α)
    (global_idx : Nat) : Nat → Nat → Option (List β)
  | 0, _ => some []
  | todo + 1, i =>
    match ids[i]? with
    | none => none
    | some id =>
      (invoke_loop invoke ids global_idx todo (i + 1)).map
        (fun rest => invoke id (global_idx + i) :: rest)

/-- The arguments of one co-located spawn issued by the chunk loop: the
target `id` the routine is run at, the chunk `ids_next` and the offset
`global_idx + applied`. -/
structure Spawn (α : Type) where
  id : α
  ids : List α
  global_idx : Nat
  deriving DecidableEq, Repr

/-- The loop `while (it != ids.end())` of the three dispatch routines, where
`it = ids.begin() + applied`; it returns the spawns in the order they are
issued. -/
def chunk_loop {α : Type} (ids : List α) (fanout global_idx : Nat) :
    Nat → Nat → Option (List (Spawn α))
  | 0, _ => none
  | fuel + 1, applied =>
    if applied = ids.length then some []
    else
      let next_fan := min fanout (ids.length - applied)
      let ids_next := (ids.drop applied).take next_fan
      match ids_next with
      | [] => none
      | id :: _ =>
        (chunk_loop ids fanout global_idx fuel (applied + next_fan)).map
          (fun rest => ⟨id, ids_next, global_idx + applied⟩ :: rest)

/-- What one execution of a dispatch routine issues itself: the entries
the local loop has put into `broadcast_futures` (with the call made for
each), and the co-located spawns of the chunk loop. -/
structure Issued (α β : Type) where
  direct : List (Event α × β)
  spawns : List (Spawn α)

/-- The statements of `broadcast_impl` (both overloads) from the computation
of `local_size` to the end of the chunk loop, for a non-empty `ids`;
`invoke` is the call made in the local loop. The division
`ids.size() / fanout` is undefined for `fanout = 0`. -/
def broadcast_impl_issue {α β : Type} (local_fanout : Nat)
    (calculate_fanout : Nat → Nat → Nat) (invoke : α → Nat → Event α × β)
    (fuel : Nat) (ids : List α) (global_idx : Nat) : Option (Issued α β) :=
  let local_size := min ids.length local_fanout
  let fanout := calculate_fanout ids.length local_fanout
  if fanout = 0 then none
  else
    match invoke_loop invoke ids global_idx local_size 0 with
    | none => none
    | some direct =>
      if ids.length > local_fanout then
        (chunk_loop ids fanout global_idx fuel local_fanout).map
          (fun spawns => ⟨direct, spawns⟩)
      else some ⟨direct, []⟩

/-- Runs the spawned routines `run` one after the other: the events (each
spawn event followed by the events of the spawned routine) and the futures
returned by the spawns. -/
def run_spawns {α β : Type} (mk : Spawn α → Event α)
    (run : List α → Nat → Option (List (Event α) × β)) :
    List (Spawn α) → Option (List (Event α) × List β)
  | [] => some ([], [])
  | s :: rest =>
    match run s.ids s.global_idx with
    | none => none
    | some (tr, r) =>
      (run_spawns mk run rest).map
        (fun p => (mk s :: tr ++ p.1, r :: p.2))

/-- The overload of `broadcast_impl` for value-returning actions
(`std::false_type`). -/
def broadcast_impl {α ε R : Type} (local_fanout : Nat)
    (calculate_fanout : Nat → Nat → Nat) (act : Action α ε R) :
    Nat → List α → Nat → Option (List (Event α) × Except (Exception ε) (List R))
  | 0, _, _ => none
  | fuel + 1, ids, global_idx =>
    if ids.isEmpty then some ([], .ok [])
    else
      match broadcast_impl_issue local_fanout calculate_fanout
          (broadcast_invoke_then wrap_into_vector act) fuel ids global_idx with
      | none => none
      | some issued =>
        match run_spawns (fun s => .async_colocated s.id s.ids s.global_idx false)
            (broadcast_impl local_fanout calculate_fanout act fuel) issued.spawns with
        | none => none
        | some (tr, futures) =>
          some (issued.direct.map Prod.fst ++ tr,
            return_result_type (issued.direct.map Prod.snd ++ futures))

/-- The overload of `broadcast_impl` for void actions (`std::true_type`). -/
def broadcast_impl_void {α ε : Type} (local_fanout : Nat)
    (calculate_fanout : Nat → Nat → Nat) (act : Action α ε Unit) :
    Nat → List α → Nat → Option (List (Event α) × Except (Exception ε) Unit)
  | 0, _, _ => none
  | fuel + 1, ids, global_idx =>
    if ids.isEmpty then some ([], .ok ())
    else
      match broadcast_impl_issue local_fanout calculate_fanout
          (broadcast_invoke act) fuel ids global_idx with
      | none => none
      | some issued =>
        match run_spawns (fun s => .async_colocated s.id s.ids s.global_idx true)
            (broadcast_impl_void local_fanout calculate_fanout act fuel) issued.spawns with
        | none => none
        | some (tr, futures) =>
          some (issued.direct.map Prod.fst ++ tr,
            return_void (issued.direct.map Prod.snd ++ futures))

/-- The statements of `broadcast_post_impl` from the computation of
`local_size` to the end of the chunk loop, for a non-empty `ids`: the posts of
the local loop and the co-located spawns. `calculate_fanout` is only called
when `ids.size() > local_fanout`. -/
def broadcast_post_impl_issue {α ε R : Type} (local_fanout : Nat)
    (calculate_fanout : Nat → Nat → Nat) (act : Action α ε R)
    (fuel : Nat) (ids : List α) (global_idx : Nat) : Option (Issued α Unit) :=
  let local_size := min ids.length local_fanout
  match invoke_loop (fun id i => (broadcast_invoke_apply act id i, ())) ids
      global_idx local_size 0 with
  | none => none
  | some direct =>
    if ids.length > local_fanout then
      let fanout := calculate_fanout ids.length local_fanout
      (chunk_loop ids fanout global_idx fuel local_fanout).map
        (fun spawns => ⟨direct, spawns⟩)
    else some ⟨direct, []⟩

/-- The routine `broadcast_post_impl`. -/
def broadcast_post_impl {α ε R : Type} (local_fanout : Nat)
    (calculate_fanout : Nat → Nat → Nat) (act : Action α ε R) :
    Nat → List α → Nat → Option (List (Event α) × Unit)
  | 0, _, _ => none
  | fuel + 1, ids, global_idx =>
    if ids.isEmpty then some ([], ())
    else
      match broadcast_post_impl_issue local_fanout calculate_fanout act fuel ids
          global_idx with
      | none => none
      | some issued =>
        match run_spawns (fun s => .post_colocated s.id s.ids s.global_idx)
            (broadcast_post_impl local_fanout calculate_fanout act fuel) issued.spawns with
        | none => none
        | some (tr, _) => some (issued.direct.map Prod.fst ++ tr, ())

end detail

/-- The entry point `broadcast` for a value-returning action: the events
issued and the state of the returned future. -/
def broadcast {α ε R : Type} (local_fanout : Nat)
    (calculate_fanout : Nat → Nat → Nat) (act : Action α ε R) (fuel : Nat)
    (ids : List α) : Option (List (Event α) × Except (Exception ε) (List R)) :=
  match ids with
  | [] =>
    some ([], .error (.bad_parameter "hpx::lcos::broadcast"
      "empty list of targets for broadcast operation"))
  | id0 :: _ =>
    (detail.broadcast_impl local_fanout calculate_fanout act fuel ids 0).map
      (fun p => (.async_colocated id0 ids 0 false :: p.1, p.2))

/-- The entry point `broadcast` for a void action
(`std::is_void<action_result>` is `std::true_type`). -/
def broadcast_void {α ε : Type} (local_fanout : Nat)
    (calculate_fanout : Nat → Nat → Nat) (act : Action α ε Unit) (fuel : Nat)
    (ids : List α) : Option (List (Event α) × Except (Exception ε) Unit) :=
  match ids with
  | [] =>
    some ([], .error (.bad_parameter "hpx::lcos::broadcast"
      "empty list of targets for broadcast operation"))
  | id0 :: _ =>
    (detail.broadcast_impl_void local_fanout calculate_fanout act fuel ids 0).map
      (fun p => (.async_colocated id0 ids 0 true :: p.1, p.2))

/-- The entry point `broadcast_post`: the events issued, and whether the call
returned or threw. -/
def broadcast_post {α ε R : Type} (local_fanout : Nat)
    (calculate_fanout : Nat → Nat → Nat) (act : Action α ε R) (fuel : Nat)
    (ids : List α) : Option (List (Event α) × Except (Exception ε) Unit) :=
  match ids with
  | [] =>
    some ([], .error (.bad_parameter "hpx::lcos::broadcast_post"
      "empty list of targets for broadcast operation"))
  | id0 :: _ =>
    (detail.broadcast_post_impl local_fanout calculate_fanout act fuel ids 0).map
      (fun p => (.post_colocated id0 ids 0 :: p.1, .ok ()))

/-- The entry point `broadcast_with_index` for a value-returning action. -/
def broadcast_with_index {α ε R : Type} (local_fanout : Nat)
    (calculate_fanout : Nat → Nat → Nat)
    (f : α → Nat → Except (Exception ε) R) (fuel : Nat) (ids : List α) :
    Option (List (Event α) × Except (Exception ε) (List R)) :=
  broadcast local_fanout calculate_fanout (.with_index f) fuel ids

/-- The entry point `broadcast_with_index` for a void action. -/
def broadcast_with_index_void {α ε : Type} (local_fanout : Nat)
    (calculate_fanout : Nat → Nat → Nat)
    (f : α → Nat → Except (Exception ε) Unit) (fuel : Nat) (ids : List α) :
    Option (List (Event α) × Except (Exception ε) Unit) :=
  broadcast_void local_fanout calculate_fanout (.with_index f) fuel ids

/-- The entry point `broadcast_post_with_index`. -/
def broadcast_post_with_index {α ε R : Type} (local_fanout : Nat)
    (calculate_fanout : Nat → Nat → Nat)
    (f : α → Nat → Except (Exception ε) R) (fuel : Nat) (ids : List α) :
    Option (List (Event α) × Except (Exception ε) Unit) :=
  broadcast_post local_fanout calculate_fanout (.with_index f) fuel ids

/-- The action invocations among the events: the target and the index
argument of every `hpx::async` and `hpx::post` call. -/
def invocations {α : Type} : List (Event α) → List (α × Option Nat)
  | [] => []
  | .async id index :: tr => (id, index) :: invocations tr
  | .post id index :: tr => (id, index) :: invocations tr
  | _ :: tr => invocations tr

/-- The co-located spawns among the events: the target the routine is run
at, the chunk and the offset. -/
def colocated_spawns {α : Type} : List (Event α) → List (detail.Spawn α)
  | [] => []
  | .async_colocated id ids g _ :: tr => ⟨id, ids, g⟩ :: colocated_spawns tr
  | .post_colocated id ids g :: tr => ⟨id, ids, g⟩ :: colocated_spawns tr
  | _ :: tr => colocated_spawns tr

end hpx.lcos


namespace hpx.lcos

/-! Reference definitions.

What the claims compare the dispatch routines with: the outcome and the index
argument of one invocation, the plain in-order pass over a list of outcomes,
and the chunk sequence of a remainder. -/

/-- The outcome of invoking the action on target `id` when the dispatch
routine holds the index `global_idx` for it. -/
def Action.invoke {α ε R : Type} : Action α ε R → α → Nat → Except (Exception ε) R
  | .plain f, id, _ => f id
  | .with_index f, id, global_idx => f id global_idx

/-- The index argument an invocation receives: none for a registered action,
`global_idx` for `broadcast_with_index`. -/
def Action.index_arg {α ε R : Type} : Action α ε R → Nat → Option Nat
  | .plain _, _ => none
  | .with_index _, global_idx => some global_idx

/-- A plain in-order pass over ready outcomes: all values in order, or the
first exception met. -/
def in_order {ε R : Type} : List (Except (Exception ε) R) → Except (Exception ε) (List R)
  | [] => .ok []
  | .error e :: _ => .error e
  | .ok v :: rest =>
    match in_order rest with
    | .ok vs => .ok (v :: vs)
    | .error e => .error e

/-- The outcomes of a plain in-order map of the action over `ids`, the
target at position `i` with index `global_idx + i`. -/
def outcomes {α ε R : Type} (act : Action α ε R) (ids : List α) (global_idx : Nat) :
    List (Except (Exception ε) R) :=
  (ids.enumFrom global_idx).map (fun p => act.invoke p.2 p.1)

/-- Every target of `ids` once, the target at position `i` with the index
argument for `global_idx + i`. -/
def each_once {α ε R : Type} (act : Action α ε R) (ids : List α) (global_idx : Nat) :
    List (α × Option Nat) :=
  (ids.enumFrom global_idx).map (fun p => (p.2, act.index_arg p.1))

namespace detail

/-- The chunk sequence the chunk loop produces for the remainder `rest` at
offset `off`, by the loop body: the next chunk takes
`min fanout rest.length` elements. -/
inductive Chunks {α : Type} (fanout : Nat) : List α → Nat → List (Spawn α) → Prop
  | done (off : Nat) : Chunks fanout [] off []
  | step (id : α) (tl : List α) (off : Nat) (ss : List (Spawn α)) :
      Chunks fanout ((id :: tl).drop (min fanout (tl.length + 1)))
        (off + min fanout (tl.length + 1)) ss →
      Chunks fanout (id :: tl) off
        (⟨id, (id :: tl).take (min fanout (tl.length + 1)), off⟩ :: ss)

end detail
end hpx.lcos

/-!
Resiliency executors.

The examples `async_replay_distributed.cpp` and
`async_replicate_distributed.cpp` call the executors
`hpx::resiliency::experimental::async_replay`, `async_replay_validate`,
`async_replicate`, `async_replicate_validate`, `async_replicate_vote` and
`async_replicate_vote_validate`. Their implementation is not among the
sources, so the executors are modelled from sections 4.2, 4.3 and 7 of the
specification. The action `universal_ans` and the predicate `validate` of the
examples are translated from `common.hpp`.

An action is a function of the site it runs at (the forwarded arguments are
fixed); its outcome is a value or the error it raised.
-/

namespace resiliency_example

/-- The loop of `universal_ans` over `f_locales` and its return statement;
`here` is `hpx::find_here()`, the locality the action runs at. The busy wait
in front of the loop has no effect on the result. -/
def universal_ans {α : Type} [DecidableEq α] (here : α) : List α → Except String Int
  | [] => .ok 42
  | locale :: f_locales =>
    if locale = here then .error "runtime error occurred."
    else universal_ans here f_locales

/-- The predicate `validate` of the examples. -/
def validate (ans : Int) : Bool :=
  ans == 42

end resiliency_example

namespace hpx.resiliency

/-- Modelled from the spec: the errors the resiliency executors deliver
(section 7), `ExhaustedError` carrying the attempt count and
`AllReplicasFailedError` the number of targets; the implementation of the
executors is missing from the sources. -/
inductive ResiliencyError where
  | ExhaustedError (attempts : Nat)
  | AllReplicasFailedError (targets : Nat)
  deriving DecidableEq, Repr

/-- Modelled from the spec: the acceptance test of replay and replicate,
"success with no `validate` or `validate(result) == true`"; the executors
are missing from the sources. -/
def accepted {R : Type} (validate : Option (R → Bool)) (result : R) : Bool :=
  match validate with
  | none => true
  | some v => v result

/-- Modelled from the spec: the states of the replay state machine of
section 4.2 (`Attempt(i)`, `Done(result)`, and the exhausted pool); the
replay executor is missing from the sources. -/
inductive ReplayState (R : Type) where
  | Attempt (i : Nat)
  | Done (result : R)
  | Exhausted (attempts : Nat)
  deriving DecidableEq, Repr

/-- Modelled from the spec: one transition of the replay state machine of
section 4.2, with the site invoked by it, if any: `Attempt(i)` invokes
`action` on `sites[i]`, goes to `Done(result)` on an accepted success and to
`Attempt(i+1)` on a rejected success or a raised error; reaching
`i == |sites|` yields `ExhaustedError`. The replay executor is missing from
the sources. -/
def replay_step {α ε R : Type} (sites : List α) (action : α → Except ε R)
    (validate : Option (R → Bool)) : ReplayState R → ReplayState R × List α
  | .Attempt i =>
    match sites[i]? with
    | none => (.Exhausted i, [])
    | some site =>
      match action site with
      | .ok result =>
        if accepted validate result then (.Done result, [site])
        else (.Attempt (i + 1), [site])
      | .error _ => (.Attempt (i + 1), [site])
  | state => (state, [])

/-- Modelled from the spec: the strictly sequential run of the replay state
machine from `state`, `attempted` being the sites invoked so far; it ends in
`Done` or in the exhausted pool. The replay executor is missing from the
sources. -/
def replay_run {α ε R : Type} (sites : List α) (action : α → Except ε R)
    (validate : Option (R → Bool)) :
    Nat → ReplayState R → List α → Option (List α × Except ResiliencyError R)
  | _, .Done result, attempted => some (attempted, .ok result)
  | _, .Exhausted n, attempted => some (attempted, .error (.ExhaustedError n))
  | 0, .Attempt _, _ => none
  | fuel + 1, .Attempt i, attempted =>
    replay_run sites action validate fuel
      (replay_step sites action validate (.Attempt i)).1
      (attempted ++ (replay_step sites action validate (.Attempt i)).2)

/-- Modelled from the spec: the contract `replay(sites, action, validate?)`
of section 4.2, started in `Attempt(0)`: the sites invoked, in the order of
the attempts, and the state of the returned result handle. The replay
executor is missing from the sources. -/
def replay {α ε R : Type} (sites : List α) (action : α → Except ε R)
    (validate : Option (R → Bool)) (fuel : Nat) :
    Option (List α × Except ResiliencyError R) :=
  replay_run sites action validate fuel (.Attempt 0) []

/-- Modelled from the spec: the `ReplicaOutcome` record of section 3; the
replicate executors are missing from the sources. -/
structure ReplicaOutcome (α ε R : Type) where
  site : α
  outcome : Except ε R

/-- Modelled from the spec: the failure policy of section 4.3, "a remote
error or failed validation disqualifies that one replica"; the value of a
replica that qualifies. The replicate executors are missing from the
sources. -/
def qualifies {α ε R : Type} (validate : Option (R → Bool))
    (o : ReplicaOutcome α ε R) : Option R :=
  match o.outcome with
  | .ok result => if accepted validate result then some result else none
  | .error _ => none

/-- Modelled from the spec: "fire all invocations concurrently", one outcome
per site, none cancelled; the replicate executors are missing from the
sources. -/
def fire_all {α ε R : Type} (sites : List α) (action : α → Except ε R) :
    List (ReplicaOutcome α ε R) :=
  sites.map (fun site => ⟨site, action site⟩)

/-- Modelled from the spec: the race of section 4.3, "accept the value of
whichever settles first without error", disqualified candidates being ignored
while others are awaited; `settle_order` lists the positions of the replicas
in the order their invocations settle. The replicate executors are missing
from the sources. -/
def race {α ε R : Type} (validate : Option (R → Bool))
    (outcomes : List (ReplicaOutcome α ε R)) : List Nat → Option R
  | [] => none
  | i :: later =>
    match outcomes[i]? with
    | none => race validate outcomes later
    | some o =>
      match qualifies validate o with
      | some result => some result
      | none => race validate outcomes later

/-- Modelled from the spec: the race variants of section 4.3 for the settle
order `settle_order`: the sites invoked and the state of the returned result
handle, which fails when no replica qualifies. The replicate executors are
missing from the sources. -/
def replicate_race {α ε R : Type} (sites : List α) (action : α → Except ε R)
    (validate : Option (R → Bool)) (settle_order : List Nat) :
    List α × Except ResiliencyError R :=
  let outcomes := fire_all sites action
  (outcomes.map ReplicaOutcome.site,
    match race validate outcomes settle_order with
    | some result => .ok result
    | none => .error (.AllReplicasFailedError sites.length))

/-- Modelled from the spec: the contract `replicate` of section 4.3; the
replicate executors are missing from the sources. -/
def replicate {α ε R : Type} (sites : List α) (action : α → Except ε R)
    (settle_order : List Nat) : List α × Except ResiliencyError R :=
  replicate_race sites action none settle_order

/-- Modelled from the spec: the contract `replicate_validate` of section
4.3; the replicate executors are missing from the sources. -/
def replicate_validate {α ε R : Type} (sites : List α) (validate : R → Bool)
    (action : α → Except ε R) (settle_order : List Nat) :
    List α × Except ResiliencyError R :=
  replicate_race sites action (some validate) settle_order

/-- Modelled from the spec: "collect successful outcomes only" (and, with
`validate`, only those passing it), in site order; the replicate executors
are missing from the sources. -/
def collect_successful {α ε R : Type} (validate : Option (R → Bool)) :
    List (ReplicaOutcome α ε R) → List R
  | [] => []
  | o :: rest =>
    match qualifies validate o with
    | some result => result :: collect_successful validate rest
    | none => collect_successful validate rest

/-- Modelled from the spec: the vote variants of section 4.3, "wait for all
sites to settle; collect successful outcomes only; apply `vote`; fail with
`AllReplicasFailedError` if zero succeeded". The replicate executors are
missing from the sources. -/
def replicate_vote_run {α ε R : Type} (sites : List α) (action : α → Except ε R)
    (validate : Option (R → Bool)) (vote : List R → R) :
    List α × Except ResiliencyError R :=
  let outcomes := fire_all sites action
  (outcomes.map ReplicaOutcome.site,
    match collect_successful validate outcomes with
    | [] => .error (.AllReplicasFailedError sites.length)
    | result :: results => .ok (vote (result :: results)))

/-- Modelled from the spec: the contract `replicate_vote` of section 4.3;
the replicate executors are missing from the sources. -/
def replicate_vote {α ε R : Type} (sites : List α) (vote : List R → R)
    (action : α → Except ε R) : List α × Except ResiliencyError R :=
  replicate_vote_run sites action none vote

/-- Modelled from the spec: the contract `replicate_vote_validate` of
section 4.3; the replicate executors are missing from the sources. -/
def replicate_vote_validate {α ε R : Type} (sites : List α) (vote : List R → R)
    (validate : R → Bool) (action : α → Except ε R) :
    List α × Except ResiliencyError R :=
  replicate_vote_run sites action (some validate) vote

/-- Modelled from the spec: the "majority vote" of section 8, the first value
among `results` that occurs most often (`dflt` for no results); no majority
vote is among the sources. -/
def majority_vote {R : Type} [DecidableEq R] (dflt : R) (results : List R) : R :=
  results.foldl
    (fun best x => if results.count best < results.count x then x else best)
    (results.headD dflt)

/-! Reference definitions for replay and replicate. -/

/-- The value with which `site` qualifies: its invocation succeeds and the
result is accepted. -/
def site_value {α ε R : Type} (action : α → Except ε R) (validate : Option (R → Bool))
    (site : α) : Option R :=
  match action site with
  | .ok result => if accepted validate result then some result else none
  | .error _ => none

/-- A plain pass over the pool `pool`, whose first site has position `i` in
the whole pool: the sites up to and including the first one that qualifies,
with its value, or the whole pool and `ExhaustedError`. -/
def first_qualifying {α ε R : Type} (action : α → Except ε R)
    (validate : Option (R → Bool)) : List α → Nat → List α × Except ResiliencyError R
  | [], i => ([], .error (.ExhaustedError i))
  | site :: pool, i =>
    match site_value action validate site with
    | some result => ([site], .ok result)
    | none =>
      (site :: (first_qualifying action validate pool (i + 1)).1,
        (first_qualifying action validate pool (i + 1)).2)

/-- The values of the sites that qualify, in site order. -/
def successful_values {α ε R : Type} (action : α → Except ε R)
    (validate : Option (R → Bool)) (sites : List α) : List R :=
  sites.filterMap (site_value action validate)

/-- What the spec states of a race variant with result `res` (the sites
invoked and the state of the result handle): every site is invoked; the
operation fails if and only if no replica qualifies, and then with
`AllReplicasFailedError`; a returned value is the value of a replica that
qualifies; and with exactly one qualifying site the result is the value of
that site. -/
def race_contract {α ε R : Type} (sites : List α) (action : α → Except ε R)
    (validate : Option (R → Bool)) (res : List α × Except ResiliencyError R) : Prop :=
  res.1 = sites ∧
    ((∃ e, res.2 = .error e) ↔ ∀ s ∈ sites, site_value action validate s = none) ∧
    (∀ e, res.2 = .error e → e = .AllReplicasFailedError sites.length) ∧
    (∀ r, res.2 = .ok r → ∃ s ∈ sites, site_value action validate s = some r) ∧
    (∀ i (hi : i < sites.length) (r : R), site_value action validate sites[i] = some r →
      (∀ j (hj : j < sites.length), j ≠ i → site_value action validate sites[j] = none) →
      res.2 = .ok r)

/-- What the spec states of a vote variant with result `res`: every site is
invoked; the result is `vote` applied to exactly the values of the sites that
qualify; and the operation fails, with `AllReplicasFailedError`, if and only
if no such value remains. -/
def vote_contract {α ε R : Type} (sites : List α) (action : α → Except ε R)
    (validate : Option (R → Bool)) (vote : List R → R)
    (res : List α × Except ResiliencyError R) : Prop :=
  res.1 = sites ∧
    (successful_values action validate sites ≠ [] →
      res.2 = .ok (vote (successful_values action validate sites))) ∧
    ((∃ e, res.2 = .error e) ↔ successful_values action validate sites = []) ∧
    ((∃ e, res.2 = .error e) ↔ ∀ s ∈ sites, site_value action validate s = none) ∧
    (∀ e, res.2 = .error e → e = .AllReplicasFailedError sites.length)

end hpx.resiliency

/-!
Target distribution policy (`hpx/compute/detail/target_distribution_policy.hpp`).

The members `targets_`, `num_partitions_` and `next_target_` are the state; a
member function returns its result and the state it leaves. The target
lists `Target::get_local_targets()` and `get_remote_targets(...)`, which fill
an empty `targets_`, are parameters. The mutex only serialises the calls.
`std::size_t` is `Nat`: the cursor `next_target_` grows by one per call, so
it wraps only after `2^64` calls on one object, and `items + sites - 1` is
taken not to overflow.
-/

namespace hpx.compute.detail

/-- The data members of `target_distribution_policy<Target>`. -/
structure target_distribution_policy (τ : Type) where
  targets_ : List τ
  num_partitions_ : Nat
  next_target_ : Nat
  deriving DecidableEq, Repr

/-- The constructor `target_distribution_policy(targets, num_partitions)`. -/
def target_distribution_policy.make {τ : Type} (targets : List τ)
    (num_partitions : Nat) : target_distribution_policy τ :=
  ⟨targets, num_partitions, 0⟩

/-- The member `get_next_target`: the target returned and the state left.
With no target at all the modulo divides by zero. -/
def get_next_target {τ : Type} (get_local_targets : List τ)
    (p : target_distribution_policy τ) : Option (τ × target_distribution_policy τ) :=
  let targets := if p.targets_.isEmpty then get_local_targets else p.targets_
  if targets.length = 0 then none
  else
    match targets[p.next_target_ % targets.length]? with
    | none => none
    | some t => some (t, ⟨targets, p.num_partitions_, p.next_target_ + 1⟩)

/-- The first `k` calls of `get_next_target` on one object: the targets
returned, in call order, and the state left. -/
def get_next_target_calls {τ : Type} (get_local_targets : List τ) :
    Nat → target_distribution_policy τ → Option (List τ × target_distribution_policy τ)
  | 0, p => some ([], p)
  | k + 1, p =>
    match get_next_target get_local_targets p with
    | none => none
    | some (t, p') =>
      (get_next_target_calls get_local_targets k p').map (fun r => (t :: r.1, r.2))

/-- The static member `round_to_multiple`. -/
def round_to_multiple (n1 n2 n3 : Nat) : Nat :=
  (n1 / n2) * n3

/-- The member `get_num_items`: the number of items for target `t` and the
state left. `List.indexOf` is the distance from `begin()` to the iterator
returned by `std::find`, the size of the list when `t` is not in it. -/
def get_num_items {τ : Type} [DecidableEq τ] (get_remote_targets : List τ)
    (p : target_distribution_policy τ) (items : Nat) (t : τ) :
    Nat × target_distribution_policy τ :=
  let targets := if p.targets_.isEmpty then get_remote_targets else p.targets_
  let p' : target_distribution_policy τ := ⟨targets, p.num_partitions_, p.next_target_⟩
  let sites := max 1 targets.length
  if items < sites then
    let num_loc := targets.indexOf t
    (if items < num_loc then 1 else 0, p')
  else if !targets.isEmpty && targets.getLast? = some t then
    (items - round_to_multiple items sites (sites - 1), p')
  else ((items + sites - 1) / sites, p')

/-- The numbers of items `get_num_items` gives to the targets of the policy,
in target order. -/
def items_per_target {τ : Type} [DecidableEq τ] (get_remote_targets : List τ)
    (p : target_distribution_policy τ) (items : Nat) : List Nat :=
  p.targets_.map (fun t => (get_num_items get_remote_targets p items t).1)

end hpx.compute.detail

/-!
Affinity data (`libs/core/affinity/src/affinity_data.cpp`).

Of `affinity_data` the members read or written by `init`,
`init_cached_pu_nums` and `get_pu_num` are the state. The number of
processing units returned by `hardware_concurrency()` is a parameter.
`static_cast<std::size_t>(-1)` is `size_t_max`; products and sums of PU
numbers and thread numbers are taken not to overflow. A failing `HPX_ASSERT`
is `none`.
-/

namespace hpx.threads.policies.detail

/-- The value `static_cast<std::size_t>(-1)`. -/
def size_t_max : Nat := 2 ^ 64 - 1

/-- The data members of `affinity_data` used by the cached PU numbers. -/
structure affinity_data where
  num_threads_ : Nat
  pu_offset_ : Nat
  pu_step_ : Nat
  pu_nums_ : List Nat
  deriving DecidableEq, Repr

/-- The default constructor `affinity_data::affinity_data()`. -/
def affinity_data.ctor : affinity_data :=
  ⟨0, size_t_max, 1, []⟩

/-- The two assertions at the head of
`get_pu_num(num_thread, hardware_concurrency)`. -/
def get_pu_num_asserts (d : affinity_data) (hardware_concurrency : Nat) : Bool :=
  decide (d.pu_offset_ < hardware_concurrency) &&
    (decide (d.pu_step_ > 0) && decide (d.pu_step_ ≤ hardware_concurrency))

/-- The member `get_pu_num(num_thread, hardware_concurrency)`. -/
def get_pu_num (d : affinity_data) (num_thread hardware_concurrency : Nat) : Option Nat :=
  if get_pu_num_asserts d hardware_concurrency then
    let num_pu := d.pu_offset_ + d.pu_step_ * num_thread
    let offset := (num_pu / hardware_concurrency) % d.pu_step_
    some ((num_pu + offset) % hardware_concurrency)
  else none

/-- The loop of `init_cached_pu_nums` with `todo` iterations left before `i`
reaches `num_threads_`: the values stored in `pu_nums_[i]`, `pu_nums_[i+1]`
and so on. -/
def cached_pu_nums_loop (d : affinity_data) (hardware_concurrency : Nat) :
    Nat → Nat → Option (List Nat)
  | 0, _ => some []
  | todo + 1, i =>
    match get_pu_num d i hardware_concurrency with
    | none => none
    | some pu =>
      (cached_pu_nums_loop d hardware_concurrency todo (i + 1)).map (fun rest => pu :: rest)

/-- The member `init_cached_pu_nums`. -/
def init_cached_pu_nums (d : affinity_data) (hardware_concurrency : Nat) :
    Option affinity_data :=
  if d.pu_nums_.isEmpty then
    (cached_pu_nums_loop d hardware_concurrency d.num_threads_ 0).map
      (fun pu_nums => ⟨d.num_threads_, d.pu_offset_, d.pu_step_, pu_nums⟩)
  else some d

/-- The statements of `affinity_data::init` up to and including the call of
`init_cached_pu_nums`; `num_system_pus` is the value of
`hardware_concurrency()`. The statements after the call need the topology;
among them is `pu_offset_ %= num_system_pus`. -/
def init (d : affinity_data) (num_threads pu_offset pu_step num_system_pus : Nat) :
    Option affinity_data :=
  let pu_offset_ := if pu_offset = size_t_max then 0 else pu_offset
  let pu_step_ := if num_system_pus > 1 then pu_step % num_system_pus else d.pu_step_
  init_cached_pu_nums ⟨num_threads, pu_offset_, pu_step_, []⟩ num_system_pus

end hpx.threads.policies.detail

namespace hpx.lcos.detail

/-- The loop `while (it != ids.end())` of the dispatch routines once more,
with the values of `applied` and `next_fan` of every iteration recorded and
the value of `applied` at the exit; the spawns themselves are left out. A
failing `HPX_ASSERT(ids.size() >= applied)` and the read of `ids_next[0]` in
an empty slice are `none`. -/
def chunk_loop_iterations {α : Type} (ids : List α) (fanout : Nat) :
    Nat → Nat → Option (List (Nat × Nat) × Nat)
  | 0, _ => none
  | fuel + 1, applied =>
    if applied = ids.length then some ([], applied)
    else if ids.length < applied then none
    else
      let next_fan := min fanout (ids.length - applied)
      match (ids.drop applied).take next_fan with
      | [] => none
      | _ :: _ =>
        (chunk_loop_iterations ids fanout fuel (applied + next_fan)).map
          (fun r => ((applied, next_fan) :: r.1, r.2))

end hpx.lcos.detail

/-!
The replicate example (`async_replicate_distributed.cpp`).

The function `vote` and the construction of the replica targets `ids` in
`hpx_main` are translated from the source. The subtraction
`num_replications - ids.size()` is a subtraction of `std::size_t` values and
wraps around; an exception thrown by `locales.at(i)` is `Except.error`.
-/

namespace resiliency_example

/-- The exception `std::out_of_range` thrown by `std::vector::at`. -/
inductive out_of_range where
  | at_ (index size : Nat)
  deriving DecidableEq, Repr

/-- The function `vote` of the replicate example: `results.at(0)`. -/
def vote (results : List Int) : Except out_of_range Int :=
  match results with
  | [] => .error (.at_ 0 0)
  | first :: _ => .ok first

/-- The difference `a - b` of two `std::size_t` values. -/
def size_t_sub (a b : Nat) : Nat :=
  (a + 2 ^ 64 - b % 2 ^ 64) % 2 ^ 64

/-- The loop
`for (i = 0; i < num_replications - ids.size(); ++i) ids.emplace_back(locales.at(i))`
of the replicate example; its bound is evaluated again in every iteration. -/
def pad_loop {α : Type} (locales : List α) (num_replications : Nat) :
    Nat → Nat → List α → Option (Except out_of_range (List α))
  | 0, _, _ => none
  | fuel + 1, i, ids =>
    if i < size_t_sub num_replications ids.length then
      match locales[i]? with
      | none => some (.error (.at_ i locales.length))
      | some locale => pad_loop locales num_replications fuel (i + 1) (ids ++ [locale])
    else some (.ok ids)

/-- The loop `for (auto& locale : locales) ids.push_back(locale)`. -/
def push_all {α : Type} (ids locales : List α) : List α :=
  locales.foldl (fun ids locale => ids ++ [locale]) ids

/-- The construction of the replica targets `ids` for one task in `hpx_main`
of the replicate example. -/
def replica_ids {α : Type} (locales : List α) (num_replications fuel : Nat) :
    Option (Except out_of_range (List α)) :=
  if num_replications < locales.length then
    some (.ok (push_all [] locales))
  else
    pad_loop locales num_replications fuel 0 (push_all [] locales)

end resiliency_example

/-!
Serial transpose (`examples/transpose/transpose_serial.cpp`).

The vectors `A` and `B` are lists; the transposes only copy elements, so the
element type is arbitrary. A subscript outside a vector is undefined
behaviour, `none`. The counters are `std::uint64_t`; they stay below
`2 * order`, and a vector of `order * order` doubles exists only for
`order < 2^32`, so they are `Nat`.
-/

namespace transpose_serial

/-- The loop `for (k = lo; k < hi; ++k) body`, with `todo` iterations left
before `k` reaches `hi`. -/
def for_count {σ : Type} (body : Nat → σ → Option σ) : Nat → Nat → σ → Option σ
  | 0, _, s => some s
  | todo + 1, k, s =>
    match body k s with
    | none => none
    | some s' => for_count body todo (k + 1) s'

/-- The loop `for (k = lo; k < hi; ++k) body`. -/
def for_range {σ : Type} (lo hi : Nat) (body : Nat → σ → Option σ) (s : σ) : Option σ :=
  for_count body (hi - lo) lo s

/-- The loop `for (k = ...; k < hi; k += step) body`, started at `k`. -/
def for_step {σ : Type} (body : Nat → σ → Option σ) (hi step : Nat) :
    Nat → Nat → σ → Option σ
  | 0, _, _ => none
  | fuel + 1, k, s =>
    if k < hi then
      match body k s with
      | none => none
      | some s' => for_step body hi step fuel (k + step) s'
    else some s

/-- The assignment `B[dst] = A[src]`. -/
def assign {α : Type} (A B : List α) (dst src : Nat) : Option (List α) :=
  match A[src]? with
  | none => none
  | some a => if dst < B.length then some (B.set dst a) else none

/-- The tiled loop nest of `hpx_main`. -/
def transpose_tiled {α : Type} (order tile_size : Nat) (A : List α) (fuel : Nat)
    (B : List α) : Option (List α) :=
  for_step (fun i B =>
    for_step (fun j B =>
      let i_max := min order (i + tile_size)
      for_range i i_max (fun it B =>
        let j_max := min order (j + tile_size)
        for_range j j_max (fun jt B => assign A B (it + order * jt) (jt + order * it)) B)
        B)
      order tile_size fuel 0 B)
    order tile_size fuel 0 B

/-- The untiled loop nest of `hpx_main`. -/
def transpose_untiled {α : Type} (order : Nat) (A B : List α) : Option (List α) :=
  for_range 0 order (fun i B =>
    for_range 0 order (fun j B => assign A B (i + order * j) (j + order * i)) B) B

/-- One iteration of the `iter` loop of `hpx_main`: the transpose, tiled when
`tile_size < order`. -/
def transpose {α : Type} (order tile_size : Nat) (A : List α) (fuel : Nat) (B : List α) :
    Option (List α) :=
  if tile_size < order then transpose_tiled order tile_size A fuel B
  else transpose_untiled order A B

/-! Reference definition for the transpose. -/

/-- The cells `(i, j)` selected by `D` hold the transpose of `A`:
`B[i + order * j] = A[j + order * i]`, in a `B` of `order * order`
elements. -/
def transposed_on {α : Type} (order : Nat) (A B : List α) (D : Nat → Nat → Prop) : Prop :=
  B.length = order * order ∧
    ∀ i j, D i j → i < order → j < order → B[i + order * j]? = A[j + order * i]?

end transpose_serial

namespace hpx.lcos
namespace detail

theorem invoke_loop_eq {α β : Type} (invoke : α → Nat → β) (ids : List α) (g : Nat) :
    ∀ todo i, i + todo ≤ ids.length →
      invoke_loop invoke ids g todo i =
        some ((((ids.drop i).take todo).enumFrom (g + i)).map (fun p => invoke p.2 p.1)) := by
  intro todo
  induction todo with
  | zero => intro i _; simp [invoke_loop]
  | succ n ih =>
    intro i h
    have hi : i < ids.length := by omega
    have hd : ids.drop i = ids[i] :: ids.drop (i + 1) := List.drop_eq_getElem_cons hi
    simp only [invoke_loop, List.getElem?_eq_getElem hi, ih (i + 1) (by omega), hd,
      List.take_succ_cons, List.enumFrom_cons, List.map_cons, Option.map_some']
    rfl

theorem chunk_loop_chunks {α : Type} (ids : List α) (fanout g : Nat) (hf : 0 < fanout) :
    ∀ fuel applied, applied ≤ ids.length → ids.length - applied < fuel →
      ∃ ss, chunk_loop ids fanout g fuel applied = some ss ∧
        Chunks fanout (ids.drop applied) (g + applied) ss := by
  intro fuel
  induction fuel with
  | zero => intro applied _ h; omega
  | succ n ih =>
    intro applied hle hfuel
    by_cases heq : applied = ids.length
    · refine ⟨[], by simp [chunk_loop, heq], ?_⟩
      rw [heq, List.drop_length]
      exact Chunks.done _
    · have hi : applied < ids.length := by omega
      have hd : ids.drop applied = ids[applied] :: ids.drop (applied + 1) :=
        List.drop_eq_getElem_cons hi
      have hlen : (ids.drop (applied + 1)).length + 1 = ids.length - applied := by
        rw [List.length_drop]; omega
      obtain ⟨k, hk⟩ : ∃ k, min fanout (ids.length - applied) = k + 1 :=
        ⟨min fanout (ids.length - applied) - 1, by omega⟩
      obtain ⟨ss, hss, hch⟩ := ih (applied + (k + 1)) (by omega) (by omega)
      refine ⟨⟨ids[applied], (ids.drop applied).take (k + 1), g + applied⟩ :: ss, ?_, ?_⟩
      · simp only [chunk_loop, heq, if_false, hk, hd, List.take_succ_cons, hss,
          Option.map_some']
      · have := @Chunks.step α fanout ids[applied] (ids.drop (applied + 1))
          (g + applied) ss
        rw [hlen, hk] at this
        rw [hd]
        apply this
        rw [← hd, List.drop_drop, Nat.add_assoc g]
        exact hch


theorem chunks_flatten {α : Type} {fanout : Nat} {rest : List α} {off : Nat}
    {ss : List (Spawn α)} (h : Chunks fanout rest off ss) :
    (ss.map Spawn.ids).flatten = rest := by
  induction h with
  | done off => rfl
  | step id tl off ss _ ih =>
    simp only [List.map_cons, List.flatten_cons, ih, List.take_append_drop]

theorem chunks_length_le {α : Type} {fanout : Nat} {rest : List α} {off : Nat}
    {ss : List (Spawn α)} (h : Chunks fanout rest off ss) :
    ∀ s ∈ ss, s.ids.length ≤ rest.length := by
  induction h with
  | done off => intro s hs; simp at hs
  | step id tl off ss _ ih =>
    intro s hs
    rcases List.mem_cons.mp hs with rfl | hs
    · simp only [List.length_take, List.length_cons]; omega
    · have := ih s hs
      simp only [List.length_drop, List.length_cons] at this ⊢
      omega

end detail

theorem in_order_ok_cons {ε R : Type} (v : R) (l : List (Except (Exception ε) R)) :
    in_order (.ok v :: l) =
      match in_order l with
      | .ok vs => .ok (v :: vs)
      | .error e => .error e := rfl

theorem in_order_append {ε R : Type} (l₁ l₂ : List (Except (Exception ε) R)) :
    in_order (l₁ ++ l₂) =
      match in_order l₁ with
      | .ok a =>
        (match in_order l₂ with
          | .ok b => .ok (a ++ b)
          | .error e => .error e)
      | .error e => .error e := by
  induction l₁ with
  | nil => simp only [List.nil_append, in_order]; cases in_order l₂ <;> rfl
  | cons x l ih =>
    cases x with
    | error e => rfl
    | ok v =>
      rw [List.cons_append, in_order_ok_cons, in_order_ok_cons, ih]
      cases in_order l with
      | error e => rfl
      | ok a => cases in_order l₂ <;> rfl

theorem outcomes_append {α ε R : Type} (act : Action α ε R) (l₁ l₂ : List α) (g : Nat) :
    outcomes act (l₁ ++ l₂) g = outcomes act l₁ g ++ outcomes act l₂ (g + l₁.length) := by
  simp only [outcomes, List.enumFrom_append, List.map_append]

theorem each_once_append {α ε R : Type} (act : Action α ε R) (l₁ l₂ : List α) (g : Nat) :
    each_once act (l₁ ++ l₂) g = each_once act l₁ g ++ each_once act l₂ (g + l₁.length) := by
  simp only [each_once, List.enumFrom_append, List.map_append]

theorem outcomes_take_drop {α ε R : Type} (act : Action α ε R) (ids : List α) (g n : Nat) :
    outcomes act ids g = outcomes act (ids.take n) g ++ outcomes act (ids.drop n) (g + n) := by
  conv_lhs => rw [← List.take_append_drop n ids]
  rw [outcomes_append]
  rcases Nat.le_total n ids.length with h | h
  · rw [List.length_take, Nat.min_eq_left h]
  · rw [List.drop_of_length_le h]; rfl

theorem each_once_take_drop {α ε R : Type} (act : Action α ε R) (ids : List α) (g n : Nat) :
    each_once act ids g = each_once act (ids.take n) g ++ each_once act (ids.drop n) (g + n) := by
  conv_lhs => rw [← List.take_append_drop n ids]
  rw [each_once_append]
  rcases Nat.le_total n ids.length with h | h
  · rw [List.length_take, Nat.min_eq_left h]
  · rw [List.drop_of_length_le h]; rfl

theorem invocations_append {α : Type} (t₁ t₂ : List (Event α)) :
    invocations (t₁ ++ t₂) = invocations t₁ ++ invocations t₂ := by
  induction t₁ with
  | nil => rfl
  | cons e t ih => cases e <;> simp [invocations, ih]

namespace detail

theorem return_result_type_loop_wrap {ε R : Type} (l : List (Except (Exception ε) R))
    (rest : List (Except (Exception ε) (List R))) :
    ∀ acc, return_result_type_loop acc (l.map wrap_into_vector ++ rest) =
      match in_order l with
      | .ok vs => return_result_type_loop (acc ++ vs) rest
      | .error e => .error e := by
  induction l with
  | nil => intro acc; simp [in_order]
  | cons x l ih =>
    intro acc
    cases x with
    | error e => rfl
    | ok v =>
      rw [in_order_ok_cons]
      show return_result_type_loop (acc ++ [v]) (l.map wrap_into_vector ++ rest) = _
      rw [ih]
      cases in_order l <;> simp

theorem chunks_each_once {α ε R : Type} (act : Action α ε R) {fanout : Nat}
    {rest : List α} {off : Nat} {ss : List (Spawn α)} (h : Chunks fanout rest off ss) :
    (ss.map (fun s => each_once act s.ids s.global_idx)).flatten = each_once act rest off := by
  induction h with
  | done off => rfl
  | step id tl off ss _ ih =>
    have hl : ((id :: tl).take (min fanout (tl.length + 1))).length =
        min fanout (tl.length + 1) := by
      simp only [List.length_take, List.length_cons]; omega
    simp only [List.map_cons, List.flatten_cons, ih]
    conv_rhs => rw [← List.take_append_drop (min fanout (tl.length + 1)) (id :: tl)]
    rw [each_once_append, hl]

theorem chunks_results {α ε R : Type} (act : Action α ε R) {fanout : Nat}
    {rest : List α} {off : Nat} {ss : List (Spawn α)} (h : Chunks fanout rest off ss) :
    ∀ acc, return_result_type_loop acc
        (ss.map (fun s => in_order (outcomes act s.ids s.global_idx))) =
      match in_order (outcomes act rest off) with
      | .ok vs => .ok (acc ++ vs)
      | .error e => .error e := by
  induction h with
  | done off => intro acc; simp [return_result_type_loop, outcomes, in_order]
  | step id tl off ss _ ih =>
    intro acc
    have hl : ((id :: tl).take (min fanout (tl.length + 1))).length =
        min fanout (tl.length + 1) := by
      simp only [List.length_take, List.length_cons]; omega
    have hsplit : outcomes act (id :: tl) off =
        outcomes act ((id :: tl).take (min fanout (tl.length + 1))) off ++
          outcomes act ((id :: tl).drop (min fanout (tl.length + 1)))
            (off + min fanout (tl.length + 1)) := by
      conv_lhs => rw [← List.take_append_drop (min fanout (tl.length + 1)) (id :: tl)]
      rw [outcomes_append, hl]
    rw [hsplit, in_order_append, List.map_cons]
    cases hc : in_order (outcomes act ((id :: tl).take (min fanout (tl.length + 1))) off) with
    | error e => simp only [return_result_type_loop]
    | ok a =>
      simp only [return_result_type_loop, ih]
      cases in_order (outcomes act ((id :: tl).drop (min fanout (tl.length + 1)))
        (off + min fanout (tl.length + 1))) <;> simp

theorem invocations_map_invoke {α β : Type} (invoke : α → Nat → Event α × β)
    (idx : Nat → Option Nat)
    (h : ∀ id i, invocations [(invoke id i).1] = [(id, idx i)]) (l : List (Nat × α)) :
    invocations ((l.map (fun p => invoke p.2 p.1)).map Prod.fst) =
      l.map (fun p => (p.2, idx p.1)) := by
  induction l with
  | nil => rfl
  | cons p l ih =>
    have := invocations_append [(invoke p.2 p.1).1]
      ((l.map (fun p => invoke p.2 p.1)).map Prod.fst)
    simp only [List.singleton_append] at this
    simp only [List.map_cons, this, ih, h, List.singleton_append]

theorem run_spawns_spec {α β : Type} (mk : Spawn α → Event α)
    (hmk : ∀ s, invocations [mk s] = [])
    (run : List α → Nat → Option (List (Event α) × β))
    (res : Spawn α → β) (inv : Spawn α → List (α × Option Nat)) :
    ∀ ss : List (Spawn α),
      (∀ s ∈ ss, ∃ tr, run s.ids s.global_idx = some (tr, res s) ∧ invocations tr = inv s) →
      ∃ tr, run_spawns mk run ss = some (tr, ss.map res) ∧
        invocations tr = (ss.map inv).flatten := by
  intro ss
  induction ss with
  | nil => intro _; exact ⟨[], rfl, rfl⟩
  | cons s ss ih =>
    intro h
    obtain ⟨tr, htr, hinv⟩ := h s (List.mem_cons_self _ _)
    obtain ⟨tr2, htr2, hinv2⟩ := ih (fun s hs => h s (List.mem_cons_of_mem _ hs))
    refine ⟨mk s :: tr ++ tr2, ?_, ?_⟩
    · simp only [run_spawns, htr, htr2, Option.map_some', List.map_cons]
    · have h1 := invocations_append [mk s] (tr ++ tr2)
      simp only [List.singleton_append] at h1
      rw [List.cons_append, h1, hmk, invocations_append, hinv, hinv2]
      rfl

theorem take_min_length {α : Type} (ids : List α) (n : Nat) :
    ids.take (min ids.length n) = ids.take n := by
  rcases Nat.le_total ids.length n with h | h
  · rw [Nat.min_eq_left h, List.take_of_length_le h, List.take_length]
  · rw [Nat.min_eq_right h]

theorem broadcast_impl_issue_spec {α β : Type} (local_fanout : Nat)
    (calculate_fanout : Nat → Nat → Nat) (invoke : α → Nat → Event α × β)
    (fuel : Nat) (ids : List α) (g : Nat)
    (hcf : 0 < calculate_fanout ids.length local_fanout)
    (hfuel : ids.length - local_fanout < fuel) :
    ∃ ss, broadcast_impl_issue local_fanout calculate_fanout invoke fuel ids g =
        some ⟨((ids.take local_fanout).enumFrom g).map (fun p => invoke p.2 p.1), ss⟩ ∧
      Chunks (calculate_fanout ids.length local_fanout) (ids.drop local_fanout)
        (g + local_fanout) ss := by
  have hloop := invoke_loop_eq invoke ids g (min ids.length local_fanout) 0 (by omega)
  rw [List.drop_zero, take_min_length, Nat.add_zero] at hloop
  by_cases hgt : ids.length > local_fanout
  · obtain ⟨ss, hss, hch⟩ := chunk_loop_chunks ids (calculate_fanout ids.length local_fanout)
      g hcf fuel local_fanout (by omega) hfuel
    refine ⟨ss, ?_, hch⟩
    simp only [broadcast_impl_issue, Nat.ne_of_gt hcf, if_false, hloop, hgt, if_true, hss,
      Option.map_some']
  · refine ⟨[], ?_, ?_⟩
    · simp only [broadcast_impl_issue, Nat.ne_of_gt hcf, if_false, hloop, hgt, reduceIte]
    · rw [List.drop_of_length_le (by omega)]
      exact Chunks.done _

theorem broadcast_post_impl_issue_spec {α ε R : Type} (local_fanout : Nat)
    (calculate_fanout : Nat → Nat → Nat) (act : Action α ε R)
    (fuel : Nat) (ids : List α) (g : Nat)
    (hcf : local_fanout < ids.length → 0 < calculate_fanout ids.length local_fanout)
    (hfuel : ids.length - local_fanout < fuel) :
    ∃ ss, broadcast_post_impl_issue local_fanout calculate_fanout act fuel ids g =
        some ⟨((ids.take local_fanout).enumFrom g).map
          (fun p => (broadcast_invoke_apply act p.2 p.1, ())), ss⟩ ∧
      Chunks (calculate_fanout ids.length local_fanout) (ids.drop local_fanout)
        (g + local_fanout) ss := by
  have hloop := invoke_loop_eq (fun id i => (broadcast_invoke_apply act id i, ())) ids g
    (min ids.length local_fanout) 0 (by omega)
  rw [List.drop_zero, take_min_length, Nat.add_zero] at hloop
  by_cases hgt : ids.length > local_fanout
  · obtain ⟨ss, hss, hch⟩ := chunk_loop_chunks ids (calculate_fanout ids.length local_fanout)
      g (hcf hgt) fuel local_fanout (by omega) hfuel
    refine ⟨ss, ?_, hch⟩
    simp only [broadcast_post_impl_issue, hloop, hgt, if_true, hss, Option.map_some']
  · refine ⟨[], ?_, ?_⟩
    · simp only [broadcast_post_impl_issue, hloop, hgt, reduceIte]
    · rw [List.drop_of_length_le (by omega)]
      exact Chunks.done _

theorem broadcast_invoke_eq {α ε R : Type} (act : Action α ε R) (id : α) (i : Nat) :
    broadcast_invoke act id i = (.async id (act.index_arg i), act.invoke id i) := by
  cases act <;> rfl

theorem broadcast_invoke_then_eq {α ε R β : Type}
    (cont : Except (Exception ε) R → Except (Exception ε) β)
    (act : Action α ε R) (id : α) (i : Nat) :
    broadcast_invoke_then cont act id i =
      (.async id (act.index_arg i), cont (act.invoke id i)) := by
  cases act <;> rfl

theorem broadcast_invoke_apply_eq {α ε R : Type} (act : Action α ε R) (id : α) (i : Nat) :
    broadcast_invoke_apply act id i = .post id (act.index_arg i) := by
  cases act <;> rfl

theorem broadcast_impl_spec {α ε R : Type} (local_fanout : Nat)
    (calculate_fanout : Nat → Nat → Nat) (act : Action α ε R)
    (hF : 0 < local_fanout) (hcf : ∀ n, 0 < calculate_fanout n local_fanout) :
    ∀ fuel ids g, ids.length < fuel →
      ∃ tr, broadcast_impl local_fanout calculate_fanout act fuel ids g =
          some (tr, in_order (outcomes act ids g)) ∧
        invocations tr = each_once act ids g := by
  intro fuel
  induction fuel with
  | zero => intro ids g h; omega
  | succ n ih =>
    intro ids g hlen
    cases ids with
    | nil => exact ⟨[], rfl, rfl⟩
    | cons a l =>
      obtain ⟨ss, hss, hch⟩ := broadcast_impl_issue_spec local_fanout calculate_fanout
        (broadcast_invoke_then wrap_into_vector act) n (a :: l) g (hcf _)
        (by simp only [List.length_cons] at hlen ⊢; omega)
      have hsub : ∀ s ∈ ss, ∃ tr,
          broadcast_impl local_fanout calculate_fanout act n s.ids s.global_idx =
            some (tr, in_order (outcomes act s.ids s.global_idx)) ∧
          invocations tr = each_once act s.ids s.global_idx := by
        intro s hs
        apply ih
        have := chunks_length_le hch s hs
        simp only [List.length_drop, List.length_cons] at this hlen
        omega
      obtain ⟨tr, htr, hinv⟩ := run_spawns_spec
        (fun s => Event.async_colocated s.id s.ids s.global_idx false) (fun _ => rfl)
        (broadcast_impl local_fanout calculate_fanout act n)
        (fun s => in_order (outcomes act s.ids s.global_idx))
        (fun s => each_once act s.ids s.global_idx) ss hsub
      refine ⟨(((a :: l).take local_fanout).enumFrom g |>.map
        (fun p => broadcast_invoke_then wrap_into_vector act p.2 p.1)).map Prod.fst ++ tr, ?_, ?_⟩
      · simp only [broadcast_impl, List.isEmpty_cons, Bool.false_eq_true, if_false, hss, htr]
        congr 2
        have hd : (((a :: l).take local_fanout).enumFrom g |>.map
            (fun p => broadcast_invoke_then wrap_into_vector act p.2 p.1)).map Prod.snd =
            (outcomes act ((a :: l).take local_fanout) g).map wrap_into_vector := by
          simp only [outcomes, List.map_map]
          apply List.map_congr_left
          intro p _
          simp only [Function.comp, broadcast_invoke_then_eq]
        rw [hd, return_result_type, return_result_type_loop_wrap,
          outcomes_take_drop act (a :: l) g local_fanout, in_order_append]
        cases in_order (outcomes act ((a :: l).take local_fanout) g) with
        | error e => rfl
        | ok vs =>
          simp only [chunks_results act hch, List.nil_append]
      · rw [invocations_append, hinv, chunks_each_once act hch,
          invocations_map_invoke _ act.index_arg
            (fun id i => by rw [broadcast_invoke_then_eq]; rfl),
          each_once_take_drop act (a :: l) g local_fanout]
        rfl

theorem broadcast_impl_void_spec {α ε : Type} (local_fanout : Nat)
    (calculate_fanout : Nat → Nat → Nat) (act : Action α ε Unit)
    (hF : 0 < local_fanout) (hcf : ∀ n, 0 < calculate_fanout n local_fanout) :
    ∀ fuel ids g, ids.length < fuel →
      ∃ tr, broadcast_impl_void local_fanout calculate_fanout act fuel ids g =
          some (tr, .ok ()) ∧
        invocations tr = each_once act ids g := by
  intro fuel
  induction fuel with
  | zero => intro ids g h; omega
  | succ n ih =>
    intro ids g hlen
    cases ids with
    | nil => exact ⟨[], rfl, rfl⟩
    | cons a l =>
      obtain ⟨ss, hss, hch⟩ := broadcast_impl_issue_spec local_fanout calculate_fanout
        (broadcast_invoke act) n (a :: l) g (hcf _)
        (by simp only [List.length_cons] at hlen ⊢; omega)
      have hsub : ∀ s ∈ ss, ∃ tr,
          broadcast_impl_void local_fanout calculate_fanout act n s.ids s.global_idx =
            some (tr, .ok ()) ∧
          invocations tr = each_once act s.ids s.global_idx := by
        intro s hs
        apply ih
        have := chunks_length_le hch s hs
        simp only [List.length_drop, List.length_cons] at this hlen
        omega
      obtain ⟨tr, htr, hinv⟩ := run_spawns_spec
        (fun s => Event.async_colocated s.id s.ids s.global_idx true) (fun _ => rfl)
        (broadcast_impl_void local_fanout calculate_fanout act n)
        (fun _ => .ok ())
        (fun s => each_once act s.ids s.global_idx) ss hsub
      refine ⟨(((a :: l).take local_fanout).enumFrom g |>.map
        (fun p => broadcast_invoke act p.2 p.1)).map Prod.fst ++ tr, ?_, ?_⟩
      · simp only [broadcast_impl_void, List.isEmpty_cons, Bool.false_eq_true, if_false, hss,
          htr, return_void]
      · rw [invocations_append, hinv, chunks_each_once act hch,
          invocations_map_invoke _ act.index_arg
            (fun id i => by rw [broadcast_invoke_eq]; rfl),
          each_once_take_drop act (a :: l) g local_fanout]
        rfl

theorem broadcast_post_impl_spec {α ε R : Type} (local_fanout : Nat)
    (calculate_fanout : Nat → Nat → Nat) (act : Action α ε R)
    (hF : 0 < local_fanout) (hcf : ∀ n, 0 < calculate_fanout n local_fanout) :
    ∀ fuel ids g, ids.length < fuel →
      ∃ tr, broadcast_post_impl local_fanout calculate_fanout act fuel ids g =
          some (tr, ()) ∧
        invocations tr = each_once act ids g := by
  intro fuel
  induction fuel with
  | zero => intro ids g h; omega
  | succ n ih =>
    intro ids g hlen
    cases ids with
    | nil => exact ⟨[], rfl, rfl⟩
    | cons a l =>
      obtain ⟨ss, hss, hch⟩ := broadcast_post_impl_issue_spec local_fanout calculate_fanout
        act n (a :: l) g (fun _ => hcf _)
        (by simp only [List.length_cons] at hlen ⊢; omega)
      have hsub : ∀ s ∈ ss, ∃ tr,
          broadcast_post_impl local_fanout calculate_fanout act n s.ids s.global_idx =
            some (tr, ()) ∧
          invocations tr = each_once act s.ids s.global_idx := by
        intro s hs
        apply ih
        have := chunks_length_le hch s hs
        simp only [List.length_drop, List.length_cons] at this hlen
        omega
      obtain ⟨tr, htr, hinv⟩ := run_spawns_spec
        (fun s => Event.post_colocated s.id s.ids s.global_idx) (fun _ => rfl)
        (broadcast_post_impl local_fanout calculate_fanout act n)
        (fun _ => ())
        (fun s => each_once act s.ids s.global_idx) ss hsub
      refine ⟨(((a :: l).take local_fanout).enumFrom g |>.map
        (fun p => (broadcast_invoke_apply act p.2 p.1, ()))).map Prod.fst ++ tr, ?_, ?_⟩
      · simp only [broadcast_post_impl, List.isEmpty_cons, Bool.false_eq_true, if_false, hss,
          htr]
      · rw [invocations_append, hinv, chunks_each_once act hch,
          invocations_map_invoke (fun id i => (broadcast_invoke_apply act id i, ()))
            act.index_arg (fun id i => by simp only [broadcast_invoke_apply_eq]; rfl),
          each_once_take_drop act (a :: l) g local_fanout]
        rfl

theorem chunks_nil_inv {α : Type} {fanout : Nat} {rest : List α} {off : Nat}
    {ss : List (Spawn α)} (h : Chunks fanout rest off ss) : rest = [] → ss = [] := by
  cases h with
  | done off => intro _; rfl
  | step id tl off ss _ => intro h; exact absurd h (List.cons_ne_nil _ _)

theorem chunks_shape {α : Type} {fanout : Nat} {rest : List α} {off : Nat}
    {ss : List (Spawn α)} (h : Chunks fanout rest off ss) (hf : 0 < fanout) :
    (∀ s ∈ ss, s.ids ≠ [] ∧ s.ids.head? = some s.id ∧ s.ids.length ≤ fanout) ∧
      (∀ i (hi : i + 1 < ss.length), (ss.get ⟨i, by omega⟩).ids.length = fanout) := by
  induction h with
  | done off =>
    exact ⟨fun s hs => by simp at hs, fun i hi => by simp at hi⟩
  | step id tl off ss hch ih =>
    obtain ⟨k, hk⟩ : ∃ k, min fanout (tl.length + 1) = k + 1 :=
      ⟨min fanout (tl.length + 1) - 1, by omega⟩
    refine ⟨?_, ?_⟩
    · intro s hs
      rcases List.mem_cons.mp hs with rfl | hs
      · simp only [hk, List.take_succ_cons, ne_eq, reduceCtorEq, not_false_eq_true,
          List.head?_cons, List.length_cons, List.length_take, true_and]
        omega
      · exact ih.1 s hs
    · intro i hi
      cases i with
      | zero =>
        have hne : ss ≠ [] := by
          intro h0; rw [h0] at hi; simp at hi
        have hdrop : (id :: tl).drop (min fanout (tl.length + 1)) ≠ [] :=
          fun h0 => hne (chunks_nil_inv hch h0)
        have hlt := List.length_lt_of_drop_ne_nil hdrop
        simp only [List.length_cons] at hlt
        simp only [List.get_eq_getElem, List.getElem_cons_zero, List.length_take,
          List.length_cons]
        omega
      | succ j =>
        have := ih.2 j (by simp only [List.length_cons] at hi; omega)
        simpa using this

end detail

theorem in_order_map_ok {ε R : Type} (vs : List R) :
    in_order (vs.map (fun v => (.ok v : Except (Exception ε) R))) = .ok vs := by
  induction vs with
  | nil => rfl
  | cons v vs ih => rw [List.map_cons, in_order_ok_cons, ih]

theorem all_ok_eq_map {ε R : Type} (l : List (Except (Exception ε) R))
    (h : ∀ x ∈ l, ∃ v, x = .ok v) :
    ∃ vs : List R, l = vs.map (fun v => (.ok v : Except (Exception ε) R)) := by
  induction l with
  | nil => exact ⟨[], rfl⟩
  | cons x l ih =>
    obtain ⟨v, hv⟩ := h x (List.mem_cons_self _ _)
    obtain ⟨vs, hvs⟩ := ih (fun y hy => h y (List.mem_cons_of_mem _ hy))
    exact ⟨v :: vs, by rw [hv, hvs]; rfl⟩

theorem in_order_first_error {ε R : Type} (l : List (Except (Exception ε) R)) :
    ∀ (i : Nat) (e : Exception ε), l[i]? = some (.error e) →
      (∀ j, j < i → ∃ v, l[j]? = some (.ok v)) → in_order l = .error e := by
  induction l with
  | nil => intro i e h; simp at h
  | cons x l ih =>
    intro i e h hb
    cases i with
    | zero =>
      simp only [List.getElem?_cons_zero, Option.some.injEq] at h
      rw [h]; rfl
    | succ i =>
      obtain ⟨v, hv⟩ := hb 0 (by omega)
      simp only [List.getElem?_cons_zero, Option.some.injEq] at hv
      rw [hv, in_order_ok_cons, ih i e (by simpa using h)
        (fun j hj => by simpa using hb (j + 1) (by omega))]

theorem outcomes_getElem_opt {α ε R : Type} (act : Action α ε R) (ids : List α) (g i : Nat) :
    (outcomes act ids g)[i]? = ids[i]?.map (fun id => act.invoke id (g + i)) := by
  simp only [outcomes, List.getElem?_map, List.getElem?_enumFrom]
  cases ids[i]? <;> rfl

theorem outcomes_length {α ε R : Type} (act : Action α ε R) (ids : List α) (g : Nat) :
    (outcomes act ids g).length = ids.length := by
  simp only [outcomes, List.length_map, List.enumFrom_length]

theorem outcomes_all_ok {α ε R : Type} (act : Action α ε R) (ids : List α)
    (hok : ∀ i (h : i < ids.length), ∃ v, act.invoke ids[i] i = .ok v) :
    ∃ results : List R, in_order (outcomes act ids 0) = .ok results ∧
      results.length = ids.length ∧
      ∀ i (h : i < ids.length) (h2 : i < results.length),
        act.invoke ids[i] i = .ok results[i] := by
  have hall : ∀ x ∈ outcomes act ids 0, ∃ v, x = .ok v := by
    intro x hx
    obtain ⟨i, hi, hxi⟩ := List.getElem_of_mem hx
    have hi2 : i < ids.length := by rw [outcomes_length] at hi; exact hi
    have h1 := outcomes_getElem_opt act ids 0 i
    rw [List.getElem?_eq_getElem hi, List.getElem?_eq_getElem hi2, hxi, Option.map_some',
      Nat.zero_add, Option.some.injEq] at h1
    rw [h1]
    exact hok i hi2
  obtain ⟨vs, hvs⟩ := all_ok_eq_map _ hall
  have hlen : vs.length = ids.length := by
    rw [← outcomes_length act ids 0, hvs, List.length_map]
  refine ⟨vs, by rw [hvs, in_order_map_ok], hlen, ?_⟩
  intro i h h2
  have h1 := outcomes_getElem_opt act ids 0 i
  rw [hvs, List.getElem?_map, List.getElem?_eq_getElem h2, List.getElem?_eq_getElem h,
    Option.map_some', Option.map_some', Nat.zero_add, Option.some.injEq] at h1
  exact h1.symm

/-- A run of `broadcast_with_index` on seven targets with local fan-out 3 and
chunk size 2: the events and the result. -/
theorem broadcast_with_index_run_seven :
    broadcast_with_index 3 (fun _ _ => 2)
      (fun (c : Char) (i : Nat) => (.ok (c.toNat + i) : Except (Exception Unit) Nat)) 8
      ['A', 'B', 'C', 'D', 'E', 'F', 'G'] =
    some ([.async_colocated 'A' ['A', 'B', 'C', 'D', 'E', 'F', 'G'] 0 false,
        .async 'A' (some 0), .async 'B' (some 1), .async 'C' (some 2),
        .async_colocated 'D' ['D', 'E'] 3 false, .async 'D' (some 3), .async 'E' (some 4),
        .async_colocated 'F' ['F', 'G'] 5 false, .async 'F' (some 5), .async 'G' (some 6)],
      .ok [65, 67, 69, 71, 73, 75, 77]) := by
  rfl

/-- A run of `broadcast` in which the targets `E` and `B` fail: all targets
are invoked and the exception of `B` is surfaced. -/
theorem broadcast_run_two_failures :
    broadcast 3 (fun _ _ => 4)
      (Action.plain (fun (c : Char) =>
        if c = 'E' ∨ c = 'B' then (.error (.remote c) : Except (Exception Char) Nat)
        else .ok c.toNat)) 8
      ['A', 'B', 'C', 'D', 'E', 'F', 'G'] =
    some ([.async_colocated 'A' ['A', 'B', 'C', 'D', 'E', 'F', 'G'] 0 false,
        .async 'A' none, .async 'B' none, .async 'C' none,
        .async_colocated 'D' ['D', 'E', 'F', 'G'] 3 false, .async 'D' none, .async 'E' none,
        .async 'F' none, .async_colocated 'G' ['G'] 6 false, .async 'G' none],
      .error (.remote 'B')) := by
  rfl

/-- A chunk size of zero is undefined behaviour in the dispatch routines: the
division in `broadcast_impl`, the read of `ids_next[0]` in
`broadcast_post_impl`. -/
theorem zero_chunk_size_undefined :
    broadcast 3 (fun _ _ => 0)
        (Action.plain (fun (c : Char) => (.ok c.toNat : Except (Exception Unit) Nat))) 8
        ['A', 'B'] = none ∧
      broadcast_post 1 (fun _ _ => 0)
        (Action.plain (fun (c : Char) => (.ok c.toNat : Except (Exception Unit) Nat))) 8
        ['A', 'B'] = none := by
  exact ⟨rfl, rfl⟩

/-- C1: for a non-empty target list of size K and a value-returning action
all of whose invocations succeed, `broadcast` returns a list of length K whose
element i is the result of invoking the action on target i, for every positive
local fan-out constant and every positive chunk size: the result of the
dispatch tree is the plain in-order map of the action over the targets. -/
theorem broadcast_returns_in_order_map {α ε R : Type} (local_fanout : Nat)
    (calculate_fanout : Nat → Nat → Nat) (act : Action α ε R) (fuel : Nat) (ids : List α)
    (hF : 0 < local_fanout) (hcf : ∀ n, 0 < calculate_fanout n local_fanout)
    (hne : ids ≠ []) (hfuel : ids.length < fuel)
    (hok : ∀ i (h : i < ids.length), ∃ v, act.invoke ids[i] i = .ok v) :
    ∃ tr results,
      broadcast local_fanout calculate_fanout act fuel ids = some (tr, .ok results) ∧
      results.length = ids.length ∧
      (∀ i (h : i < ids.length) (h2 : i < results.length),
        act.invoke ids[i] i = .ok results[i]) ∧
      in_order (outcomes act ids 0) = .ok results := by
  obtain ⟨results, hres, hlen, hel⟩ := outcomes_all_ok act ids hok
  obtain ⟨tr, htr, _⟩ := detail.broadcast_impl_spec local_fanout calculate_fanout act hF hcf
    fuel ids 0 hfuel
  cases ids with
  | nil => exact absurd rfl hne
  | cons a l =>
    refine ⟨.async_colocated a (a :: l) 0 false :: tr, results, ?_, hlen, hel, hres⟩
    simp only [broadcast, htr, Option.map_some', hres]

/-- Witness of C1: five targets, local fan-out 2, chunk size 2. -/
theorem broadcast_returns_in_order_map_witness :
    (0 < 2) ∧ ([10, 20, 30, 40, 50] : List Nat) ≠ [] ∧
    ∃ tr results,
      broadcast 2 (fun _ _ => 2)
          (Action.plain (fun n : Nat => (.ok (n + 1) : Except (Exception Unit) Nat)))
          6 [10, 20, 30, 40, 50] = some (tr, .ok results) ∧
        results.length = [10, 20, 30, 40, 50].length ∧
        (∀ i (h : i < [10, 20, 30, 40, 50].length) (h2 : i < results.length),
          (Action.plain (fun n : Nat => (.ok (n + 1) : Except (Exception Unit) Nat))).invoke
            [10, 20, 30, 40, 50][i] i = .ok results[i]) ∧
        in_order (outcomes
          (Action.plain (fun n : Nat => (.ok (n + 1) : Except (Exception Unit) Nat)))
          [10, 20, 30, 40, 50] 0) = .ok results :=
  ⟨by decide, by decide,
    broadcast_returns_in_order_map 2 (fun _ _ => 2) _ 6 [10, 20, 30, 40, 50] (by decide)
      (fun _ => Nat.succ_pos _) (by decide) (by decide) (fun _ _ => ⟨_, rfl⟩)⟩

/-- C2: for an empty target list `broadcast`, for value-returning and for void
actions alike, returns an already failed result handle carrying the
`bad_parameter` exception and issues no event at all: no action invocation
and no co-located spawn. -/
theorem broadcast_empty_bad_parameter {α ε R : Type} (local_fanout : Nat)
    (calculate_fanout : Nat → Nat → Nat) (act : Action α ε R) (actv : Action α ε Unit)
    (fuel : Nat) :
    (∃ tr, broadcast local_fanout calculate_fanout act fuel ([] : List α) =
        some (tr, .error (.bad_parameter "hpx::lcos::broadcast"
          "empty list of targets for broadcast operation")) ∧
      invocations tr = [] ∧ colocated_spawns tr = []) ∧
    (∃ tr, broadcast_void local_fanout calculate_fanout actv fuel ([] : List α) =
        some (tr, .error (.bad_parameter "hpx::lcos::broadcast"
          "empty list of targets for broadcast operation")) ∧
      invocations tr = [] ∧ colocated_spawns tr = []) :=
  ⟨⟨[], rfl, rfl, rfl⟩, ⟨[], rfl, rfl, rfl⟩⟩

/-- C3: for a non-empty target list `broadcast_with_index` (value-returning or
void) invokes the action exactly once per list position p, on target
`ids[p]` with index argument p, whatever the level of the dispatch tree the
invocation is issued at, and invokes no other pair: the invocations of the
whole tree are the enumerated target list. -/
theorem broadcast_with_index_each_position_once {α ε R : Type} (local_fanout : Nat)
    (calculate_fanout : Nat → Nat → Nat) (f : α → Nat → Except (Exception ε) R)
    (fv : α → Nat → Except (Exception ε) Unit) (fuel : Nat) (ids : List α)
    (hF : 0 < local_fanout) (hcf : ∀ n, 0 < calculate_fanout n local_fanout)
    (hne : ids ≠ []) (hfuel : ids.length < fuel) :
    (∃ tr r, broadcast_with_index local_fanout calculate_fanout f fuel ids = some (tr, r) ∧
      invocations tr = ids.enum.map (fun p => (p.2, some p.1))) ∧
    (∃ tr r, broadcast_with_index_void local_fanout calculate_fanout fv fuel ids =
        some (tr, r) ∧
      invocations tr = ids.enum.map (fun p => (p.2, some p.1))) := by
  obtain ⟨tr, htr, hinv⟩ := detail.broadcast_impl_spec local_fanout calculate_fanout
    (Action.with_index f) hF hcf fuel ids 0 hfuel
  obtain ⟨trv, htrv, hinvv⟩ := detail.broadcast_impl_void_spec local_fanout calculate_fanout
    (Action.with_index fv) hF hcf fuel ids 0 hfuel
  cases ids with
  | nil => exact absurd rfl hne
  | cons a l =>
    refine ⟨⟨.async_colocated a (a :: l) 0 false :: tr,
        in_order (outcomes (Action.with_index f) (a :: l) 0), ?_, ?_⟩,
      ⟨.async_colocated a (a :: l) 0 true :: trv, .ok (), ?_, ?_⟩⟩
    · simp only [broadcast_with_index, broadcast, htr, Option.map_some']
    · exact hinv
    · simp only [broadcast_with_index_void, broadcast_void, htrv, Option.map_some']
    · exact hinvv

/-- Witness of C3: five targets, local fan-out 2, chunk size 2. -/
theorem broadcast_with_index_each_position_once_witness :
    (0 < 2) ∧ ([10, 20, 30, 40, 50] : List Nat) ≠ [] ∧
    (∃ tr r, broadcast_with_index 2 (fun _ _ => 2)
        (fun (n i : Nat) => (.ok (n + i) : Except (Exception Unit) Nat)) 6
        [10, 20, 30, 40, 50] = some (tr, r) ∧
      invocations tr = [10, 20, 30, 40, 50].enum.map (fun p => (p.2, some p.1))) ∧
    (∃ tr r, broadcast_with_index_void 2 (fun _ _ => 2)
        (fun (_ _ : Nat) => (.ok () : Except (Exception Unit) Unit)) 6
        [10, 20, 30, 40, 50] = some (tr, r) ∧
      invocations tr = [10, 20, 30, 40, 50].enum.map (fun p => (p.2, some p.1))) :=
  ⟨by decide, by decide,
    broadcast_with_index_each_position_once 2 (fun _ _ => 2) _ _ 6 [10, 20, 30, 40, 50]
      (by decide) (fun _ => Nat.succ_pos _) (by decide) (by decide)⟩

/-- C4: if an invocation of a value-returning broadcast fails, the broadcast
fails with the exception of the failing target that has the smallest position
in the top-level target list, wherever in the dispatch tree that target is
invoked. -/
theorem broadcast_surfaces_first_error {α ε R : Type} (local_fanout : Nat)
    (calculate_fanout : Nat → Nat → Nat) (act : Action α ε R) (fuel : Nat) (ids : List α)
    (i : Nat) (e : Exception ε)
    (hF : 0 < local_fanout) (hcf : ∀ n, 0 < calculate_fanout n local_fanout)
    (hfuel : ids.length < fuel) (hi : i < ids.length)
    (hfail : act.invoke ids[i] i = .error e)
    (hbefore : ∀ j (hj : j < ids.length), j < i → ∃ v, act.invoke ids[j] j = .ok v) :
    ∃ tr, broadcast local_fanout calculate_fanout act fuel ids = some (tr, .error e) := by
  obtain ⟨tr, htr, _⟩ := detail.broadcast_impl_spec local_fanout calculate_fanout act hF hcf
    fuel ids 0 hfuel
  have herr : in_order (outcomes act ids 0) = .error e := by
    apply in_order_first_error _ i e
    · rw [outcomes_getElem_opt, List.getElem?_eq_getElem hi, Option.map_some', Nat.zero_add,
        hfail]
    · intro j hj
      have hj2 : j < ids.length := by omega
      obtain ⟨v, hv⟩ := hbefore j hj2 hj
      exact ⟨v, by rw [outcomes_getElem_opt, List.getElem?_eq_getElem hj2, Option.map_some',
        Nat.zero_add, hv]⟩
  cases ids with
  | nil => simp at hi
  | cons a l =>
    exact ⟨.async_colocated a (a :: l) 0 false :: tr,
      by simp only [broadcast, htr, Option.map_some', herr]⟩

/-- Witness of C4: targets 40 and 50 fail, both inside spawned chunks; the
exception of target 40 is surfaced. -/
theorem broadcast_surfaces_first_error_witness :
    ∃ tr, broadcast 2 (fun _ _ => 1)
      (Action.plain (fun n : Nat =>
        if n < 40 then (.ok n : Except (Exception Nat) Nat) else .error (.remote n)))
      6 [10, 20, 30, 40, 50] = some (tr, .error (.remote 40)) :=
  broadcast_surfaces_first_error 2 (fun _ _ => 1) _ 6 [10, 20, 30, 40, 50] 3 (.remote 40)
    (by decide) (fun _ => Nat.succ_pos _) (by decide) (by decide) rfl
    (fun j hj hlt => by
      have h3 : j = 0 ∨ j = 1 ∨ j = 2 := by omega
      rcases h3 with rfl | rfl | rfl <;> exact ⟨_, rfl⟩)

/-- C5: for a void action and a non-empty target list the aggregate result
of `broadcast` is success, whatever the outcomes of the individual
invocations are: `return_void` inspects no future, so no exception of a
branch reaches the caller. -/
theorem broadcast_void_ignores_failures {α ε : Type} (local_fanout : Nat)
    (calculate_fanout : Nat → Nat → Nat) (act : Action α ε Unit) (fuel : Nat)
    (ids : List α)
    (hF : 0 < local_fanout) (hcf : ∀ n, 0 < calculate_fanout n local_fanout)
    (hne : ids ≠ []) (hfuel : ids.length < fuel) :
    ∃ tr, broadcast_void local_fanout calculate_fanout act fuel ids = some (tr, .ok ()) ∧
      invocations tr = each_once act ids 0 := by
  obtain ⟨tr, htr, hinv⟩ := detail.broadcast_impl_void_spec local_fanout calculate_fanout
    act hF hcf fuel ids 0 hfuel
  cases ids with
  | nil => exact absurd rfl hne
  | cons a l =>
    exact ⟨.async_colocated a (a :: l) 0 true :: tr,
      by simp only [broadcast_void, htr, Option.map_some'], hinv⟩

/-- Witness of C5: every invocation fails, the aggregate result is success. -/
theorem broadcast_void_ignores_failures_witness :
    (0 < 2) ∧ ([10, 20, 30, 40, 50] : List Nat) ≠ [] ∧
    ∃ tr, broadcast_void 2 (fun _ _ => 2)
        (Action.plain (fun n : Nat => (.error (.remote n) : Except (Exception Nat) Unit)))
        6 [10, 20, 30, 40, 50] = some (tr, .ok ()) ∧
      invocations tr = each_once
        (Action.plain (fun n : Nat => (.error (.remote n) : Except (Exception Nat) Unit)))
        [10, 20, 30, 40, 50] 0 :=
  ⟨by decide, by decide,
    broadcast_void_ignores_failures 2 (fun _ _ => 2) _ 6 [10, 20, 30, 40, 50] (by decide)
      (fun _ => Nat.succ_pos _) (by decide) (by decide)⟩

/-- C6: one execution of the dispatch routine on a list `ids` with offset `g`
invokes the action directly on exactly the targets `ids[0 .. min(|ids|, F))`,
the i-th with index `g + i`, and on no other target; so it issues at most F
direct invocations, and when `|ids| <= F` it issues no co-located spawn. -/
theorem dispatch_direct_batch {α ε R : Type} (local_fanout : Nat)
    (calculate_fanout : Nat → Nat → Nat) (act : Action α ε R) (fuel : Nat)
    (ids : List α) (g : Nat)
    (hcf : 0 < calculate_fanout ids.length local_fanout)
    (hfuel : ids.length - local_fanout < fuel) :
    ∃ issued, detail.broadcast_impl_issue local_fanout calculate_fanout
        (detail.broadcast_invoke_then detail.wrap_into_vector act) fuel ids g =
          some issued ∧
      issued.direct.map Prod.fst =
        ((ids.take (min ids.length local_fanout)).enumFrom g).map
          (fun p => Event.async p.2 (act.index_arg p.1)) ∧
      issued.direct.length = min ids.length local_fanout ∧
      (∀ i (h : i < ids.length), i < local_fanout →
        (issued.direct.map Prod.fst)[i]? = some (.async ids[i] (act.index_arg (g + i)))) ∧
      issued.direct.length ≤ local_fanout ∧
      (ids.length ≤ local_fanout → issued.spawns = []) := by
  obtain ⟨ss, hss, hch⟩ := detail.broadcast_impl_issue_spec local_fanout calculate_fanout
    (detail.broadcast_invoke_then detail.wrap_into_vector act) fuel ids g hcf hfuel
  have hfst : (((ids.take local_fanout).enumFrom g).map
      (fun p => detail.broadcast_invoke_then detail.wrap_into_vector act p.2 p.1)).map
        Prod.fst =
      ((ids.take (min ids.length local_fanout)).enumFrom g).map
        (fun p => Event.async p.2 (act.index_arg p.1)) := by
    rw [detail.take_min_length, List.map_map]
    apply List.map_congr_left
    intro p _
    simp only [Function.comp, detail.broadcast_invoke_then_eq]
  refine ⟨_, hss, hfst, ?_, ?_, ?_, ?_⟩
  · simp only [List.length_map, List.enumFrom_length, List.length_take]
    omega
  · intro i h hlt
    rw [hfst, detail.take_min_length, List.getElem?_map, List.getElem?_enumFrom,
      List.getElem?_take_of_lt hlt, List.getElem?_eq_getElem h]
    rfl
  · simp only [List.length_map, List.enumFrom_length, List.length_take]
    omega
  · intro hle
    exact detail.chunks_nil_inv hch (List.drop_of_length_le hle)

/-- Witness of C6: eighteen targets at offset 7 with the default local
fan-out of 16. -/
theorem dispatch_direct_batch_witness :
    (0 < (fun _ _ => 4 : Nat → Nat → Nat) (List.range 18).length HPX_BROADCAST_FANOUT) ∧
    ∃ issued, detail.broadcast_impl_issue HPX_BROADCAST_FANOUT (fun _ _ => 4)
        (detail.broadcast_invoke_then detail.wrap_into_vector
          (Action.with_index (fun (n i : Nat) => (.ok (n + i) : Except (Exception Unit) Nat))))
        3 (List.range 18) 7 = some issued ∧
      issued.direct.map Prod.fst =
        (((List.range 18).take (min (List.range 18).length HPX_BROADCAST_FANOUT)).enumFrom
          7).map
          (fun p => Event.async p.2
            ((Action.with_index
              (fun (n i : Nat) => (.ok (n + i) : Except (Exception Unit) Nat))).index_arg p.1)) ∧
      issued.direct.length = min (List.range 18).length HPX_BROADCAST_FANOUT ∧
      (∀ i (h : i < (List.range 18).length), i < HPX_BROADCAST_FANOUT →
        (issued.direct.map Prod.fst)[i]? = some (.async (List.range 18)[i]
          ((Action.with_index
            (fun (n i : Nat) => (.ok (n + i) : Except (Exception Unit) Nat))).index_arg
              (7 + i)))) ∧
      issued.direct.length ≤ HPX_BROADCAST_FANOUT ∧
      ((List.range 18).length ≤ HPX_BROADCAST_FANOUT → issued.spawns = []) :=
  ⟨by decide,
    dispatch_direct_batch HPX_BROADCAST_FANOUT (fun _ _ => 4) _ 3 (List.range 18) 7
      (by decide) (by decide)⟩

/-- C7: when `|ids| > F` and the chunk size `fanout` is positive, the dispatch
routine splits `ids[F..)` into contiguous non-empty chunks, each of size
exactly `fanout` except possibly a shorter last one, whose concatenation in
order is `ids[F..)`; every chunk goes to one co-located spawn addressed at the
first element of that chunk, as the top-level dispatch is addressed at
`ids[0]`. -/
theorem dispatch_chunks_remainder {α ε R : Type} (local_fanout : Nat)
    (calculate_fanout : Nat → Nat → Nat) (act : Action α ε R) (fuel : Nat)
    (ids : List α) (g : Nat)
    (hF : 0 < local_fanout) (hcf : ∀ n, 0 < calculate_fanout n local_fanout)
    (hgt : local_fanout < ids.length) (hfuel : ids.length ≤ fuel) :
    (∃ issued, detail.broadcast_impl_issue local_fanout calculate_fanout
        (detail.broadcast_invoke_then detail.wrap_into_vector act) fuel ids g =
          some issued ∧
      (issued.spawns.map detail.Spawn.ids).flatten = ids.drop local_fanout ∧
      issued.spawns ≠ [] ∧
      (∀ s ∈ issued.spawns, s.ids ≠ [] ∧ s.ids.head? = some s.id ∧
        s.ids.length ≤ calculate_fanout ids.length local_fanout) ∧
      (∀ i (hi : i + 1 < issued.spawns.length),
        (issued.spawns.get ⟨i, by omega⟩).ids.length =
          calculate_fanout ids.length local_fanout)) ∧
    (∃ id0 tr r, ids.head? = some id0 ∧
      broadcast local_fanout calculate_fanout act (fuel + 1) ids =
        some (.async_colocated id0 ids 0 false :: tr, r)) := by
  obtain ⟨ss, hss, hch⟩ := detail.broadcast_impl_issue_spec local_fanout calculate_fanout
    (detail.broadcast_invoke_then detail.wrap_into_vector act) fuel ids g (hcf _)
    (by omega)
  obtain ⟨h1, h2⟩ := detail.chunks_shape hch (hcf _)
  refine ⟨⟨_, hss, detail.chunks_flatten hch, ?_, h1, h2⟩, ?_⟩
  · intro h0
    have hfl := detail.chunks_flatten hch
    have h0s : ss = [] := h0
    rw [h0s] at hfl
    have hlen := congrArg List.length hfl
    simp only [List.map_nil, List.flatten_nil, List.length_nil, List.length_drop] at hlen
    omega
  · obtain ⟨tr, htr, _⟩ := detail.broadcast_impl_spec local_fanout calculate_fanout act hF
      hcf (fuel + 1) ids 0 (by omega)
    cases ids with
    | nil => simp at hgt
    | cons a l =>
      exact ⟨a, tr, in_order (outcomes act (a :: l) 0), rfl,
        by simp only [broadcast, htr, Option.map_some']⟩

/-- Witness of C7: seven targets, local fan-out 2, chunk size 2: the remainder
of five targets goes to chunks of sizes 2, 2 and 1. -/
theorem dispatch_chunks_remainder_witness :
    (2 < [10, 20, 30, 40, 50, 60, 70].length) ∧
    (∃ issued, detail.broadcast_impl_issue 2 (fun _ _ => 2)
        (detail.broadcast_invoke_then detail.wrap_into_vector
          (Action.plain (fun n : Nat => (.ok n : Except (Exception Unit) Nat))))
        7 [10, 20, 30, 40, 50, 60, 70] 0 = some issued ∧
      (issued.spawns.map detail.Spawn.ids).flatten = [10, 20, 30, 40, 50, 60, 70].drop 2 ∧
      issued.spawns ≠ [] ∧
      (∀ s ∈ issued.spawns, s.ids ≠ [] ∧ s.ids.head? = some s.id ∧
        s.ids.length ≤ (fun _ _ => 2 : Nat → Nat → Nat) [10, 20, 30, 40, 50, 60, 70].length 2) ∧
      (∀ i (hi : i + 1 < issued.spawns.length),
        (issued.spawns.get ⟨i, by omega⟩).ids.length =
          (fun _ _ => 2 : Nat → Nat → Nat) [10, 20, 30, 40, 50, 60, 70].length 2)) ∧
    (∃ id0 tr r, [10, 20, 30, 40, 50, 60, 70].head? = some id0 ∧
      broadcast 2 (fun _ _ => 2)
        (Action.plain (fun n : Nat => (.ok n : Except (Exception Unit) Nat)))
        (7 + 1) [10, 20, 30, 40, 50, 60, 70] =
        some (.async_colocated id0 [10, 20, 30, 40, 50, 60, 70] 0 false :: tr, r)) :=
  ⟨by decide,
    dispatch_chunks_remainder 2 (fun _ _ => 2) _ 7 [10, 20, 30, 40, 50, 60, 70] 0
      (by decide) (fun _ => Nat.succ_pos _) (by decide) (by decide)⟩

/-- C8: with local fan-out 3 and targets `[A, B, C, D, E, F, G]` the dispatch
routine invokes the action directly on exactly `[A, B, C]`, delegates the
remainder `[D, E, F, G]` through co-located spawns, the first of them rooted
at `D`, and the flattened result is the in-order pass over the outcomes of
`A, B, C, D, E, F, G`. -/
theorem broadcast_scenario_seven_targets {α ε R : Type} (A B C D E F G : α)
    (calculate_fanout : Nat → Nat → Nat) (act : Action α ε R) (fuel : Nat)
    (hcf : ∀ n, 0 < calculate_fanout n 3) (hfuel : 7 ≤ fuel) :
    (∃ issued, detail.broadcast_impl_issue 3 calculate_fanout
        (detail.broadcast_invoke_then detail.wrap_into_vector act) fuel
        [A, B, C, D, E, F, G] 0 = some issued ∧
      issued.direct.map Prod.fst =
        [.async A (act.index_arg 0), .async B (act.index_arg 1), .async C (act.index_arg 2)] ∧
      (issued.spawns.map detail.Spawn.ids).flatten = [D, E, F, G] ∧
      (issued.spawns.head?.map detail.Spawn.id) = some D) ∧
    (∃ tr, broadcast 3 calculate_fanout act (fuel + 1) [A, B, C, D, E, F, G] =
        some (tr, in_order [act.invoke A 0, act.invoke B 1, act.invoke C 2,
          act.invoke D 3, act.invoke E 4, act.invoke F 5, act.invoke G 6]) ∧
      invocations tr = [(A, act.index_arg 0), (B, act.index_arg 1), (C, act.index_arg 2),
        (D, act.index_arg 3), (E, act.index_arg 4), (F, act.index_arg 5),
        (G, act.index_arg 6)]) := by
  obtain ⟨ss, hss, hch⟩ := detail.broadcast_impl_issue_spec 3 calculate_fanout
    (detail.broadcast_invoke_then detail.wrap_into_vector act) fuel [A, B, C, D, E, F, G] 0
    (hcf _) (by simp only [List.length_cons, List.length_nil]; omega)
  refine ⟨⟨_, hss, ?_, detail.chunks_flatten hch, ?_⟩, ?_⟩
  · simp only [List.take_succ_cons, List.take_zero, List.enumFrom_cons, List.enumFrom_nil,
      List.map_cons, List.map_nil, detail.broadcast_invoke_then_eq]
  · cases hch with
    | step id tl off ss _ => rfl
  · obtain ⟨tr, htr, hinv⟩ := detail.broadcast_impl_spec 3 calculate_fanout act (by decide)
      hcf (fuel + 1) [A, B, C, D, E, F, G] 0
      (by simp only [List.length_cons, List.length_nil]; omega)
    exact ⟨.async_colocated A [A, B, C, D, E, F, G] 0 false :: tr,
      by simp only [broadcast, htr, Option.map_some']; rfl, hinv⟩

/-- Witness of C8: the targets are the characters A to G, the chunk size is 2. -/
theorem broadcast_scenario_seven_targets_witness :
    (∃ issued, detail.broadcast_impl_issue 3 (fun _ _ => 2)
        (detail.broadcast_invoke_then detail.wrap_into_vector
          (Action.plain (fun c : Char => (.ok c.toNat : Except (Exception Unit) Nat)))) 7
        ['A', 'B', 'C', 'D', 'E', 'F', 'G'] 0 = some issued ∧
      issued.direct.map Prod.fst =
        [.async 'A' none, .async 'B' none, .async 'C' none] ∧
      (issued.spawns.map detail.Spawn.ids).flatten = ['D', 'E', 'F', 'G'] ∧
      (issued.spawns.head?.map detail.Spawn.id) = some 'D') ∧
    (∃ tr, broadcast 3 (fun _ _ => 2)
        (Action.plain (fun c : Char => (.ok c.toNat : Except (Exception Unit) Nat))) (7 + 1)
        ['A', 'B', 'C', 'D', 'E', 'F', 'G'] =
        some (tr, in_order [.ok ('A').toNat, .ok ('B').toNat, .ok ('C').toNat,
          .ok ('D').toNat, .ok ('E').toNat, .ok ('F').toNat, .ok ('G').toNat]) ∧
      invocations tr = [('A', none), ('B', none), ('C', none), ('D', none), ('E', none),
        ('F', none), ('G', none)]) :=
  broadcast_scenario_seven_targets 'A' 'B' 'C' 'D' 'E' 'F' 'G' (fun _ _ => 2)
    (Action.plain (fun c : Char => (.ok c.toNat : Except (Exception Unit) Nat))) 7
    (fun _ => Nat.succ_pos _) (by decide)

/-- C9: for a non-empty target list the fire-and-forget `broadcast_post`
(with a registered action or with `broadcast_with_index`) posts the action on
the same multiset of (target, index argument) pairs as `broadcast` invokes it
on: every listed target exactly once, with the index of its position. -/
theorem broadcast_post_same_invocations {α ε R : Type} (local_fanout : Nat)
    (calculate_fanout : Nat → Nat → Nat) (act : Action α ε R) (fuel : Nat) (ids : List α)
    (hF : 0 < local_fanout) (hcf : ∀ n, 0 < calculate_fanout n local_fanout)
    (hne : ids ≠ []) (hfuel : ids.length < fuel) :
    ∃ trp trb r,
      broadcast_post local_fanout calculate_fanout act fuel ids = some (trp, .ok ()) ∧
      broadcast local_fanout calculate_fanout act fuel ids = some (trb, r) ∧
      (invocations trp).Perm (invocations trb) ∧
      invocations trp = ids.enum.map (fun p => (p.2, act.index_arg p.1)) := by
  obtain ⟨trp, htrp, hinvp⟩ := detail.broadcast_post_impl_spec local_fanout calculate_fanout
    act hF hcf fuel ids 0 hfuel
  obtain ⟨trb, htrb, hinvb⟩ := detail.broadcast_impl_spec local_fanout calculate_fanout
    act hF hcf fuel ids 0 hfuel
  cases ids with
  | nil => exact absurd rfl hne
  | cons a l =>
    refine ⟨.post_colocated a (a :: l) 0 :: trp, .async_colocated a (a :: l) 0 false :: trb,
      in_order (outcomes act (a :: l) 0), ?_, ?_, ?_, hinvp⟩
    · simp only [broadcast_post, htrp, Option.map_some']
    · simp only [broadcast, htrb, Option.map_some']
    · have h : invocations (.post_colocated a (a :: l) 0 :: trp) =
          invocations (.async_colocated a (a :: l) 0 false :: trb) :=
        hinvp.trans hinvb.symm
      rw [h]

/-- Witness of C9: `broadcast_post_with_index` and `broadcast_with_index` on
five targets, local fan-out 2, chunk size 2. -/
theorem broadcast_post_same_invocations_witness :
    (0 < 2) ∧ ([10, 20, 30, 40, 50] : List Nat) ≠ [] ∧
    ∃ trp trb r,
      broadcast_post 2 (fun _ _ => 2)
        (Action.with_index (fun (n i : Nat) => (.ok (n + i) : Except (Exception Unit) Nat)))
        6 [10, 20, 30, 40, 50] = some (trp, .ok ()) ∧
      broadcast 2 (fun _ _ => 2)
        (Action.with_index (fun (n i : Nat) => (.ok (n + i) : Except (Exception Unit) Nat)))
        6 [10, 20, 30, 40, 50] = some (trb, r) ∧
      (invocations trp).Perm (invocations trb) ∧
      invocations trp = [10, 20, 30, 40, 50].enum.map
        (fun p => (p.2, (Action.with_index
          (fun (n i : Nat) => (.ok (n + i) : Except (Exception Unit) Nat))).index_arg p.1)) :=
  ⟨by decide, by decide,
    broadcast_post_same_invocations 2 (fun _ _ => 2) _ 6 [10, 20, 30, 40, 50] (by decide)
      (fun _ => Nat.succ_pos _) (by decide) (by decide)⟩

/-- C10: for an empty target list `broadcast_post` fails at once with the
`bad_parameter` exception and issues no event at all: no post and no
co-located spawn. -/
theorem broadcast_post_empty_bad_parameter {α ε R : Type} (local_fanout : Nat)
    (calculate_fanout : Nat → Nat → Nat) (act : Action α ε R) (fuel : Nat) :
    ∃ tr, broadcast_post local_fanout calculate_fanout act fuel ([] : List α) =
        some (tr, .error (.bad_parameter "hpx::lcos::broadcast_post"
          "empty list of targets for broadcast operation")) ∧
      invocations tr = [] ∧ colocated_spawns tr = [] :=
  ⟨[], rfl, rfl, rfl⟩

end hpx.lcos

namespace hpx.resiliency

theorem replay_step_attempt {α ε R : Type} (sites : List α) (action : α → Except ε R)
    (validate : Option (R → Bool)) (i : Nat) (site : α) (h : sites[i]? = some site) :
    replay_step sites action validate (.Attempt i) =
      match site_value action validate site with
      | some result => (.Done result, [site])
      | none => (.Attempt (i + 1), [site]) := by
  simp only [replay_step, h, site_value]
  cases action site with
  | error e => rfl
  | ok r =>
    simp only []
    cases hacc : accepted validate r <;> simp

theorem replay_run_done {α ε R : Type} (sites : List α) (action : α → Except ε R)
    (validate : Option (R → Bool)) (fuel : Nat) (r : R) (attempted : List α) :
    replay_run sites action validate fuel (.Done r) attempted = some (attempted, .ok r) := by
  cases fuel <;> rfl

theorem replay_run_exhausted {α ε R : Type} (sites : List α) (action : α → Except ε R)
    (validate : Option (R → Bool)) (fuel n : Nat) (attempted : List α) :
    replay_run sites action validate fuel (.Exhausted n) attempted =
      some (attempted, .error (.ExhaustedError n)) := by
  cases fuel <;> rfl

theorem replay_run_eq {α ε R : Type} (sites : List α) (action : α → Except ε R)
    (validate : Option (R → Bool)) :
    ∀ fuel i attempted, i ≤ sites.length → sites.length - i < fuel →
      replay_run sites action validate fuel (.Attempt i) attempted =
        some (attempted ++ (first_qualifying action validate (sites.drop i) i).1,
          (first_qualifying action validate (sites.drop i) i).2) := by
  intro fuel
  induction fuel with
  | zero => intro i attempted _ h; omega
  | succ n ih =>
    intro i attempted hle hfuel
    by_cases heq : i = sites.length
    · have hnone : sites[i]? = none := List.getElem?_eq_none (by omega)
      simp only [replay_run, replay_step, hnone, replay_run_exhausted]
      rw [heq, List.drop_length]
      rfl
    · have hi : i < sites.length := by omega
      have hd : sites.drop i = sites[i] :: sites.drop (i + 1) := List.drop_eq_getElem_cons hi
      have hstep := replay_step_attempt sites action validate i sites[i]
        (List.getElem?_eq_getElem hi)
      rw [hd]
      simp only [replay_run, hstep, first_qualifying]
      cases hv : site_value action validate sites[i] with
      | some r => simp only [replay_run_done]
      | none =>
        simp only []
        rw [ih (i + 1) _ (by omega) (by omega), List.append_assoc]
        rfl

theorem replay_eq_first_qualifying {α ε R : Type} (sites : List α) (action : α → Except ε R)
    (validate : Option (R → Bool)) (fuel : Nat) (hfuel : sites.length < fuel) :
    replay sites action validate fuel = some (first_qualifying action validate sites 0) := by
  rw [replay, replay_run_eq sites action validate fuel 0 [] (Nat.zero_le _) (by omega)]
  rfl

theorem first_qualifying_all_fail {α ε R : Type} (action : α → Except ε R)
    (validate : Option (R → Bool)) :
    ∀ (pool : List α) (i : Nat), (∀ s ∈ pool, site_value action validate s = none) →
      first_qualifying action validate pool i =
        (pool, .error (.ExhaustedError (i + pool.length))) := by
  intro pool
  induction pool with
  | nil => intro i _; rfl
  | cons s pool ih =>
    intro i h
    have hs := h s (List.mem_cons_self _ _)
    have hrest := ih (i + 1) (fun x hx => h x (List.mem_cons_of_mem _ hx))
    simp only [first_qualifying, hs, hrest, List.length_cons]
    congr 3
    omega

theorem first_qualifying_at {α ε R : Type} (action : α → Except ε R)
    (validate : Option (R → Bool)) :
    ∀ (pool : List α) (i k : Nat) (s : α) (r : R), pool[k]? = some s →
      site_value action validate s = some r →
      (∀ j s', j < k → pool[j]? = some s' → site_value action validate s' = none) →
      first_qualifying action validate pool i = (pool.take (k + 1), .ok r) := by
  intro pool
  induction pool with
  | nil => intro i k s r h; simp at h
  | cons a pool ih =>
    intro i k s r hk hs hbefore
    cases k with
    | zero =>
      simp only [List.getElem?_cons_zero, Option.some.injEq] at hk
      simp only [first_qualifying, hk, hs, List.take_succ_cons, List.take_zero]
    | succ k =>
      have ha := hbefore 0 a (by omega) (List.getElem?_cons_zero)
      have hrest := ih (i + 1) k s r (by simpa using hk) hs
        (fun j s' hj hj' => hbefore (j + 1) s' (by omega) (by simpa using hj'))
      simp only [first_qualifying, ha, hrest, List.take_succ_cons]

theorem first_qualifying_initial {α ε R : Type} (action : α → Except ε R)
    (validate : Option (R → Bool)) :
    ∀ (pool : List α) (i : Nat), (first_qualifying action validate pool i).1 <+: pool := by
  intro pool
  induction pool with
  | nil => intro i; exact List.prefix_refl _
  | cons a pool ih =>
    intro i
    simp only [first_qualifying]
    cases site_value action validate a with
    | some r => exact ⟨pool, rfl⟩
    | none => exact (List.prefix_cons_inj a).mpr (ih (i + 1))

theorem site_value_of_error {α ε R : Type} (action : α → Except ε R)
    (validate : Option (R → Bool)) (s : α) (h : ∃ e, action s = .error e) :
    site_value action validate s = none := by
  obtain ⟨e, he⟩ := h
  simp only [site_value, he]

/-- C11: replay over a pool of K sites issues at most K attempts. If the
sites 0..K-2 (`failing`) always fail and site K-1 (`last`) succeeds, the
success result is returned after exactly K attempts; if all sites of a pool
(`dead`) fail, `ExhaustedError` is returned after exactly K attempts, one per
site, and no further attempt is issued. -/
theorem replay_exactly_pool_size_attempts {α ε R : Type} (action : α → Except ε R)
    (failing : List α) (last : α) (r : R) (dead : List α) (fuel : Nat)
    (hfailing : ∀ s ∈ failing, ∃ e, action s = .error e)
    (hlast : action last = .ok r)
    (hdead : ∀ s ∈ dead, ∃ e, action s = .error e)
    (hfuel1 : (failing ++ [last]).length < fuel) (hfuel2 : dead.length < fuel) :
    replay (failing ++ [last]) action none fuel = some (failing ++ [last], .ok r) ∧
      replay dead action none fuel =
        some (dead, .error (.ExhaustedError dead.length)) ∧
      (∀ (sites : List α) (validate : Option (R → Bool)), sites.length < fuel →
        ∃ attempted result, replay sites action validate fuel = some (attempted, result) ∧
          attempted.length ≤ sites.length ∧ attempted <+: sites) := by
  refine ⟨?_, ?_, ?_⟩
  · rw [replay_eq_first_qualifying _ _ _ _ hfuel1]
    have h := first_qualifying_at action none (failing ++ [last]) 0 failing.length last r
      (by simp) (by simp only [site_value, hlast, accepted]; rfl)
      (fun j s' hj hs' => by
        apply site_value_of_error
        apply hfailing
        rw [List.getElem?_append_left hj] at hs'
        exact List.mem_iff_getElem?.mpr ⟨j, hs'⟩)
    rw [h, List.take_of_length_le (by simp)]
  · rw [replay_eq_first_qualifying _ _ _ _ hfuel2,
      first_qualifying_all_fail action none dead 0
        (fun s hs => site_value_of_error action none s (hdead s hs)), Nat.zero_add]
  · intro sites validate hfuel
    refine ⟨_, _, by rw [replay_eq_first_qualifying _ _ _ _ hfuel],
      (first_qualifying_initial action validate sites 0).length_le,
      first_qualifying_initial action validate sites 0⟩

/-- Witness of C11: the action `universal_ans` of the examples with the
localities 1 and 2 marked faulty, on the pools `[1, 2, 3]` and `[1, 2]`. -/
theorem replay_exactly_pool_size_attempts_witness :
    replay ([1, 2] ++ [3]) (fun here : Nat => resiliency_example.universal_ans here [1, 2])
        none 4 = some ([1, 2] ++ [3], .ok 42) ∧
      replay [1, 2] (fun here : Nat => resiliency_example.universal_ans here [1, 2])
        none 4 = some ([1, 2], .error (.ExhaustedError [1, 2].length)) ∧
      (∀ (sites : List Nat) (validate : Option (Int → Bool)), sites.length < 4 →
        ∃ attempted result,
          replay sites (fun here : Nat => resiliency_example.universal_ans here [1, 2])
            validate 4 = some (attempted, result) ∧
          attempted.length ≤ sites.length ∧ attempted <+: sites) :=
  replay_exactly_pool_size_attempts
    (fun here : Nat => resiliency_example.universal_ans here [1, 2]) [1, 2] 3 42 [1, 2] 4
    (fun s hs => by
      simp only [List.mem_cons, List.mem_singleton, List.not_mem_nil, or_false] at hs
      rcases hs with rfl | rfl <;> exact ⟨_, rfl⟩)
    rfl
    (fun s hs => by
      simp only [List.mem_cons, List.mem_singleton, List.not_mem_nil, or_false] at hs
      rcases hs with rfl | rfl <;> exact ⟨_, rfl⟩)
    (by decide) (by decide)

/-- C12: replay, with or without a validate predicate, returns the result of
the lowest-indexed site of the pool whose invocation succeeds and is accepted;
the sites before it are attempted once each in pool order, and no site after
it is invoked. -/
theorem replay_returns_lowest_qualifying {α ε R : Type} (sites : List α)
    (action : α → Except ε R) (validate : Option (R → Bool)) (i : Nat) (r : R)
    (fuel : Nat) (hi : i < sites.length)
    (hq : action sites[i] = .ok r ∧ accepted validate r = true)
    (hbefore : ∀ j (hj : j < sites.length), j < i →
      (∃ e, action sites[j] = .error e) ∨
        (∃ r', action sites[j] = .ok r' ∧ accepted validate r' = false))
    (hfuel : sites.length < fuel) :
    replay sites action validate fuel = some (sites.take (i + 1), .ok r) := by
  rw [replay_eq_first_qualifying _ _ _ _ hfuel]
  congr 1
  apply first_qualifying_at action validate sites 0 i sites[i] r
    (List.getElem?_eq_getElem hi)
  · simp only [site_value, hq.1, hq.2, if_true]
  · intro j s' hj hs'
    have hj2 : j < sites.length := by omega
    rw [List.getElem?_eq_getElem hj2, Option.some.injEq] at hs'
    rw [← hs']
    rcases hbefore j hj2 hj with h | ⟨r', h1, h2⟩
    · exact site_value_of_error action validate _ h
    · simp only [site_value, h1, h2]
      rfl

/-- Witness of C12: `async_replay_validate` of the example with the predicate
`validate`, localities 1 and 2 faulty: locality 3 is the first to qualify and
locality 4 is not invoked. -/
theorem replay_returns_lowest_qualifying_witness :
    replay [1, 2, 3, 4] (fun here : Nat => resiliency_example.universal_ans here [1, 2])
      (some resiliency_example.validate) 5 = some ([1, 2, 3, 4].take (2 + 1), .ok 42) :=
  replay_returns_lowest_qualifying [1, 2, 3, 4]
    (fun here : Nat => resiliency_example.universal_ans here [1, 2])
    (some resiliency_example.validate) 2 42 5 (by decide) ⟨rfl, rfl⟩
    (fun j hj hlt => by
      have h2 : j = 0 ∨ j = 1 := by omega
      rcases h2 with rfl | rfl <;> exact Or.inl ⟨_, rfl⟩)
    (by decide)

theorem fire_all_getElem_opt {α ε R : Type} (sites : List α) (action : α → Except ε R)
    (i : Nat) :
    (fire_all sites action)[i]? =
      sites[i]?.map (fun s => (⟨s, action s⟩ : ReplicaOutcome α ε R)) := by
  simp only [fire_all, List.getElem?_map]

theorem fire_all_sites {α ε R : Type} (sites : List α) (action : α → Except ε R) :
    (fire_all sites action).map ReplicaOutcome.site = sites := by
  simp only [fire_all, List.map_map]
  exact List.map_id sites

theorem qualifies_fired {α ε R : Type} (action : α → Except ε R)
    (validate : Option (R → Bool)) (s : α) :
    qualifies validate (⟨s, action s⟩ : ReplicaOutcome α ε R) =
      site_value action validate s := rfl

theorem race_eq_none_iff {α ε R : Type} (validate : Option (R → Bool))
    (outcomes : List (ReplicaOutcome α ε R)) (order : List Nat) :
    race validate outcomes order = none ↔
      ∀ i ∈ order, ∀ o, outcomes[i]? = some o → qualifies validate o = none := by
  induction order with
  | nil => simp [race]
  | cons i later ih =>
    simp only [race, List.mem_cons, forall_eq_or_imp]
    cases ho : outcomes[i]? with
    | none => simp [ih]
    | some o =>
      cases hq : qualifies validate o with
      | none => simp [ih, hq]
      | some r => simp [hq]

theorem race_eq_some {α ε R : Type} (validate : Option (R → Bool))
    (outcomes : List (ReplicaOutcome α ε R)) (order : List Nat) (r : R)
    (h : race validate outcomes order = some r) :
    ∃ i ∈ order, ∃ o, outcomes[i]? = some o ∧ qualifies validate o = some r := by
  induction order with
  | nil => simp [race] at h
  | cons i later ih =>
    simp only [race] at h
    cases ho : outcomes[i]? with
    | none =>
      rw [ho] at h
      obtain ⟨j, hj, o, h1, h2⟩ := ih h
      exact ⟨j, List.mem_cons_of_mem _ hj, o, h1, h2⟩
    | some o =>
      rw [ho] at h
      cases hq : qualifies validate o with
      | none =>
        simp only [hq] at h
        obtain ⟨j, hj, o', h1, h2⟩ := ih h
        exact ⟨j, List.mem_cons_of_mem _ hj, o', h1, h2⟩
      | some r' =>
        simp only [hq, Option.some.injEq] at h
        exact ⟨i, List.mem_cons_self _ _, o, ho, by rw [hq, h]⟩

theorem race_none_iff_sites {α ε R : Type} (sites : List α) (action : α → Except ε R)
    (validate : Option (R → Bool)) (order : List Nat)
    (hperm : order.Perm (List.range sites.length)) :
    race validate (fire_all sites action) order = none ↔
      ∀ s ∈ sites, site_value action validate s = none := by
  rw [race_eq_none_iff]
  constructor
  · intro h s hs
    obtain ⟨i, hi, rfl⟩ := List.getElem_of_mem hs
    have := h i (hperm.mem_iff.mpr (List.mem_range.mpr hi)) ⟨sites[i], action sites[i]⟩
      (by rw [fire_all_getElem_opt, List.getElem?_eq_getElem hi]; rfl)
    exact this
  · intro h i _ o ho
    rw [fire_all_getElem_opt] at ho
    cases hs : sites[i]? with
    | none => rw [hs] at ho; simp at ho
    | some s =>
      rw [hs] at ho
      simp only [Option.map_some', Option.some.injEq] at ho
      rw [← ho, qualifies_fired]
      exact h s (List.getElem?_mem hs)

theorem race_some_site {α ε R : Type} (sites : List α) (action : α → Except ε R)
    (validate : Option (R → Bool)) (order : List Nat) (r : R)
    (h : race validate (fire_all sites action) order = some r) :
    ∃ i, ∃ hi : i < sites.length, site_value action validate sites[i] = some r := by
  obtain ⟨i, _, o, ho, hq⟩ := race_eq_some validate _ order r h
  rw [fire_all_getElem_opt] at ho
  cases hs : sites[i]? with
  | none => rw [hs] at ho; simp at ho
  | some s =>
    rw [hs] at ho
    simp only [Option.map_some', Option.some.injEq] at ho
    obtain ⟨hi, hget⟩ := List.getElem?_eq_some.mp hs
    refine ⟨i, hi, ?_⟩
    rw [hget, ← qualifies_fired, ho, hq]

theorem replicate_race_contract {α ε R : Type} (sites : List α) (action : α → Except ε R)
    (validate : Option (R → Bool)) (order : List Nat)
    (hperm : order.Perm (List.range sites.length)) :
    race_contract sites action validate (replicate_race sites action validate order) := by
  have hnone := race_none_iff_sites sites action validate order hperm
  refine ⟨fire_all_sites sites action, ?_, ?_, ?_, ?_⟩
  · simp only [replicate_race]
    cases hr : race validate (fire_all sites action) order with
    | none => simp only [← hnone, hr]; simp
    | some r => simp only [← hnone, hr]; simp
  · intro e he
    simp only [replicate_race] at he
    cases hr : race validate (fire_all sites action) order with
    | none => rw [hr] at he; simp only [Except.error.injEq] at he; exact he.symm
    | some r => rw [hr] at he; simp at he
  · intro r hres
    simp only [replicate_race] at hres
    cases hr : race validate (fire_all sites action) order with
    | none => rw [hr] at hres; simp at hres
    | some r' =>
      rw [hr] at hres
      simp only [Except.ok.injEq] at hres
      obtain ⟨i, hi, hv⟩ := race_some_site sites action validate order r' hr
      exact ⟨sites[i], List.getElem_mem _, by rw [hv, hres]⟩
  · intro i hi r hq hothers
    simp only [replicate_race]
    cases hr : race validate (fire_all sites action) order with
    | none =>
      have := hnone.mp hr sites[i] (List.getElem_mem _)
      rw [hq] at this
      simp at this
    | some r' =>
      obtain ⟨j, hj, hv⟩ := race_some_site sites action validate order r' hr
      by_cases hji : j = i
      · subst hji
        rw [hq, Option.some.injEq] at hv
        rw [hv]
      · rw [hothers j hj hji] at hv
        simp at hv

/-- C13: over N >= 1 sites and for every order in which the invocations
settle, the race variants `replicate` and `replicate_validate` fail if and
only if no replica qualifies (its invocation raised an error or, for
`replicate_validate`, its result failed `validate`); otherwise the returned
value is the value of a qualifying replica, so with exactly one qualifying
site the result is the result of that site. -/
theorem replicate_fails_iff_no_replica_qualifies {α ε R : Type} (sites : List α)
    (action : α → Except ε R) (validate : R → Bool) (settle_order : List Nat)
    (hN : 1 ≤ sites.length) (hsettle : settle_order.Perm (List.range sites.length)) :
    race_contract sites action none (replicate sites action settle_order) ∧
      race_contract sites action (some validate)
        (replicate_validate sites validate action settle_order) :=
  have _ := hN
  ⟨replicate_race_contract sites action none settle_order hsettle,
    replicate_race_contract sites action (some validate) settle_order hsettle⟩

/-- Witness of C13: `async_replicate` and `async_replicate_validate` of the
example on four localities of which 1, 2 and 4 are faulty, the invocation on
locality 4 settling first. -/
theorem replicate_fails_iff_no_replica_qualifies_witness :
    (1 ≤ [1, 2, 3, 4].length) ∧
      ([3, 1, 0, 2] : List Nat).Perm (List.range [1, 2, 3, 4].length) ∧
      race_contract [1, 2, 3, 4]
        (fun here : Nat => resiliency_example.universal_ans here [1, 2, 4]) none
        (replicate [1, 2, 3, 4]
          (fun here : Nat => resiliency_example.universal_ans here [1, 2, 4]) [3, 1, 0, 2]) ∧
      race_contract [1, 2, 3, 4]
        (fun here : Nat => resiliency_example.universal_ans here [1, 2, 4])
        (some resiliency_example.validate)
        (replicate_validate [1, 2, 3, 4] resiliency_example.validate
          (fun here : Nat => resiliency_example.universal_ans here [1, 2, 4]) [3, 1, 0, 2]) :=
  ⟨by decide, by decide,
    replicate_fails_iff_no_replica_qualifies [1, 2, 3, 4]
      (fun here : Nat => resiliency_example.universal_ans here [1, 2, 4])
      resiliency_example.validate [3, 1, 0, 2] (by decide) (by decide)⟩

theorem collect_successful_fire_all {α ε R : Type} (action : α → Except ε R)
    (validate : Option (R → Bool)) (sites : List α) :
    collect_successful validate (fire_all sites action) =
      successful_values action validate sites := by
  induction sites with
  | nil => rfl
  | cons s sites ih =>
    have hq := qualifies_fired action validate s
    simp only [fire_all, List.map_cons, collect_successful, successful_values,
      List.filterMap_cons] at ih ⊢
    rw [hq]
    cases site_value action validate s with
    | none => exact ih
    | some r => simp only [ih]

theorem replicate_vote_run_contract {α ε R : Type} (sites : List α)
    (action : α → Except ε R) (validate : Option (R → Bool)) (vote : List R → R) :
    vote_contract sites action validate vote
      (replicate_vote_run sites action validate vote) := by
  have hnil : successful_values action validate sites = [] ↔
      ∀ s ∈ sites, site_value action validate s = none := by
    simp only [successful_values, List.filterMap_eq_nil_iff]
  have hres : (replicate_vote_run sites action validate vote).2 =
      match successful_values action validate sites with
      | [] => .error (.AllReplicasFailedError sites.length)
      | result :: results => .ok (vote (result :: results)) := by
    simp only [replicate_vote_run, collect_successful_fire_all]
  refine ⟨fire_all_sites sites action, ?_, ?_, ?_, ?_⟩
  · intro hne
    rw [hres]
    cases hs : successful_values action validate sites with
    | nil => exact absurd hs hne
    | cons r rs => rfl
  · rw [hres]
    cases successful_values action validate sites with
    | nil => simp
    | cons r rs => simp
  · rw [← hnil, hres]
    cases successful_values action validate sites with
    | nil => simp
    | cons r rs => simp
  · intro e he
    rw [hres] at he
    cases hs : successful_values action validate sites with
    | nil => rw [hs] at he; simp only [Except.error.injEq] at he; exact he.symm
    | cons r rs => rw [hs] at he; simp at he

theorem majority_vote_all_eq {R : Type} [DecidableEq R] (dflt v : R) (results : List R)
    (hne : results ≠ []) (hall : ∀ x ∈ results, x = v) :
    majority_vote dflt results = v := by
  have hfold : ∀ (l : List R) (c : R → Nat) (best : R), best = v → (∀ x ∈ l, x = v) →
      l.foldl (fun best x => if c best < c x then x else best) best = v := by
    intro l c
    induction l with
    | nil => intro best hb _; exact hb
    | cons x l ih =>
      intro best hb hl
      have hx : x = v := hl x (List.mem_cons_self _ _)
      apply ih _ _ (fun y hy => hl y (List.mem_cons_of_mem _ hy))
      rw [hb, hx]
      exact ite_self v
  cases results with
  | nil => exact absurd rfl hne
  | cons a l =>
    exact hfold (a :: l) (fun y => (a :: l).count y) a (hall a (List.mem_cons_self _ _)) hall

/-- C14: `replicate_vote` returns `vote` applied to exactly the successful
outcomes, the failed ones being removed before the vote
(`replicate_vote_validate` also removes the outcomes failing `validate`), and
fails with `AllReplicasFailedError` if and only if no outcome remains. With a
majority vote over sites of which the non-faulty ones all produce `v` and at
least one is non-faulty (5 sites with 2 faulty, say), the result is `v`. -/
theorem replicate_vote_over_successful_outcomes {α ε R : Type} [DecidableEq R]
    (sites : List α) (action : α → Except ε R) (vote : List R → R) (validate : R → Bool)
    (sites5 : List α) (action5 : α → Except ε R) (dflt v : R)
    (hdet : ∀ s ∈ sites5, action5 s = .ok v ∨ ∃ e, action5 s = .error e)
    (hnonfaulty : ∃ s ∈ sites5, action5 s = .ok v) :
    vote_contract sites action none vote (replicate_vote sites vote action) ∧
      vote_contract sites action (some validate) vote
        (replicate_vote_validate sites vote validate action) ∧
      (replicate_vote sites5 (majority_vote dflt) action5).2 = .ok v := by
  refine ⟨replicate_vote_run_contract sites action none vote,
    replicate_vote_run_contract sites action (some validate) vote, ?_⟩
  have hc := replicate_vote_run_contract sites5 action5 none (majority_vote dflt)
  have hne : successful_values action5 none sites5 ≠ [] := by
    obtain ⟨s, hs, hv⟩ := hnonfaulty
    intro h0
    have := (List.filterMap_eq_nil_iff.mp h0) s hs
    simp [site_value, hv, accepted] at this
  have hall : ∀ x ∈ successful_values action5 none sites5, x = v := by
    intro x hx
    obtain ⟨s, hs, hsv⟩ := List.mem_filterMap.mp hx
    rcases hdet s hs with h | ⟨e, h⟩
    · simp only [site_value, h, accepted, if_true, Option.some.injEq] at hsv
      exact hsv.symm
    · simp [site_value, h] at hsv
  rw [replicate_vote, hc.2.1 hne, majority_vote_all_eq dflt v _ hne hall]

/-- Witness of C14: `universal_ans` on five localities of which 2 and 4 are
faulty, with the majority vote. -/
theorem replicate_vote_over_successful_outcomes_witness :
    vote_contract [1, 2, 3, 4, 5]
        (fun here : Nat => resiliency_example.universal_ans here [2, 4]) none
        (majority_vote 0)
        (replicate_vote [1, 2, 3, 4, 5] (majority_vote 0)
          (fun here : Nat => resiliency_example.universal_ans here [2, 4])) ∧
      vote_contract [1, 2, 3, 4, 5]
        (fun here : Nat => resiliency_example.universal_ans here [2, 4])
        (some resiliency_example.validate) (majority_vote 0)
        (replicate_vote_validate [1, 2, 3, 4, 5] (majority_vote 0)
          resiliency_example.validate
          (fun here : Nat => resiliency_example.universal_ans here [2, 4])) ∧
      (replicate_vote [1, 2, 3, 4, 5] (majority_vote 0)
        (fun here : Nat => resiliency_example.universal_ans here [2, 4])).2 = .ok 42 :=
  replicate_vote_over_successful_outcomes [1, 2, 3, 4, 5]
    (fun here : Nat => resiliency_example.universal_ans here [2, 4]) (majority_vote 0)
    resiliency_example.validate [1, 2, 3, 4, 5]
    (fun here : Nat => resiliency_example.universal_ans here [2, 4]) 0 42
    (fun s hs => by
      simp only [List.mem_cons, List.mem_singleton, List.not_mem_nil, or_false] at hs
      rcases hs with rfl | rfl | rfl | rfl | rfl
      · exact Or.inl rfl
      · exact Or.inr ⟨_, rfl⟩
      · exact Or.inl rfl
      · exact Or.inr ⟨_, rfl⟩
      · exact Or.inl rfl)
    ⟨1, by decide, rfl⟩

/-- A run of `replicate_vote` with the majority vote on five localities, 2
and 4 faulty: all five are invoked and the result is 42. -/
theorem replicate_vote_run_five :
    replicate_vote [1, 2, 3, 4, 5] (majority_vote 0)
        (fun here : Nat => resiliency_example.universal_ans here [2, 4]) =
      ([1, 2, 3, 4, 5], .ok 42) := by
  rfl

end hpx.resiliency

namespace hpx.lcos

namespace detail

theorem chunks_offsets {α : Type} {fanout : Nat} {rest : List α} {off : Nat}
    {ss : List (Spawn α)} (h : Chunks fanout rest off ss) :
    ∀ j (hj : j < ss.length),
      (ss.get ⟨j, hj⟩).global_idx =
          off + ((ss.take j).map (fun s => s.ids.length)).sum ∧
        (ss.get ⟨j, hj⟩).ids <+:
          rest.drop (((ss.take j).map (fun s => s.ids.length)).sum) := by
  induction h with
  | done off => intro j hj; simp at hj
  | step id tl off ss _ ih =>
    intro j hj
    have hl : ((id :: tl).take (min fanout (tl.length + 1))).length =
        min fanout (tl.length + 1) := by
      simp only [List.length_take, List.length_cons]; omega
    cases j with
    | zero =>
      simp only [List.get_eq_getElem, List.getElem_cons_zero, List.take_zero, List.map_nil,
        List.sum_nil, Nat.add_zero, List.drop_zero, true_and]
      exact List.take_prefix _ _
    | succ j =>
      obtain ⟨h1, h2⟩ := ih j (by simp only [List.length_cons] at hj; omega)
      simp only [List.get_eq_getElem, List.getElem_cons_succ, List.take_succ_cons,
        List.map_cons, List.sum_cons, hl] at h1 h2 ⊢
      refine ⟨by rw [h1]; omega, ?_⟩
      rw [List.drop_drop] at h2
      exact h2

theorem sum_lengths_take_succ {α : Type} (ss : List (Spawn α)) (j : Nat)
    (hj : j < ss.length) :
    ((ss.take (j + 1)).map (fun s => s.ids.length)).sum =
      ((ss.take j).map (fun s => s.ids.length)).sum + (ss.get ⟨j, hj⟩).ids.length := by
  rw [List.take_succ, List.getElem?_eq_getElem hj]
  simp only [Option.toList, List.map_append, List.sum_append, List.map_cons, List.map_nil,
    List.sum_cons, List.sum_nil, Nat.add_zero, List.get_eq_getElem]

theorem sum_lengths_take_const {α : Type} (ss : List (Spawn α)) (c : Nat)
    (h : ∀ i (hi : i + 1 < ss.length), (ss.get ⟨i, by omega⟩).ids.length = c) :
    ∀ j, j < ss.length → ((ss.take j).map (fun s => s.ids.length)).sum = j * c := by
  intro j
  induction j with
  | zero => intro _; simp
  | succ j ih =>
    intro hj
    have hj0 : j < ss.length := by omega
    rw [sum_lengths_take_succ ss j hj0, ih hj0, h j hj, Nat.succ_mul]

end detail

/-- C16: a dispatch on `ids` with offset `g`, local fan-out `F < |ids|` and
chunk size `fanout > 0` spawns at least one chunk, the chunks in spawn order
concatenate to `ids[F..)`, and the first chunk receives the offset `g + F`.
The j-th chunk is non-empty and receives the offset `g + F +` (total size of
the chunks before it) `= g + F + j * fanout`, which is `g` plus the position
`p` in `ids` of that chunk's first element: the chunk's k-th element is
`ids[p + k]`. The offsets grow strictly along the chunk sequence. -/
theorem spawn_offsets_strictly_increasing {α ε R : Type} (local_fanout : Nat)
    (calculate_fanout : Nat → Nat → Nat) (act : Action α ε R) (fuel : Nat)
    (ids : List α) (g : Nat)
    (hcf : 0 < calculate_fanout ids.length local_fanout)
    (hgt : local_fanout < ids.length)
    (hfuel : ids.length - local_fanout < fuel) :
    ∃ issued, detail.broadcast_impl_issue local_fanout calculate_fanout
        (detail.broadcast_invoke_then detail.wrap_into_vector act) fuel ids g =
          some issued ∧
      issued.spawns ≠ [] ∧
      (issued.spawns.map detail.Spawn.ids).flatten = ids.drop local_fanout ∧
      issued.spawns.head?.map detail.Spawn.global_idx = some (g + local_fanout) ∧
      (∀ j (hj : j < issued.spawns.length),
        (issued.spawns.get ⟨j, hj⟩).ids ≠ [] ∧
          (issued.spawns.get ⟨j, hj⟩).global_idx =
            g + local_fanout + ((issued.spawns.take j).map (fun s => s.ids.length)).sum ∧
          (issued.spawns.get ⟨j, hj⟩).global_idx =
            g + local_fanout + j * calculate_fanout ids.length local_fanout ∧
          (issued.spawns.get ⟨j, hj⟩).ids <+:
            ids.drop (local_fanout +
              ((issued.spawns.take j).map (fun s => s.ids.length)).sum) ∧
          local_fanout + ((issued.spawns.take j).map (fun s => s.ids.length)).sum <
            ids.length ∧
          (∀ k, k < (issued.spawns.get ⟨j, hj⟩).ids.length →
            ids[local_fanout + ((issued.spawns.take j).map (fun s => s.ids.length)).sum + k]? =
              (issued.spawns.get ⟨j, hj⟩).ids[k]?)) ∧
      (∀ j (hj : j + 1 < issued.spawns.length),
        (issued.spawns.get ⟨j, by omega⟩).global_idx <
          (issued.spawns.get ⟨j + 1, hj⟩).global_idx) := by
  obtain ⟨ss, hss, hch⟩ := detail.broadcast_impl_issue_spec local_fanout calculate_fanout
    (detail.broadcast_invoke_then detail.wrap_into_vector act) fuel ids g hcf hfuel
  have hoff := detail.chunks_offsets hch
  have hshape := detail.chunks_shape hch hcf
  have hflat := detail.chunks_flatten hch
  have hne : ss ≠ [] := by
    intro h0
    rw [h0] at hflat
    have hlen := congrArg List.length hflat
    simp only [List.map_nil, List.flatten_nil, List.length_nil, List.length_drop] at hlen
    omega
  refine ⟨_, hss, hne, hflat, ?_, ?_, ?_⟩
  · cases hs : ss with
    | nil => exact absurd hs hne
    | cons s rest =>
      have h0 := (hoff 0 (by rw [hs]; exact Nat.succ_pos _)).1
      simp only [hs, List.get_eq_getElem, List.getElem_cons_zero, List.take_zero, List.map_nil,
        List.sum_nil, Nat.add_zero] at h0
      simp only [List.head?_cons, Option.map_some', h0]
  · intro j hj
    have hj' : j < ss.length := hj
    obtain ⟨h1, h2⟩ := hoff j hj'
    rw [List.drop_drop] at h2
    have hnej := (hshape.1 (ss.get ⟨j, hj'⟩) (List.get_mem _ _ _)).1
    have hsum := detail.sum_lengths_take_const ss _ hshape.2 j hj'
    obtain ⟨t, ht⟩ := h2
    have hpos : 0 < (ss.get ⟨j, hj'⟩).ids.length := List.length_pos.mpr hnej
    have hlt : local_fanout + ((ss.take j).map (fun s => s.ids.length)).sum < ids.length := by
      have hlen := congrArg List.length ht
      simp only [List.length_append, List.length_drop] at hlen
      omega
    refine ⟨hnej, h1, ?_, ⟨t, ht⟩, hlt, ?_⟩
    · show (ss.get ⟨j, hj'⟩).global_idx = _
      rw [h1, hsum]
    · intro k hk
      have hk' : k < (ss.get ⟨j, hj'⟩).ids.length := hk
      show _ = (ss.get ⟨j, hj'⟩).ids[k]?
      rw [← List.getElem?_drop, ← ht, List.getElem?_append_left hk']
  · intro j hj
    have hj0 : j < ss.length := by
      have : j + 1 < ss.length := hj
      omega
    have h1 := (hoff j hj0).1
    have h2 := (hoff (j + 1) hj).1
    have hne := (hshape.1 (ss.get ⟨j, hj0⟩) (List.get_mem _ _ _)).1
    have hpos : 0 < (ss.get ⟨j, hj0⟩).ids.length := List.length_pos.mpr hne
    rw [detail.sum_lengths_take_succ ss j hj0] at h2
    show (ss.get ⟨j, hj0⟩).global_idx < (ss.get ⟨j + 1, hj⟩).global_idx
    omega

/-- Witness of C16: seven targets at offset 10, local fan-out 2, chunk size
2: the chunks `[30, 40]`, `[50, 60]` and `[70]` receive the offsets 12, 14
and 16. -/
theorem spawn_offsets_strictly_increasing_witness :
    (0 < (fun _ _ => 2 : Nat → Nat → Nat) [10, 20, 30, 40, 50, 60, 70].length 2) ∧
    (2 < [10, 20, 30, 40, 50, 60, 70].length) ∧
    ∃ issued, detail.broadcast_impl_issue 2 (fun _ _ => 2)
        (detail.broadcast_invoke_then detail.wrap_into_vector
          (Action.plain (fun n : Nat => (.ok n : Except (Exception Unit) Nat))))
        6 [10, 20, 30, 40, 50, 60, 70] 10 = some issued ∧
      issued.spawns ≠ [] ∧
      (issued.spawns.map detail.Spawn.ids).flatten = [10, 20, 30, 40, 50, 60, 70].drop 2 ∧
      issued.spawns.head?.map detail.Spawn.global_idx = some (10 + 2) ∧
      (∀ j (hj : j < issued.spawns.length),
        (issued.spawns.get ⟨j, hj⟩).ids ≠ [] ∧
          (issued.spawns.get ⟨j, hj⟩).global_idx =
            10 + 2 + ((issued.spawns.take j).map (fun s => s.ids.length)).sum ∧
          (issued.spawns.get ⟨j, hj⟩).global_idx =
            10 + 2 + j * (fun _ _ => 2 : Nat → Nat → Nat) [10, 20, 30, 40, 50, 60, 70].length 2 ∧
          (issued.spawns.get ⟨j, hj⟩).ids <+:
            [10, 20, 30, 40, 50, 60, 70].drop (2 +
              ((issued.spawns.take j).map (fun s => s.ids.length)).sum) ∧
          2 + ((issued.spawns.take j).map (fun s => s.ids.length)).sum <
            [10, 20, 30, 40, 50, 60, 70].length ∧
          (∀ k, k < (issued.spawns.get ⟨j, hj⟩).ids.length →
            [10, 20, 30, 40, 50, 60, 70][2 +
                ((issued.spawns.take j).map (fun s => s.ids.length)).sum + k]? =
              (issued.spawns.get ⟨j, hj⟩).ids[k]?)) ∧
      (∀ j (hj : j + 1 < issued.spawns.length),
        (issued.spawns.get ⟨j, by omega⟩).global_idx <
          (issued.spawns.get ⟨j + 1, hj⟩).global_idx) :=
  ⟨by decide, by decide,
    spawn_offsets_strictly_increasing 2 (fun _ _ => 2) _ 6 [10, 20, 30, 40, 50, 60, 70] 10
      (by decide) (by decide) (by decide)⟩

/-- The spawns issued by one dispatch on seven targets at offset 10, local
fan-out 2, chunk size 2. -/
theorem spawns_run_seven :
    (detail.broadcast_impl_issue 2 (fun _ _ => 2)
        (detail.broadcast_invoke_then detail.wrap_into_vector
          (Action.plain (fun n : Nat => (.ok n : Except (Exception Unit) Nat))))
        6 [10, 20, 30, 40, 50, 60, 70] 10).map (fun issued => issued.spawns) =
      some [⟨30, [30, 40], 12⟩, ⟨50, [50, 60], 14⟩, ⟨70, [70], 16⟩] := by
  rfl

end hpx.lcos

namespace hpx.compute.detail

theorem div_round_up_eq (items n : Nat) (hn : 0 < n) :
    (items + n - 1) / n = items / n + (if items % n = 0 then 0 else 1) := by
  have hdm := Nat.div_add_mod items n
  have hr : items % n < n := Nat.mod_lt _ hn
  by_cases h0 : items % n = 0
  · simp only [h0, if_true, Nat.add_zero]
    have : items + n - 1 = (n - 1) + n * (items / n) := by omega
    rw [this, Nat.add_mul_div_left _ _ hn, Nat.div_eq_of_lt (by omega), Nat.zero_add]
  · simp only [h0, if_false]
    have : items + n - 1 = (items % n - 1) + n * (items / n + 1) := by
      rw [Nat.mul_add, Nat.mul_one]; omega
    rw [this, Nat.add_mul_div_left _ _ hn, Nat.div_eq_of_lt (by omega), Nat.zero_add]

theorem shares_total_eq (items k : Nat) :
    k * ((items + (k + 1) - 1) / (k + 1)) + (items - items / (k + 1) * k) =
      items + (if items % (k + 1) = 0 then 0 else k) := by
  rw [div_round_up_eq items (k + 1) (by omega)]
  have hdm := Nat.div_add_mod items (k + 1)
  have hle : items / (k + 1) * k ≤ items := by
    calc items / (k + 1) * k ≤ items / (k + 1) * (k + 1) := Nat.mul_le_mul_left _ (by omega)
      _ ≤ items := Nat.div_mul_le_self _ _
  generalize items / (k + 1) = q at *
  by_cases h0 : items % (k + 1) = 0
  · simp only [h0, if_true, Nat.add_zero] at *
    have : k * q = q * k := Nat.mul_comm _ _
    omega
  · simp only [h0, if_false] at *
    have h1 : k * (q + 1) = q * k + k := by rw [Nat.mul_add, Nat.mul_one, Nat.mul_comm]
    omega

theorem map_eq_replicate_of_const {α β : Type} (f : α → β) (c : β) :
    ∀ l : List α, (∀ x ∈ l, f x = c) → l.map f = List.replicate l.length c := by
  intro l
  induction l with
  | nil => intro _; rfl
  | cons a l ih =>
    intro h
    rw [List.map_cons, h a (List.mem_cons_self _ _),
      ih (fun x hx => h x (List.mem_cons_of_mem _ hx))]
    rfl

/-- The shares `get_num_items` computes when there are at least as many
items as targets and the last target occurs only once: every target but the
last gets the quotient rounded up, the last target gets
`items - (items / sites) * (sites - 1)`. -/
theorem items_per_target_shares {τ : Type} [DecidableEq τ] (get_remote_targets : List τ)
    (front : List τ) (last : τ) (num_partitions cursor items : Nat)
    (hlast : last ∉ front) (hitems : front.length + 1 ≤ items) :
    items_per_target get_remote_targets ⟨front ++ [last], num_partitions, cursor⟩ items =
      List.replicate front.length ((items + (front.length + 1) - 1) / (front.length + 1)) ++
        [items - items / (front.length + 1) * front.length] := by
  have hemp : (front ++ [last]).isEmpty = false := by
    cases front <;> rfl
  have hlen : (front ++ [last]).length = front.length + 1 := by
    simp only [List.length_append, List.length_cons, List.length_nil]
  have hmax : max 1 (front.length + 1) = front.length + 1 := by omega
  have hnot : ¬ items < front.length + 1 := by omega
  have hgl : (front ++ [last]).getLast? = some last := by
    rw [List.getLast?_append, List.getLast?_singleton]
    rfl
  have hshare : ∀ t, (get_num_items get_remote_targets
      ⟨front ++ [last], num_partitions, cursor⟩ items t).1 =
        if last = t then items - items / (front.length + 1) * front.length
        else (items + (front.length + 1) - 1) / (front.length + 1) := by
    intro t
    simp only [get_num_items, hemp, Bool.false_eq_true, if_false, hlen, hmax, hnot, hgl,
      Bool.not_false, Bool.true_and, Option.some.injEq, decide_eq_true_eq,
      round_to_multiple, Nat.add_sub_cancel]
    by_cases h : last = t <;> simp only [h, if_true, if_false]
  simp only [items_per_target, List.map_append, List.map_cons, List.map_nil]
  rw [map_eq_replicate_of_const _ ((items + (front.length + 1) - 1) / (front.length + 1))
    front (fun t ht => by
      rw [hshare t, if_neg (fun h : last = t => hlast (h ▸ ht))]),
    hshare last, if_pos rfl]

/-- The total `get_num_items` hands out when there are at least as many items
as targets and the last target occurs only once: `items` when the number of
targets divides `items`, and `sites - 1` items more otherwise. -/
theorem items_per_target_total {τ : Type} [DecidableEq τ] (get_remote_targets : List τ)
    (front : List τ) (last : τ) (num_partitions cursor items : Nat)
    (hlast : last ∉ front) (hitems : front.length + 1 ≤ items) :
    (items_per_target get_remote_targets ⟨front ++ [last], num_partitions, cursor⟩
        items).sum =
      items + (if items % (front.length + 1) = 0 then 0 else front.length) := by
  rw [items_per_target_shares get_remote_targets front last num_partitions cursor items hlast
    hitems, List.sum_append, List.sum_replicate, smul_eq_mul, List.sum_cons, List.sum_nil]
  exact shares_total_eq items front.length

/-- C17: `get_num_items` does not distribute the given number of items. On
the two distinct targets `[0, 1]` and 3 items each target gets 2 items, 4 in
total: the last target gets `items - (items / sites) * (sites - 1)` while the
others get the quotient rounded up. With fewer items than targets the test
`items < num_loc` gives 1 item to the second of two targets for 0 items, and
no item to any of three targets for 2 items. -/
theorem get_num_items_total_differs_from_items :
    items_per_target ([] : List Nat) (target_distribution_policy.make [0, 1] 1) 3 = [2, 2] ∧
      (items_per_target ([] : List Nat) (target_distribution_policy.make [0, 1] 1) 3).sum
        = 4 ∧
      (items_per_target ([] : List Nat) (target_distribution_policy.make [0, 1] 1) 0).sum
        = 1 ∧
      (items_per_target ([] : List Nat) (target_distribution_policy.make [0, 1, 2] 1) 2).sum
        = 0 := by
  decide

/-- C18: in `get_num_items` the last target can receive more items than the
other targets: on the three distinct targets `[0, 1, 2]` and 5 items the
first two targets get 2 items each and the last target gets 3; with 8 items
they get 3, 3 and 4. -/
theorem get_num_items_last_target_gets_more :
    items_per_target ([] : List Nat) (target_distribution_policy.make [0, 1, 2] 1) 5
        = [2, 2, 3] ∧
      items_per_target ([] : List Nat) (target_distribution_policy.make [0, 1, 2] 1) 8
        = [3, 3, 4] ∧
      (get_num_items ([] : List Nat) (target_distribution_policy.make [0, 1, 2] 1) 5 2).1 >
        (get_num_items ([] : List Nat) (target_distribution_policy.make [0, 1, 2] 1) 5 0).1 := by
  decide

theorem get_next_target_nonempty {τ : Type} (get_local_targets : List τ)
    (p : target_distribution_policy τ) (h : p.targets_ ≠ []) :
    ∃ t, p.targets_[p.next_target_ % p.targets_.length]? = some t ∧
      get_next_target get_local_targets p =
        some (t, ⟨p.targets_, p.num_partitions_, p.next_target_ + 1⟩) := by
  have hpos : 0 < p.targets_.length := List.length_pos.mpr h
  have hlt : p.next_target_ % p.targets_.length < p.targets_.length := Nat.mod_lt _ hpos
  have hemp : p.targets_.isEmpty = false := by
    cases hp : p.targets_ with
    | nil => exact absurd hp h
    | cons a l => rfl
  refine ⟨p.targets_.get ⟨_, hlt⟩, List.getElem?_eq_getElem hlt, ?_⟩
  simp only [get_next_target, hemp, Bool.false_eq_true, if_false, Nat.ne_of_gt hpos,
    List.getElem?_eq_getElem hlt, List.get_eq_getElem]

theorem get_next_target_calls_spec {τ : Type} (get_local_targets : List τ) :
    ∀ (k : Nat) (p : target_distribution_policy τ), p.targets_ ≠ [] →
      ∃ results, get_next_target_calls get_local_targets k p =
          some (results, ⟨p.targets_, p.num_partitions_, p.next_target_ + k⟩) ∧
        results.length = k ∧
        ∀ j, j < k →
          results[j]? = p.targets_[(p.next_target_ + j) % p.targets_.length]? := by
  intro k
  induction k with
  | zero =>
    intro p _
    exact ⟨[], rfl, rfl, fun j hj => by omega⟩
  | succ k ih =>
    intro p h
    obtain ⟨t, ht, hcall⟩ := get_next_target_nonempty get_local_targets p h
    obtain ⟨results, hres, hlen, hel⟩ :=
      ih ⟨p.targets_, p.num_partitions_, p.next_target_ + 1⟩ h
    refine ⟨t :: results, ?_, by simp only [List.length_cons, hlen], ?_⟩
    · simp only [get_next_target_calls, hcall, hres, Option.map_some']
      congr 3
      omega
    · intro j hj
      cases j with
      | zero => simp only [List.getElem?_cons_zero, Nat.add_zero, ht]
      | succ j =>
        have := hel j (by omega)
        simp only [List.getElem?_cons_succ, this]
        congr 2
        omega

/-- C19: `get_next_target` is a round-robin cursor over the target list. On
a policy constructed with a non-empty target list of size n, the k-th call
(k = 0, 1, 2, ...) returns `targets[k mod n]`; every call advances the
cursor by exactly one and leaves the target list and the partition count
unchanged. -/
theorem get_next_target_round_robin {τ : Type} (get_local_targets targets : List τ)
    (num_partitions k : Nat) (hne : targets ≠ []) :
    (∃ results,
      get_next_target_calls get_local_targets (k + 1)
          (target_distribution_policy.make targets num_partitions) =
        some (results, ⟨targets, num_partitions, k + 1⟩) ∧
      results.length = k + 1 ∧
      ∃ t, results[k]? = some t ∧ targets[k % targets.length]? = some t) ∧
    (∀ cursor : Nat, ∃ t, targets[cursor % targets.length]? = some t ∧
      get_next_target get_local_targets ⟨targets, num_partitions, cursor⟩ =
        some (t, ⟨targets, num_partitions, cursor + 1⟩)) := by
  refine ⟨?_, fun cursor =>
    get_next_target_nonempty get_local_targets ⟨targets, num_partitions, cursor⟩ hne⟩
  obtain ⟨results, hres, hlen, hel⟩ := get_next_target_calls_spec get_local_targets (k + 1)
    (target_distribution_policy.make targets num_partitions) hne
  have hk := hel k (by omega)
  simp only [target_distribution_policy.make, Nat.zero_add] at hres hk
  have hlt : k % targets.length < targets.length :=
    Nat.mod_lt _ (List.length_pos.mpr hne)
  refine ⟨results, hres, hlen, targets.get ⟨_, hlt⟩, ?_, List.getElem?_eq_getElem hlt⟩
  rw [hk]
  exact List.getElem?_eq_getElem hlt

/-- Witness of C19: the call number 7 on three targets returns
`targets[7 mod 3]`. -/
theorem get_next_target_round_robin_witness :
    (∃ results,
      get_next_target_calls ([] : List Nat) (7 + 1)
          (target_distribution_policy.make [10, 20, 30] 4) =
        some (results, ⟨[10, 20, 30], 4, 7 + 1⟩) ∧
      results.length = 7 + 1 ∧
      ∃ t, results[7]? = some t ∧ [10, 20, 30][7 % [10, 20, 30].length]? = some t) ∧
    (∀ cursor : Nat, ∃ t, [10, 20, 30][cursor % [10, 20, 30].length]? = some t ∧
      get_next_target ([] : List Nat) ⟨[10, 20, 30], 4, cursor⟩ =
        some (t, ⟨[10, 20, 30], 4, cursor + 1⟩)) :=
  get_next_target_round_robin [] [10, 20, 30] 4 7 (by decide)

/-- Eight calls of `get_next_target` on three targets. -/
theorem get_next_target_run_eight :
    get_next_target_calls ([] : List Nat) 8
        (target_distribution_policy.make [10, 20, 30] 4) =
      some ([10, 20, 30, 10, 20, 30, 10, 20], ⟨[10, 20, 30], 4, 8⟩) := by
  rfl

end hpx.compute.detail

namespace hpx.threads.policies.detail

/-- C20: `init` does not establish the preconditions asserted by
`get_pu_num`. On a machine with 4 PUs a PU step of 4 (or 0, or 8) is stored
as `pu_step % 4 = 0`, and a PU offset of 5 is stored as it is, being reduced
modulo the number of PUs only after the cached PU numbers are computed; the
assertions of `get_pu_num` fail in the first call made by
`init_cached_pu_nums`. -/
theorem init_breaks_get_pu_num_asserts :
    init affinity_data.ctor 1 0 4 4 = none ∧
      get_pu_num_asserts ⟨1, 0, 4 % 4, []⟩ 4 = false ∧
      init affinity_data.ctor 1 size_t_max 0 4 = none ∧
      init affinity_data.ctor 1 size_t_max 8 4 = none ∧
      init affinity_data.ctor 1 5 1 4 = none ∧
      get_pu_num_asserts ⟨1, 5, 1 % 4, []⟩ 4 = false ∧
      init affinity_data.ctor 2 1 3 4 = some ⟨2, 1, 3, [1, 1]⟩ := by
  decide

theorem cached_pu_nums_loop_of_asserts (d : affinity_data) (hardware_concurrency : Nat)
    (h : get_pu_num_asserts d hardware_concurrency = true) :
    ∀ todo i, ∃ pu_nums, cached_pu_nums_loop d hardware_concurrency todo i = some pu_nums ∧
      pu_nums.length = todo := by
  intro todo
  induction todo with
  | zero => intro i; exact ⟨[], rfl, rfl⟩
  | succ n ih =>
    intro i
    obtain ⟨rest, hrest, hlen⟩ := ih (i + 1)
    refine ⟨((d.pu_offset_ + d.pu_step_ * i +
        (d.pu_offset_ + d.pu_step_ * i) / hardware_concurrency % d.pu_step_) %
          hardware_concurrency) :: rest, ?_, by simp only [List.length_cons, hlen]⟩
    simp only [cached_pu_nums_loop, get_pu_num, h, if_true, hrest, Option.map_some']

/-- With a PU offset that is unspecified or smaller than the number of PUs
and a PU step that is not a multiple of the number of PUs, `init` does
establish the preconditions asserted by `get_pu_num` and caches one PU number
per thread. -/
theorem init_asserts_of_valid_options (d : affinity_data)
    (num_threads pu_offset pu_step num_system_pus : Nat)
    (hoffset : pu_offset = size_t_max ∨ pu_offset < num_system_pus)
    (hpus : 1 < num_system_pus) (hstep : pu_step % num_system_pus ≠ 0) :
    ∃ d', init d num_threads pu_offset pu_step num_system_pus = some d' ∧
      get_pu_num_asserts d' num_system_pus = true ∧
      d'.pu_nums_.length = num_threads := by
  have hmod : pu_step % num_system_pus < num_system_pus := Nat.mod_lt _ (by omega)
  have hoff : (if pu_offset = size_t_max then 0 else pu_offset) < num_system_pus := by
    by_cases h : pu_offset = size_t_max
    · simp only [h, if_true]; omega
    · simp only [h, if_false]
      rcases hoffset with h' | h'
      · exact absurd h' h
      · exact h'
  have hassert : get_pu_num_asserts
      ⟨num_threads, if pu_offset = size_t_max then 0 else pu_offset,
        pu_step % num_system_pus, []⟩ num_system_pus = true := by
    simp only [get_pu_num_asserts, Bool.and_eq_true, decide_eq_true_eq]
    exact ⟨hoff, by omega, by omega⟩
  obtain ⟨pu_nums, hloop, hlen⟩ := cached_pu_nums_loop_of_asserts _ _ hassert num_threads 0
  refine ⟨⟨num_threads, if pu_offset = size_t_max then 0 else pu_offset,
    pu_step % num_system_pus, pu_nums⟩, ?_, ?_, hlen⟩
  · simp only [init, hpus, if_true, init_cached_pu_nums, List.isEmpty_nil, hloop,
      Option.map_some']
  · simp only [get_pu_num_asserts, Bool.and_eq_true, decide_eq_true_eq]
    exact ⟨hoff, by omega, by omega⟩

end hpx.threads.policies.detail

namespace hpx.lcos

namespace detail

theorem chunk_loop_iterations_spec {α : Type} (ids : List α) (fanout : Nat)
    (hf : 0 < fanout) :
    ∀ fuel applied, applied ≤ ids.length → ids.length - applied < fuel →
      ∃ iters, chunk_loop_iterations ids fanout fuel applied = some (iters, ids.length) ∧
        (∀ p ∈ iters, applied ≤ p.1 ∧ p.1 < ids.length ∧ 0 < p.2 ∧ p.2 ≤ fanout ∧
          p.1 + p.2 ≤ ids.length ∧ ((ids.drop p.1).take p.2).length = p.2) ∧
        ∀ g, (chunk_loop ids fanout g fuel applied).map
            (List.map (fun s => (s.global_idx, s.ids))) =
          some (iters.map (fun p => (g + p.1, (ids.drop p.1).take p.2))) := by
  intro fuel
  induction fuel with
  | zero => intro applied _ h; omega
  | succ n ih =>
    intro applied hle hfuel
    by_cases heq : applied = ids.length
    · refine ⟨[], by simp [chunk_loop_iterations, heq], fun p hp => by simp at hp, ?_⟩
      intro g
      simp [chunk_loop, heq]
    · have hi : applied < ids.length := by omega
      have hnlt : ¬ ids.length < applied := by omega
      have hd : ids.drop applied = ids[applied] :: ids.drop (applied + 1) :=
        List.drop_eq_getElem_cons hi
      obtain ⟨k, hk⟩ : ∃ k, min fanout (ids.length - applied) = k + 1 :=
        ⟨min fanout (ids.length - applied) - 1, by omega⟩
      obtain ⟨iters, hit, hprops, hlink⟩ := ih (applied + (k + 1)) (by omega) (by omega)
      refine ⟨(applied, k + 1) :: iters, ?_, ?_, ?_⟩
      · simp only [chunk_loop_iterations, heq, hnlt, if_false, hk, hd, List.take_succ_cons,
          hit, Option.map_some']
      · intro p hp
        rcases List.mem_cons.mp hp with rfl | hp
        · refine ⟨Nat.le_refl _, hi, by omega, by omega, by omega, ?_⟩
          simp only [List.length_take, List.length_drop]
          omega
        · obtain ⟨h1, h2⟩ := hprops p hp
          exact ⟨by omega, h2⟩
      · intro g
        have := hlink g
        cases hc : chunk_loop ids fanout g n (applied + (k + 1)) with
        | none => rw [hc] at this; simp at this
        | some ss =>
          rw [hc] at this
          simp only [Option.map_some', Option.some.injEq] at this
          simp only [chunk_loop, heq, if_false, hk, hd, List.take_succ_cons, hc,
            Option.map_some', List.map_cons, this]

end detail

/-- C24: the dispatch recursion terminates on every target list when the
local fan-out and the chunk size are positive: with fuel above the length of
the list both overloads of `broadcast_impl` return. Every chunk handed to a
recursive spawn is non-empty and has at most `|ids| - F` elements, fewer than
the list being dispatched, and every iteration of the chunk loop (started at
`applied = F`, and not entered for a list of at most F elements) advances
`applied` by at least one element until it reaches `|ids|`. -/
theorem dispatch_recursion_terminates {α ε R : Type} (local_fanout : Nat)
    (calculate_fanout : Nat → Nat → Nat) (act : Action α ε R) (actv : Action α ε Unit)
    (fuel : Nat) (ids : List α) (g : Nat)
    (hF : 0 < local_fanout) (hcf : ∀ n, 0 < calculate_fanout n local_fanout)
    (hfuel : ids.length < fuel) :
    (∃ r, detail.broadcast_impl local_fanout calculate_fanout act fuel ids g = some r) ∧
    (∃ r, detail.broadcast_impl_void local_fanout calculate_fanout actv fuel ids g =
      some r) ∧
    (∃ issued, detail.broadcast_impl_issue local_fanout calculate_fanout
        (detail.broadcast_invoke_then detail.wrap_into_vector act) fuel ids g =
          some issued ∧
      ∀ s ∈ issued.spawns, s.ids ≠ [] ∧ s.ids.length ≤ ids.length - local_fanout ∧
        s.ids.length < ids.length) ∧
    (∃ iters, detail.chunk_loop_iterations ids
        (calculate_fanout ids.length local_fanout) fuel (min local_fanout ids.length) =
          some (iters, ids.length) ∧
      ∀ p ∈ iters, 1 ≤ p.2 ∧ p.1 < p.1 + p.2) := by
  obtain ⟨tr, htr, _⟩ := detail.broadcast_impl_spec local_fanout calculate_fanout act hF hcf
    fuel ids g hfuel
  obtain ⟨trv, htrv, _⟩ := detail.broadcast_impl_void_spec local_fanout calculate_fanout actv
    hF hcf fuel ids g hfuel
  obtain ⟨ss, hss, hch⟩ := detail.broadcast_impl_issue_spec local_fanout calculate_fanout
    (detail.broadcast_invoke_then detail.wrap_into_vector act) fuel ids g (hcf _) (by omega)
  obtain ⟨iters, hit, hprops, _⟩ := detail.chunk_loop_iterations_spec ids
    (calculate_fanout ids.length local_fanout) (hcf _) fuel (min local_fanout ids.length)
    (by omega) (by omega)
  refine ⟨⟨_, htr⟩, ⟨_, htrv⟩, ⟨_, hss, ?_⟩, ⟨iters, hit, ?_⟩⟩
  · intro s hs
    have hne := ((detail.chunks_shape hch (hcf _)).1 s hs).1
    have hlen := detail.chunks_length_le hch s hs
    have hpos : 0 < s.ids.length := List.length_pos.mpr hne
    simp only [List.length_drop] at hlen
    exact ⟨hne, hlen, by omega⟩
  · intro p hp
    obtain ⟨_, _, h3, _⟩ := hprops p hp
    exact ⟨h3, by omega⟩

/-- Witness of C24: seven targets, local fan-out 2, chunk size 2. -/
theorem dispatch_recursion_terminates_witness :
    (∃ r, detail.broadcast_impl 2 (fun _ _ => 2)
      (Action.plain (fun n : Nat => (.ok n : Except (Exception Unit) Nat))) 8
      [10, 20, 30, 40, 50, 60, 70] 0 = some r) ∧
    (∃ r, detail.broadcast_impl_void 2 (fun _ _ => 2)
      (Action.plain (fun _ : Nat => (.ok () : Except (Exception Unit) Unit))) 8
      [10, 20, 30, 40, 50, 60, 70] 0 = some r) ∧
    (∃ issued, detail.broadcast_impl_issue 2 (fun _ _ => 2)
        (detail.broadcast_invoke_then detail.wrap_into_vector
          (Action.plain (fun n : Nat => (.ok n : Except (Exception Unit) Nat)))) 8
        [10, 20, 30, 40, 50, 60, 70] 0 = some issued ∧
      ∀ s ∈ issued.spawns, s.ids ≠ [] ∧
        s.ids.length ≤ [10, 20, 30, 40, 50, 60, 70].length - 2 ∧
        s.ids.length < [10, 20, 30, 40, 50, 60, 70].length) ∧
    (∃ iters, detail.chunk_loop_iterations [10, 20, 30, 40, 50, 60, 70]
        ((fun _ _ => 2 : Nat → Nat → Nat) [10, 20, 30, 40, 50, 60, 70].length 2) 8
        (min 2 [10, 20, 30, 40, 50, 60, 70].length) =
          some (iters, [10, 20, 30, 40, 50, 60, 70].length) ∧
      ∀ p ∈ iters, 1 ≤ p.2 ∧ p.1 < p.1 + p.2) :=
  dispatch_recursion_terminates 2 (fun _ _ => 2) _ _ 8 [10, 20, 30, 40, 50, 60, 70] 0
    (by decide) (fun _ => Nat.succ_pos _) (by decide)

/-- C25: in the chunk loop of the dispatch routines, for a list longer than
F and a positive chunk size, `ids.size() >= applied` holds in every
iteration, every slice `[it, it + next_fan)` lies inside the list and is
non-empty, so that its first element can be read, and the loop exits exactly
when `applied == ids.size()`. The recorded iterations are those of the loop
that issues the spawns. -/
theorem chunk_loop_stays_in_bounds {α : Type} (ids : List α) (local_fanout fanout : Nat)
    (fuel g : Nat) (hgt : local_fanout < ids.length) (hf : 0 < fanout)
    (hfuel : ids.length - local_fanout < fuel) :
    ∃ iters, detail.chunk_loop_iterations ids fanout fuel local_fanout =
        some (iters, ids.length) ∧
      (∀ p ∈ iters, p.1 ≤ ids.length ∧ p.1 ≠ ids.length ∧ 0 < p.2 ∧
        p.1 + p.2 ≤ ids.length ∧ ((ids.drop p.1).take p.2).length = p.2 ∧
        ((ids.drop p.1).take p.2).head? = ids[p.1]? ∧ (ids[p.1]?).isSome = true) ∧
      (detail.chunk_loop ids fanout g fuel local_fanout).map
          (List.map (fun s => (s.global_idx, s.ids))) =
        some (iters.map (fun p => (g + p.1, (ids.drop p.1).take p.2))) := by
  obtain ⟨iters, hit, hprops, hlink⟩ := detail.chunk_loop_iterations_spec ids fanout hf fuel
    local_fanout (by omega) hfuel
  refine ⟨iters, hit, ?_, hlink g⟩
  intro p hp
  obtain ⟨_, h2, h3, _, h5, h6⟩ := hprops p hp
  refine ⟨by omega, by omega, h3, h5, h6, ?_, ?_⟩
  · rw [List.drop_eq_getElem_cons h2, List.getElem?_eq_getElem h2]
    obtain ⟨k, hk⟩ : ∃ k, p.2 = k + 1 := ⟨p.2 - 1, by omega⟩
    rw [hk, List.take_succ_cons, List.head?_cons]
  · rw [List.getElem?_eq_getElem h2]
    rfl

/-- Witness of C25: seven targets, local fan-out 2, chunk size 2. -/
theorem chunk_loop_stays_in_bounds_witness :
    (2 < [10, 20, 30, 40, 50, 60, 70].length) ∧
    ∃ iters, detail.chunk_loop_iterations [10, 20, 30, 40, 50, 60, 70] 2 6 2 =
        some (iters, [10, 20, 30, 40, 50, 60, 70].length) ∧
      (∀ p ∈ iters, p.1 ≤ [10, 20, 30, 40, 50, 60, 70].length ∧
        p.1 ≠ [10, 20, 30, 40, 50, 60, 70].length ∧ 0 < p.2 ∧
        p.1 + p.2 ≤ [10, 20, 30, 40, 50, 60, 70].length ∧
        (([10, 20, 30, 40, 50, 60, 70].drop p.1).take p.2).length = p.2 ∧
        (([10, 20, 30, 40, 50, 60, 70].drop p.1).take p.2).head? =
          [10, 20, 30, 40, 50, 60, 70][p.1]? ∧
        ([10, 20, 30, 40, 50, 60, 70][p.1]?).isSome = true) ∧
      (detail.chunk_loop [10, 20, 30, 40, 50, 60, 70] 2 0 6 2).map
          (List.map (fun s => (s.global_idx, s.ids))) =
        some (iters.map (fun p => (0 + p.1, ([10, 20, 30, 40, 50, 60, 70].drop p.1).take p.2))) :=
  ⟨by decide,
    chunk_loop_stays_in_bounds [10, 20, 30, 40, 50, 60, 70] 2 2 6 0 (by decide) (by decide)
      (by decide)⟩

/-- The iterations of the chunk loop on seven targets with local fan-out 2
and chunk size 2, and the exit value of `applied`; a start past the end of
the list fails the assertion. -/
theorem chunk_loop_iterations_run_seven :
    detail.chunk_loop_iterations [10, 20, 30, 40, 50, 60, 70] 2 6 2 =
        some ([(2, 2), (4, 2), (6, 1)], 7) ∧
      detail.chunk_loop_iterations [10, 20, 30, 40, 50, 60, 70] 2 6 9 = none := by
  exact ⟨rfl, rfl⟩

end hpx.lcos

namespace resiliency_example

theorem push_all_eq {α : Type} (locales : List α) :
    ∀ ids : List α, push_all ids locales = ids ++ locales := by
  induction locales with
  | nil => intro ids; simp [push_all]
  | cons a l ih =>
    intro ids
    have := ih (ids ++ [a])
    simp only [push_all, List.foldl_cons] at this ⊢
    rw [this, List.append_assoc]
    rfl

theorem size_t_sub_of_le (a b : Nat) (hba : b ≤ a) (ha : a < 2 ^ 64) :
    size_t_sub a b = a - b := by
  have hb : b % 2 ^ 64 = b := Nat.mod_eq_of_lt (by omega)
  have h2 : a + 2 ^ 64 - b = (a - b) + 2 ^ 64 := by omega
  rw [size_t_sub, hb, h2, Nat.add_mod_right, Nat.mod_eq_of_lt (by omega)]

theorem pad_loop_spec {α : Type} (locales : List α) (num_replications : Nat)
    (hR : num_replications < 2 ^ 64) (hLR : locales.length ≤ num_replications)
    (hfit : (num_replications - locales.length + 1) / 2 ≤ locales.length) :
    ∀ fuel i, 2 * i ≤ num_replications - locales.length + 1 →
      (num_replications - locales.length + 1) / 2 - i < fuel →
      pad_loop locales num_replications fuel i (locales ++ locales.take i) =
        some (.ok (locales ++
          locales.take ((num_replications - locales.length + 1) / 2))) := by
  intro fuel
  induction fuel with
  | zero => intro i _ h; omega
  | succ n ih =>
    intro i hi hfuel
    have hlen : (locales ++ locales.take i).length = locales.length + i := by
      rw [List.length_append, List.length_take]
      omega
    have hsub : size_t_sub num_replications (locales ++ locales.take i).length =
        num_replications - (locales.length + i) := by
      rw [hlen]
      exact size_t_sub_of_le _ _ (by omega) hR
    by_cases hc : i < num_replications - (locales.length + i)
    · have hiL : i < locales.length := by omega
      have hnext := ih (i + 1) (by omega) (by omega)
      rw [List.take_succ, List.getElem?_eq_getElem hiL] at hnext
      simp only [Option.toList, ← List.append_assoc] at hnext
      simp only [pad_loop, hsub, hc, if_true, List.getElem?_eq_getElem hiL]
      exact hnext
    · have hend : (num_replications - locales.length + 1) / 2 = i := by omega
      simp only [pad_loop, hsub, hc, if_false, hend]

/-- The replica targets the example builds: all localities when
`num_replications` is smaller than their number, and otherwise all
localities followed by the first `(num_replications - |locales| + 1) / 2` of
them, when there are that many. -/
theorem replica_ids_spec {α : Type} (locales : List α) (num_replications fuel : Nat)
    (hR : num_replications < 2 ^ 64) (hfuel : num_replications < fuel) :
    (num_replications < locales.length →
      replica_ids locales num_replications fuel = some (.ok locales)) ∧
    (locales.length ≤ num_replications →
      (num_replications - locales.length + 1) / 2 ≤ locales.length →
      replica_ids locales num_replications fuel =
        some (.ok (locales ++
          locales.take ((num_replications - locales.length + 1) / 2)))) := by
  refine ⟨?_, ?_⟩
  · intro h
    simp only [replica_ids, h, if_true, push_all_eq, List.nil_append]
  · intro hLR hfit
    have hnot : ¬ num_replications < locales.length := by omega
    have := pad_loop_spec locales num_replications hR hLR hfit fuel 0 (by omega) (by omega)
    simp only [List.take_zero, List.append_nil] at this
    simp only [replica_ids, hnot, if_false, push_all_eq, List.nil_append, this]

/-- C22: the list of replica targets the replicate example builds does not
have `num_replications` entries. With 3 replications (the default) and five
localities it has 5 entries; with 3 replications and one locality it has 2
entries, the bound `num_replications - ids.size()` of the padding loop
shrinking while `i` grows; with 4 replications and one locality
`locales.at(1)` throws. -/
theorem replica_ids_not_num_replications :
    replica_ids [0, 1, 2, 3, 4] 3 4 = some (.ok [0, 1, 2, 3, 4]) ∧
      replica_ids [0] 3 4 = some (.ok [0, 0]) ∧
      replica_ids [0, 1] 6 7 = some (.ok [0, 1, 0, 1]) ∧
      replica_ids [0] 4 5 = some (.error (.at_ 1 1)) ∧
      replica_ids [0, 1, 2] 3 4 = some (.ok [0, 1, 2]) ∧
      replica_ids [0, 1, 2] 4 5 = some (.ok [0, 1, 2, 0]) := by
  exact ⟨rfl, rfl, rfl, rfl, rfl, rfl⟩

/-- C23, as stated, fails: `vote` returns the first outcome, so the
permutation `[2, 1]` of the non-empty list `[1, 2]` changes the value from 1
to 2. -/
theorem vote_changes_under_permutation :
    ([1, 2] : List Int) ≠ [] ∧ List.Perm ([1, 2] : List Int) [2, 1] ∧
      vote [1, 2] = .ok 1 ∧ vote [2, 1] = .ok 2 ∧ vote [1, 2] ≠ vote [2, 1] := by
  refine ⟨by decide, List.Perm.swap 2 1 [], rfl, rfl, ?_⟩
  intro h
  simp [vote] at h

/-- C23, amended: `vote` is a function of the list of outcomes that returns
the first outcome of the list, one of the outcomes in it. For every non-empty
list of outcomes and every permutation of it, the value `vote` returns is
unchanged exactly when the permuted list begins with the same outcome as the
list; so it is unchanged by every permutation that keeps the first outcome in
place, and changed by every permutation that moves a different outcome to the
front. -/
theorem vote_unchanged_iff_first_outcome_kept (l l' : List Int) (hne : l ≠ [])
    (hperm : l.Perm l') :
    (∃ v, l.head? = some v ∧ v ∈ l ∧ v ∈ l' ∧ vote l = .ok v) ∧
      (∃ v', l'.head? = some v' ∧ v' ∈ l ∧ vote l' = .ok v') ∧
      (vote l' = vote l ↔ l'.head? = l.head?) := by
  cases l with
  | nil => exact absurd rfl hne
  | cons a rest =>
    cases l' with
    | nil => exact absurd hperm.eq_nil hne
    | cons b rest' =>
      have hb : b ∈ a :: rest := hperm.mem_iff.mpr (List.mem_cons_self _ _)
      have ha : a ∈ b :: rest' := hperm.mem_iff.mp (List.mem_cons_self _ _)
      refine ⟨⟨a, rfl, List.mem_cons_self _ _, ha, rfl⟩, ⟨b, rfl, hb, rfl⟩, ?_⟩
      simp only [vote, List.head?_cons, Except.ok.injEq, Option.some.injEq]

/-- Witness of C23, amended: the permutation `[1, 3, 2]` of `[1, 2, 3]` keeps
the first outcome, and `vote` returns 1 on both. -/
theorem vote_unchanged_iff_first_outcome_kept_witness :
    ([1, 2, 3] : List Int) ≠ [] ∧ List.Perm ([1, 2, 3] : List Int) [1, 3, 2] ∧
      ((∃ v, ([1, 2, 3] : List Int).head? = some v ∧ v ∈ ([1, 2, 3] : List Int) ∧
          v ∈ ([1, 3, 2] : List Int) ∧ vote [1, 2, 3] = .ok v) ∧
        (∃ v', ([1, 3, 2] : List Int).head? = some v' ∧ v' ∈ ([1, 2, 3] : List Int) ∧
          vote [1, 3, 2] = .ok v') ∧
        (vote [1, 3, 2] = vote [1, 2, 3] ↔
          ([1, 3, 2] : List Int).head? = ([1, 2, 3] : List Int).head?)) :=
  ⟨by decide, List.Perm.cons 1 (List.Perm.swap 3 2 []),
    vote_unchanged_iff_first_outcome_kept [1, 2, 3] [1, 3, 2] (by decide)
      (List.Perm.cons 1 (List.Perm.swap 3 2 []))⟩

end resiliency_example

namespace hpx.threads.policies.detail

theorem pu_formula_injective (o s h t1 t2 : Nat) (hs : 0 < s) (hdvd : s ∣ h) (ho : o < h)
    (ht1 : t1 < h) (ht2 : t2 < h)
    (heq : (o + s * t1 + (o + s * t1) / h % s) % h = (o + s * t2 + (o + s * t2) / h % s) % h) :
    t1 = t2 := by
  have hh : 0 < h := by omega
  -- quotient and remainder of the two baseline numbers
  have hdm1 := Nat.div_add_mod (o + s * t1) h
  have hdm2 := Nat.div_add_mod (o + s * t2) h
  have hr1 : (o + s * t1) % h < h := Nat.mod_lt _ hh
  have hr2 : (o + s * t2) % h < h := Nat.mod_lt _ hh
  have he1 : (o + s * t1) / h % s < s := Nat.mod_lt _ hs
  have he2 : (o + s * t2) / h % s < s := Nat.mod_lt _ hs
  -- the remainders are congruent to the offset modulo the step
  have hrs : ∀ t, (o + s * t) % h % s = o % s := by
    intro t
    rw [Nat.mod_mod_of_dvd _ hdvd, Nat.add_mul_mod_self_left]
  -- the sums have the same remainder modulo h
  have hsum : ∀ t, (o + s * t + (o + s * t) / h % s) % h =
      ((o + s * t) % h + (o + s * t) / h % s) % h := by
    intro t
    exact (Nat.ModEq.add_right _ (Nat.mod_modEq (o + s * t) h)).symm
  rw [hsum t1, hsum t2] at heq
  -- modulo the step: the roll-over offsets agree
  have hmods : ((o + s * t1) % h + (o + s * t1) / h % s) % s =
      ((o + s * t2) % h + (o + s * t2) / h % s) % s := by
    rw [← Nat.mod_mod_of_dvd _ hdvd, heq, Nat.mod_mod_of_dvd _ hdvd]
  have he : (o + s * t1) / h % s = (o + s * t2) / h % s := by
    have h1 : ((o + s * t1) % h + (o + s * t1) / h % s) ≡
        ((o + s * t2) % h + (o + s * t2) / h % s) [MOD s] := hmods
    have h2 : (o + s * t1) % h ≡ (o + s * t2) % h [MOD s] := by
      show (o + s * t1) % h % s = (o + s * t2) % h % s
      rw [hrs, hrs]
    have h3 := Nat.ModEq.add_left_cancel h2 h1
    have h4 : (o + s * t1) / h % s % s = (o + s * t2) / h % s % s := h3
    rwa [Nat.mod_mod, Nat.mod_mod] at h4
  -- modulo h: the remainders agree
  have hr : (o + s * t1) % h = (o + s * t2) % h := by
    rw [he] at heq
    have h1 : (o + s * t1) % h + (o + s * t2) / h % s ≡
        (o + s * t2) % h + (o + s * t2) / h % s [MOD h] := heq
    have h2 := Nat.ModEq.add_right_cancel' _ h1
    have h3 : (o + s * t1) % h % h = (o + s * t2) % h % h := h2
    rwa [Nat.mod_mod, Nat.mod_mod] at h3
  -- the quotients are at most the step
  have hq : ∀ t, t < h → (o + s * t) / h ≤ s := by
    intro t ht
    have h1 : s * t ≤ s * h := Nat.mul_le_mul_left _ (by omega)
    have h2 : (s + 1) * h = s * h + h := by rw [Nat.add_mul, Nat.one_mul]
    have h3 : o + s * t < (s + 1) * h := by omega
    exact Nat.lt_succ_iff.mp ((Nat.div_lt_iff_lt_mul hh).mpr h3)
  have hq1 := hq t1 ht1
  have hq2 := hq t2 ht2
  generalize hQ1 : (o + s * t1) / h = q1 at *
  generalize hQ2 : (o + s * t2) / h = q2 at *
  generalize hR1 : (o + s * t1) % h = r1 at *
  generalize hR2 : (o + s * t2) % h = r2 at *
  subst hr
  have hcases : q1 = q2 ∨ (q1 = 0 ∧ q2 = s) ∨ (q1 = s ∧ q2 = 0) := by
    rcases Nat.lt_or_ge q1 s with h1 | h1
    · rcases Nat.lt_or_ge q2 s with h2 | h2
      · rw [Nat.mod_eq_of_lt h1, Nat.mod_eq_of_lt h2] at he
        exact Or.inl he
      · have : q2 = s := by omega
        subst this
        rw [Nat.mod_eq_of_lt h1, Nat.mod_self] at he
        exact Or.inr (Or.inl ⟨he, rfl⟩)
    · have h1' : q1 = s := by omega
      subst h1'
      rcases Nat.lt_or_ge q2 q1 with h2 | h2
      · rw [Nat.mod_self, Nat.mod_eq_of_lt h2] at he
        exact Or.inr (Or.inr ⟨rfl, he.symm⟩)
      · exact Or.inl (by omega)
  have hcomm : s * h = h * s := Nat.mul_comm _ _
  rcases hcases with hc | ⟨hc1, hc2⟩ | ⟨hc1, hc2⟩
  · rw [hc] at hdm1
    have : s * t1 = s * t2 := by omega
    exact Nat.eq_of_mul_eq_mul_left hs this
  · rw [hc1, Nat.mul_zero] at hdm1
    rw [hc2] at hdm2
    have h5 : s * t2 = s * (h + t1) := by
      rw [Nat.mul_add]
      omega
    have := Nat.eq_of_mul_eq_mul_left hs h5
    omega
  · rw [hc1] at hdm1
    rw [hc2, Nat.mul_zero] at hdm2
    have h5 : s * t1 = s * (h + t2) := by
      rw [Nat.mul_add]
      omega
    have := Nat.eq_of_mul_eq_mul_left hs h5
    omega

theorem get_pu_num_eq (d : affinity_data) (t h : Nat) (hoff : d.pu_offset_ < h)
    (hs1 : 0 < d.pu_step_) (hs2 : d.pu_step_ ≤ h) :
    get_pu_num d t h =
      some ((d.pu_offset_ + d.pu_step_ * t +
        (d.pu_offset_ + d.pu_step_ * t) / h % d.pu_step_) % h) := by
  have hassert : get_pu_num_asserts d h = true := by
    simp only [get_pu_num_asserts, Bool.and_eq_true, decide_eq_true_eq]
    exact ⟨hoff, hs1, hs2⟩
  simp only [get_pu_num, hassert, if_true]

/-- C26: for every `hardware_concurrency` h >= 1, every PU step s with
1 <= s <= h that divides h and every PU offset below h, `get_pu_num(., h)`
maps the thread numbers 0 .. h-1 to pairwise distinct PU numbers below h, a
permutation of 0 .. h-1: no two of up to h threads get the same processing
unit. -/
theorem get_pu_num_permutes_pus (d : affinity_data) (h : Nat) (hh : 1 ≤ h)
    (hs1 : 1 ≤ d.pu_step_) (hs2 : d.pu_step_ ≤ h) (hdvd : d.pu_step_ ∣ h)
    (hoff : d.pu_offset_ < h) :
    (∀ t, t < h → ∃ pu, get_pu_num d t h = some pu ∧ pu < h) ∧
      (∀ t1 t2, t1 < h → t2 < h → get_pu_num d t1 h = get_pu_num d t2 h → t1 = t2) ∧
      ((List.range h).filterMap (fun t => get_pu_num d t h)).Perm (List.range h) := by
  have hinj : ∀ t1 t2, t1 < h → t2 < h →
      get_pu_num d t1 h = get_pu_num d t2 h → t1 = t2 := by
    intro t1 t2 ht1 ht2 heq
    rw [get_pu_num_eq d t1 h hoff hs1 hs2, get_pu_num_eq d t2 h hoff hs1 hs2,
      Option.some.injEq] at heq
    exact pu_formula_injective _ _ h t1 t2 hs1 hdvd hoff ht1 ht2 heq
  refine ⟨?_, hinj, ?_⟩
  · intro t _
    exact ⟨_, get_pu_num_eq d t h hoff hs1 hs2, Nat.mod_lt _ (by omega)⟩
  · have hmap : (List.range h).filterMap (fun t => get_pu_num d t h) =
        (List.range h).map (fun t => (d.pu_offset_ + d.pu_step_ * t +
          (d.pu_offset_ + d.pu_step_ * t) / h % d.pu_step_) % h) := by
      rw [← List.filterMap_eq_map]
      apply List.filterMap_congr
      intro t _
      exact get_pu_num_eq d t h hoff hs1 hs2
    rw [hmap]
    apply List.Subperm.perm_of_length_le
    · apply List.subperm_of_subset
      · apply List.Nodup.map_on _ (List.nodup_range h)
        intro t1 ht1 t2 ht2 heq
        apply hinj t1 t2 (List.mem_range.mp ht1) (List.mem_range.mp ht2)
        rw [get_pu_num_eq d t1 h hoff hs1 hs2, get_pu_num_eq d t2 h hoff hs1 hs2, heq]
      · intro p hp
        obtain ⟨t, _, rfl⟩ := List.mem_map.mp hp
        exact List.mem_range.mpr (Nat.mod_lt _ (by omega))
    · simp only [List.length_map, List.length_range, Nat.le_refl]

/-- Witness of C26: 8 PUs, PU step 4, PU offset 3. -/
theorem get_pu_num_permutes_pus_witness :
    (∀ t, t < 8 → ∃ pu, get_pu_num ⟨8, 3, 4, []⟩ t 8 = some pu ∧ pu < 8) ∧
      (∀ t1 t2, t1 < 8 → t2 < 8 →
        get_pu_num ⟨8, 3, 4, []⟩ t1 8 = get_pu_num ⟨8, 3, 4, []⟩ t2 8 → t1 = t2) ∧
      ((List.range 8).filterMap (fun t => get_pu_num ⟨8, 3, 4, []⟩ t 8)).Perm (List.range 8) :=
  get_pu_num_permutes_pus ⟨8, 3, 4, []⟩ 8 (by decide) (by decide) (by decide) (by decide)
    (by decide)

/-- The PU numbers of the threads 0 .. 7 on 8 PUs for PU step 4 and PU offset
3; for PU step 3, which does not divide 8, two threads share PU 0. -/
theorem get_pu_num_run_eight :
    (List.range 8).filterMap (fun t => get_pu_num ⟨8, 3, 4, []⟩ t 8) =
        [3, 7, 4, 0, 5, 1, 6, 2] ∧
      (List.range 8).filterMap (fun t => get_pu_num ⟨8, 3, 3, []⟩ t 8) =
        [3, 6, 2, 5, 0, 4, 7, 0] := by
  decide

end hpx.threads.policies.detail

namespace transpose_serial

theorem index_lt (n i j : Nat) (hi : i < n) (hj : j < n) : i + n * j < n * n := by
  have h1 : n * j + n ≤ n * n := by
    have : n * (j + 1) ≤ n * n := Nat.mul_le_mul_left _ hj
    rwa [Nat.mul_add, Nat.mul_one] at this
  omega

theorem index_inj (n i j i' j' : Nat) (hi : i < n) (hi' : i' < n)
    (h : i + n * j = i' + n * j') : i = i' ∧ j = j' := by
  have hn : 0 < n := by omega
  have hm := congrArg (fun k => k % n) h
  have hd := congrArg (fun k => k / n) h
  simp only [Nat.add_mul_mod_self_left, Nat.mod_eq_of_lt hi, Nat.mod_eq_of_lt hi',
    Nat.add_mul_div_left _ _ hn, Nat.div_eq_of_lt hi, Nat.div_eq_of_lt hi',
    Nat.zero_add] at hm hd
  exact ⟨hm, hd⟩

theorem transposed_on_mono {α : Type} (order : Nat) (A B : List α)
    (D D' : Nat → Nat → Prop) (h : transposed_on order A B D)
    (hsub : ∀ i j, i < order → j < order → D' i j → D i j) :
    transposed_on order A B D' :=
  ⟨h.1, fun i j hd hi hj => h.2 i j (hsub i j hi hj hd) hi hj⟩

theorem assign_cell {α : Type} (order : Nat) (A B : List α) (D : Nat → Nat → Prop)
    (hA : A.length = order * order) (h : transposed_on order A B D) (it jt : Nat)
    (hit : it < order) (hjt : jt < order) :
    ∃ B', assign A B (it + order * jt) (jt + order * it) = some B' ∧
      transposed_on order A B' (fun a b => D a b ∨ (a = it ∧ b = jt)) := by
  have hsrc : jt + order * it < A.length := by rw [hA]; exact index_lt order jt it hjt hit
  have hdst : it + order * jt < B.length := by rw [h.1]; exact index_lt order it jt hit hjt
  refine ⟨B.set (it + order * jt) A[jt + order * it], ?_, ?_, ?_⟩
  · simp only [assign, List.getElem?_eq_getElem hsrc, hdst, if_true]
  · rw [List.length_set]; exact h.1
  · intro a b hd ha hb
    by_cases hidx : it + order * jt = a + order * b
    · obtain ⟨h1, h2⟩ := index_inj order it jt a b hit ha hidx
      subst h1 h2
      rw [List.getElem?_set_self hdst, List.getElem?_eq_getElem hsrc]
    · rw [List.getElem?_set_ne hidx]
      rcases hd with hd | ⟨h1, h2⟩
      · exact h.2 a b hd ha hb
      · exact absurd (by rw [h1, h2]) hidx

theorem for_count_inv {σ : Type} (body : Nat → σ → Option σ) (I : Nat → σ → Prop) :
    ∀ todo k s, I k s →
      (∀ k' s', k ≤ k' → k' < k + todo → I k' s' →
        ∃ s'', body k' s' = some s'' ∧ I (k' + 1) s'') →
      ∃ s', for_count body todo k s = some s' ∧ I (k + todo) s' := by
  intro todo
  induction todo with
  | zero => intro k s h _; exact ⟨s, rfl, h⟩
  | succ n ih =>
    intro k s h hbody
    obtain ⟨s1, hs1, hI1⟩ := hbody k s (Nat.le_refl _) (by omega) h
    obtain ⟨s2, hs2, hI2⟩ := ih (k + 1) s1 hI1
      (fun k' s' hk hk' hI => hbody k' s' (by omega) (by omega) hI)
    refine ⟨s2, ?_, ?_⟩
    · simp only [for_count, hs1, hs2]
    · have : k + 1 + n = k + (n + 1) := by omega
      rw [← this]; exact hI2

theorem for_range_inv {σ : Type} (body : Nat → σ → Option σ) (I : Nat → σ → Prop)
    (lo hi : Nat) (hle : lo ≤ hi) (s : σ) (h : I lo s)
    (hbody : ∀ k' s', lo ≤ k' → k' < hi → I k' s' →
      ∃ s'', body k' s' = some s'' ∧ I (k' + 1) s'') :
    ∃ s', for_range lo hi body s = some s' ∧ I hi s' := by
  obtain ⟨s', hs', hI⟩ := for_count_inv body I (hi - lo) lo s h
    (fun k' s' hk hk' hI => hbody k' s' hk (by omega) hI)
  have : lo + (hi - lo) = hi := by omega
  rw [this] at hI
  exact ⟨s', hs', hI⟩

theorem for_step_inv {σ : Type} (body : Nat → σ → Option σ) (I : Nat → σ → Prop)
    (hi step : Nat) (hstep : 0 < step) :
    ∀ fuel k s, hi - k < fuel → I k s →
      (∀ k' s', k' < hi → I k' s' → ∃ s'', body k' s' = some s'' ∧ I (k' + step) s'') →
      ∃ s' kf, for_step body hi step fuel k s = some s' ∧ I kf s' ∧ hi ≤ kf := by
  intro fuel
  induction fuel with
  | zero => intro k s h; omega
  | succ n ih =>
    intro k s hfuel h hbody
    by_cases hk : k < hi
    · obtain ⟨s1, hs1, hI1⟩ := hbody k s hk h
      obtain ⟨s2, kf, hs2, hI2, hkf⟩ := ih (k + step) s1 (by omega) hI1 hbody
      exact ⟨s2, kf, by simp only [for_step, hk, if_true, hs1, hs2], hI2, hkf⟩
    · exact ⟨s, k, by simp only [for_step, hk, if_false], h, by omega⟩

/-- The two innermost loops: the cells of the rows `[i, i_max)` and the
columns `[j, j_max)` are transposed. -/
theorem tile_transposed {α : Type} (order : Nat) (A B : List α) (D : Nat → Nat → Prop)
    (hA : A.length = order * order) (h : transposed_on order A B D)
    (i i_max j j_max : Nat) (hi : i ≤ i_max) (himax : i_max ≤ order)
    (hj : j ≤ j_max) (hjmax : j_max ≤ order) :
    ∃ B', for_range i i_max (fun it B =>
        for_range j j_max
          (fun jt B => assign A B (it + order * jt) (jt + order * it)) B) B = some B' ∧
      transposed_on order A B'
        (fun a b => D a b ∨ (i ≤ a ∧ a < i_max ∧ j ≤ b ∧ b < j_max)) := by
  apply for_range_inv _
    (fun it B => transposed_on order A B
      (fun a b => D a b ∨ (i ≤ a ∧ a < it ∧ j ≤ b ∧ b < j_max))) i i_max hi B
  · exact transposed_on_mono order A B _ _ h
      (fun a b _ _ hd => hd.elim id (fun hr => by omega))
  · intro it B1 hit1 hit2 hinv
    obtain ⟨B2, hB2, hinv2⟩ := for_range_inv
      (fun jt B => assign A B (it + order * jt) (jt + order * it))
      (fun jt B => transposed_on order A B
        (fun a b => (D a b ∨ (i ≤ a ∧ a < it ∧ j ≤ b ∧ b < j_max)) ∨
          (a = it ∧ j ≤ b ∧ b < jt))) j j_max hj B1
      (transposed_on_mono order A B1 _ _ hinv
        (fun a b _ _ hd => hd.elim id (fun hr => by omega)))
      (fun jt B3 hjt1 hjt2 hinv3 => by
        obtain ⟨B4, hB4, hinv4⟩ := assign_cell order A B3 _ hA hinv3 it jt (by omega)
          (by omega)
        refine ⟨B4, hB4, transposed_on_mono order A B4 _ _ hinv4 ?_⟩
        intro a b _ _ hd
        rcases hd with hd | ⟨h1, h2, h3⟩
        · exact Or.inl (Or.inl hd)
        · by_cases hb : b = jt
          · exact Or.inr ⟨h1, hb⟩
          · exact Or.inl (Or.inr ⟨h1, h2, by omega⟩))
    refine ⟨B2, hB2, transposed_on_mono order A B2 _ _ hinv2 ?_⟩
    intro a b _ _ hd
    rcases hd with hd | ⟨h1, h2, h3, h4⟩
    · exact Or.inl (Or.inl hd)
    · by_cases ha : a = it
      · exact Or.inr ⟨ha, h3, h4⟩
      · exact Or.inl (Or.inr ⟨h1, by omega, h3, h4⟩)

theorem transpose_untiled_spec {α : Type} (order : Nat) (A B : List α)
    (hA : A.length = order * order) (hB : B.length = order * order) :
    ∃ B', transpose_untiled order A B = some B' ∧
      transposed_on order A B' (fun _ _ => True) := by
  obtain ⟨B', hB', hinv⟩ := tile_transposed order A B (fun _ _ => False) hA
    ⟨hB, fun _ _ hd => hd.elim⟩ 0 order 0 order (Nat.zero_le _) (Nat.le_refl _)
    (Nat.zero_le _) (Nat.le_refl _)
  exact ⟨B', hB', transposed_on_mono order A B' _ _ hinv
    (fun a b ha hb _ => Or.inr ⟨Nat.zero_le _, ha, Nat.zero_le _, hb⟩)⟩

theorem transpose_tiled_spec {α : Type} (order tile_size : Nat) (A B : List α)
    (fuel : Nat) (hA : A.length = order * order) (hB : B.length = order * order)
    (ht : 0 < tile_size) (hfuel : order < fuel) :
    ∃ B', transpose_tiled order tile_size A fuel B = some B' ∧
      transposed_on order A B' (fun _ _ => True) := by
  obtain ⟨B', kf, hB', hinv, hkf⟩ := for_step_inv
    (fun i B =>
      for_step (fun j B =>
        let i_max := min order (i + tile_size)
        for_range i i_max (fun it B =>
          let j_max := min order (j + tile_size)
          for_range j j_max
            (fun jt B => assign A B (it + order * jt) (jt + order * it)) B) B)
        order tile_size fuel 0 B)
    (fun i B => transposed_on order A B (fun a _ => a < i)) order tile_size ht fuel 0 B
    (by omega) ⟨hB, fun a b hd => by omega⟩
    (fun i B1 hi hinv1 => by
      obtain ⟨B2, kf, hB2, hinv2, hkf⟩ := for_step_inv
        (fun j B =>
          let i_max := min order (i + tile_size)
          for_range i i_max (fun it B =>
            let j_max := min order (j + tile_size)
            for_range j j_max
              (fun jt B => assign A B (it + order * jt) (jt + order * it)) B) B)
        (fun j B => transposed_on order A B
          (fun a b => a < i ∨ (i ≤ a ∧ a < i + tile_size ∧ b < j)))
        order tile_size ht fuel 0 B1 (by omega)
        (transposed_on_mono order A B1 _ _ hinv1
          (fun a b _ _ hd => hd.elim id (fun hr => by omega)))
        (fun j B3 hj hinv3 => by
          obtain ⟨B4, hB4, hinv4⟩ := tile_transposed order A B3 _ hA hinv3 i
            (min order (i + tile_size)) j (min order (j + tile_size)) (by omega) (by omega)
            (by omega) (by omega)
          refine ⟨B4, hB4, transposed_on_mono order A B4 _ _ hinv4 ?_⟩
          intro a b ha hb hd
          rcases hd with hd | ⟨h1, h2, h3⟩
          · exact Or.inl (Or.inl hd)
          · by_cases hbj : b < j
            · exact Or.inl (Or.inr ⟨h1, h2, hbj⟩)
            · exact Or.inr ⟨h1, by omega, by omega, by omega⟩)
      refine ⟨B2, hB2, transposed_on_mono order A B2 _ _ hinv2 ?_⟩
      intro a b ha hb hd
      by_cases hai : a < i
      · exact Or.inl hai
      · exact Or.inr ⟨by omega, by omega, by omega⟩)
  exact ⟨B', hB', transposed_on_mono order A B' _ _ hinv (fun a b ha _ _ => by omega)⟩

theorem transposed_unique {α : Type} (order : Nat) (A B₁ B₂ : List α)
    (h₁ : transposed_on order A B₁ (fun _ _ => True))
    (h₂ : transposed_on order A B₂ (fun _ _ => True)) : B₁ = B₂ := by
  apply List.ext_getElem?
  intro k
  by_cases hk : k < order * order
  · have hn : 0 < order := by
      rcases Nat.eq_zero_or_pos order with h0 | h0
      · rw [h0] at hk; simp at hk
      · exact h0
    have hmod : k % order < order := Nat.mod_lt _ hn
    have hdiv : k / order < order := (Nat.div_lt_iff_lt_mul hn).mpr hk
    have hkk : k = k % order + order * (k / order) := by
      have := Nat.div_add_mod k order
      omega
    rw [hkk, h₁.2 _ _ trivial hmod hdiv, h₂.2 _ _ trivial hmod hdiv]
  · rw [List.getElem?_eq_none (by rw [h₁.1]; omega),
      List.getElem?_eq_none (by rw [h₂.1]; omega)]

/-- C21: the serial transpose computes B = A^T. For every matrix order and
every tile size with 1 <= tile_size < order the tiled loop nest leaves
`B[i + order * j] = A[j + order * i]` for all i, j < order; the result is the
array the untiled loop nest produces; and every element of B is written: the
result does not depend on what B held before. -/
theorem transpose_tiled_is_transpose {α : Type} (order tile_size : Nat) (A B : List α)
    (fuel : Nat) (hA : A.length = order * order) (hB : B.length = order * order)
    (ht1 : 1 ≤ tile_size) (ht2 : tile_size < order) (hfuel : order < fuel) :
    ∃ B', transpose order tile_size A fuel B = some B' ∧
      transpose_tiled order tile_size A fuel B = some B' ∧
      B'.length = order * order ∧
      (∀ i j, i < order → j < order →
        ∃ a, A[j + order * i]? = some a ∧ B'[i + order * j]? = some a) ∧
      transpose_untiled order A B = some B' ∧
      (∀ B₀ : List α, B₀.length = order * order →
        transpose_tiled order tile_size A fuel B₀ = some B') := by
  obtain ⟨B', hB', hinv⟩ := transpose_tiled_spec order tile_size A B fuel hA hB ht1 hfuel
  obtain ⟨Bu, hBu, hinvu⟩ := transpose_untiled_spec order A B hA hB
  refine ⟨B', by simp only [transpose, ht2, if_true, hB'], hB', hinv.1, ?_, ?_, ?_⟩
  · intro i j hi hj
    have hsrc : j + order * i < A.length := by rw [hA]; exact index_lt order j i hj hi
    exact ⟨A[j + order * i], List.getElem?_eq_getElem hsrc,
      by rw [hinv.2 i j trivial hi hj, List.getElem?_eq_getElem hsrc]⟩
  · rw [hBu, transposed_unique order A B' Bu hinv hinvu]
  · intro B₀ hB₀
    obtain ⟨B1, hB1, hinv1⟩ := transpose_tiled_spec order tile_size A B₀ fuel hA hB₀ ht1 hfuel
    rw [hB1, transposed_unique order A B' B1 hinv hinv1]

/-- Witness of C21: a matrix of order 3 with tile size 2. -/
theorem transpose_tiled_is_transpose_witness :
    ∃ B', transpose 3 2 [0, 1, 2, 3, 4, 5, 6, 7, 8] 4 (List.replicate 9 (-1 : Int)) =
        some B' ∧
      transpose_tiled 3 2 [0, 1, 2, 3, 4, 5, 6, 7, 8] 4 (List.replicate 9 (-1 : Int)) =
        some B' ∧
      B'.length = 3 * 3 ∧
      (∀ i j, i < 3 → j < 3 →
        ∃ a, ([0, 1, 2, 3, 4, 5, 6, 7, 8] : List Int)[j + 3 * i]? = some a ∧
          B'[i + 3 * j]? = some a) ∧
      transpose_untiled 3 [0, 1, 2, 3, 4, 5, 6, 7, 8] (List.replicate 9 (-1 : Int)) =
        some B' ∧
      (∀ B₀ : List Int, B₀.length = 3 * 3 →
        transpose_tiled 3 2 [0, 1, 2, 3, 4, 5, 6, 7, 8] 4 B₀ = some B') :=
  transpose_tiled_is_transpose 3 2 [0, 1, 2, 3, 4, 5, 6, 7, 8] (List.replicate 9 (-1)) 4
    (by decide) (by decide) (by decide) (by decide) (by decide)

/-- A run of the tiled and of the untiled transpose on a matrix of order 3;
a tile size of 0 does not terminate. -/
theorem transpose_run_three :
    transpose_tiled 3 2 [0, 1, 2, 3, 4, 5, 6, 7, 8] 4 (List.replicate 9 (-1 : Int)) =
        some [0, 3, 6, 1, 4, 7, 2, 5, 8] ∧
      transpose_untiled 3 [0, 1, 2, 3, 4, 5, 6, 7, 8] (List.replicate 9 (-1 : Int)) =
        some [0, 3, 6, 1, 4, 7, 2, 5, 8] ∧
      transpose_tiled 3 0 [0, 1, 2, 3, 4, 5, 6, 7, 8] 100 (List.replicate 9 (-1 : Int)) =
        none := by
  exact ⟨rfl, rfl, rfl⟩

end transpose_serial
